import Mathlib

/-!
# Smart-invoice spreadsheet analyzer: a shallow embedding

The Go package `services` (files `excel_analyzer.go`, `excel_analyzer_helpers.go`,
`excel_analyzer_analysis.go`) is embedded as pure Lean functions.

* A Go `string` is modelled as the list of its Unicode code points (`GoString`);
  `len(s)` is the number of bytes of the UTF-8 encoding (`byteLen`).
* Calls into libraries that are not part of the repository and that depend on large
  tables (`strings.ToLower`, `unicode.IsLetter`, `unicode.IsDigit`, `strconv.ParseFloat`,
  `excelize.CoordinatesToCellName`) are fields of the parameter `Stdlib`.
* The small library functions (`strings.TrimSpace`, `strings.Fields`, `strings.Contains`,
  `strings.ReplaceAll` with a one-character pattern, prefix and suffix tests) and the
  regular expressions used by the analyzer are modelled concretely.
-/

namespace SmartInvoice

/-! ## Strings -/

/-- A Go string, as the sequence of its code points. -/
abbrev GoString := List Char

/-- The value of `len(s)`: the number of bytes of the UTF-8 encoding. -/
def byteLen (s : GoString) : Nat :=
  (s.map Char.utf8Size).sum

/-- The predicate `unicode.IsSpace`: the Latin-1 spaces and the `White_Space` table. -/
def isSpace (c : Char) : Bool :=
  let n := c.toNat
  (9 ≤ n && n ≤ 13) || n == 32 || n == 0x85 || n == 0xA0 || n == 0x1680 ||
    (0x2000 ≤ n && n ≤ 0x200A) || n == 0x2028 || n == 0x2029 || n == 0x202F ||
    n == 0x205F || n == 0x3000

/-- The function `strings.TrimSpace`: leading and trailing white space removed. -/
def trimSpace (s : GoString) : GoString :=
  ((s.dropWhile isSpace).reverse.dropWhile isSpace).reverse

/-- Scanning loop of `strings.Fields`; `cur` is the word being read. -/
def fieldsGo : GoString → GoString → List GoString
  | [], cur => if cur.isEmpty then [] else [cur]
  | c :: cs, cur =>
    if isSpace c then
      if cur.isEmpty then fieldsGo cs [] else cur :: fieldsGo cs []
    else fieldsGo cs (cur ++ [c])

/-- The function `strings.Fields`: the maximal runs of non-space characters. -/
def fields (s : GoString) : List GoString :=
  fieldsGo s []

/-- The function `strings.HasPrefix`. -/
def hasPrefix : GoString → GoString → Bool
  | _, [] => true
  | [], _ :: _ => false
  | c :: cs, p :: ps => c == p && hasPrefix cs ps

/-- The function `strings.HasSuffix`. -/
def hasSuffix (s suffix : GoString) : Bool :=
  hasPrefix s.reverse suffix.reverse

/-- The function `strings.Contains`. -/
def contains : GoString → GoString → Bool
  | [], sub => sub.isEmpty
  | c :: cs, sub => hasPrefix (c :: cs) sub || contains cs sub

/-- The function `strings.ReplaceAll s old new` for a pattern `old` of one character
(every call of the analyzer has this form). -/
def replaceAll (s : GoString) (old : Char) (new : GoString) : GoString :=
  (s.map (fun c => if c = old then new else [c])).flatten

/-! ## Regular expressions

The patterns of the analyzer are sequences of character classes with a greedy
repetition count, with at most one capturing group. `Atom` is one such class; a
pattern is a `List Atom`. Matching is the leftmost-first (backtracking) semantics of
Go's `regexp` package. -/

/-- One repeated character class of a pattern. -/
structure Atom where
  /-- The character class. -/
  cls : Char → Bool
  /-- Least number of repetitions. -/
  min : Nat
  /-- Greatest number of repetitions, `none` when unbounded. -/
  max : Option Nat
  /-- Whether the class stands inside the capturing group. -/
  cap : Bool

/-- Whether a further repetition is allowed after `n` repetitions. -/
def Atom.more (a : Atom) (n : Nat) : Bool :=
  match a.max with
  | none => true
  | some m => decide (n < m)

/-- Greedy repetition of `a` after `n` repetitions, followed by the continuation `k`;
the result is the text of the capturing group and the unread input. -/
def matchRep (a : Atom) (k : GoString → Option (GoString × GoString)) :
    Nat → GoString → Option (GoString × GoString)
  | n, [] => if a.min ≤ n then k [] else none
  | n, c :: cs =>
    if a.cls c && a.more n then
      match matchRep a k (n + 1) cs with
      | some (g, rest) => some (if a.cap then c :: g else g, rest)
      | none => if a.min ≤ n then k (c :: cs) else none
    else if a.min ≤ n then k (c :: cs) else none

/-- Match of a pattern at the start of the input. -/
def matchHere : List Atom → GoString → Option (GoString × GoString)
  | [], s => some ([], s)
  | a :: as, s => matchRep a (matchHere as) 0 s

/-- The method `FindStringSubmatch` reduced to what the analyzer reads: `none` when
there is no match, otherwise the text of group 1 of the leftmost match. -/
def findSubmatch (re : List Atom) : GoString → Option GoString
  | [] => (matchHere re []).map Prod.fst
  | c :: cs =>
    match matchHere re (c :: cs) with
    | some (g, _) => some g
    | none => findSubmatch re cs

/-- The function `regexp.MatchString`. -/
def matchString (re : List Atom) (s : GoString) : Bool :=
  (findSubmatch re s).isSome

/-- A literal character. -/
def lit (c : Char) : Atom := ⟨fun x => x == c, 1, some 1, false⟩

/-- The class `[A-Z_]`. -/
def capsStart (c : Char) : Bool := ('A' ≤ c && c ≤ 'Z') || c == '_'

/-- The class `[A-Z0-9_]`. -/
def capsRest (c : Char) : Bool := ('A' ≤ c && c ≤ 'Z') || ('0' ≤ c && c ≤ '9') || c == '_'

/-- The class `\d`. -/
def digit (c : Char) : Bool := '0' ≤ c && c ≤ '9'

/-- The pattern `\[\[([^\]]+)\]\]`. -/
def doubleBracketPattern : List Atom :=
  [lit '[', lit '[', ⟨fun c => c != ']', 1, none, true⟩, lit ']', lit ']']

/-- The pattern `\[([A-Z_][A-Z0-9_]*)\]`. -/
def singleBracketPattern : List Atom :=
  [lit '[', ⟨capsStart, 1, some 1, true⟩, ⟨capsRest, 0, none, true⟩, lit ']']

/-- The pattern `\{\{([^}]+)\}\}`. -/
def doubleCurlyPattern : List Atom :=
  [lit '{', lit '{', ⟨fun c => c != '}', 1, none, true⟩, lit '}', lit '}']

/-- The pattern `\{([A-Z_][A-Z0-9_]*)\}`. -/
def singleCurlyPattern : List Atom :=
  [lit '{', ⟨capsStart, 1, some 1, true⟩, ⟨capsRest, 0, none, true⟩, lit '}']

/-- The pattern `<([A-Z_][A-Z0-9_]*)>`. -/
def anglePattern : List Atom :=
  [lit '<', ⟨capsStart, 1, some 1, true⟩, ⟨capsRest, 0, none, true⟩, lit '>']

/-- The date patterns `\d{1,2}/\d{1,2}/\d{2,4}`, `\d{1,2}-\d{1,2}-\d{2,4}` and
`\d{4}-\d{1,2}-\d{1,2}`. -/
def datePatterns : List (List Atom) :=
  [[⟨digit, 1, some 2, false⟩, lit '/', ⟨digit, 1, some 2, false⟩, lit '/',
    ⟨digit, 2, some 4, false⟩],
   [⟨digit, 1, some 2, false⟩, lit '-', ⟨digit, 1, some 2, false⟩, lit '-',
    ⟨digit, 2, some 4, false⟩],
   [⟨digit, 4, some 4, false⟩, lit '-', ⟨digit, 1, some 2, false⟩, lit '-',
    ⟨digit, 1, some 2, false⟩]]

/-! ## Library functions taken as parameters -/

/-- The library functions the analyzer calls whose definitions rest on tables or code
outside the repository. -/
structure Stdlib where
  /-- The function `unicode.ToLower`; `strings.ToLower` applies it to every code point. -/
  toLower : Char → Char
  /-- The function `unicode.IsLetter`. -/
  isLetter : Char → Bool
  /-- The function `unicode.IsDigit`. -/
  isDigit : Char → Bool
  /-- Whether `strconv.ParseFloat(s, 64)` returns a nil error. -/
  parseFloatOk : GoString → Bool
  /-- The function `excelize.CoordinatesToCellName(col, row)`, `none` for an error. -/
  coordinatesToCellName : Nat → Nat → Option GoString
  /-- The function `unicode.ToTitle`, which `strings.Title` applies to the first
  character of every word. -/
  toTitle : Char → Char

/-- The function `strings.ToLower`. -/
def Stdlib.lower (E : Stdlib) (s : GoString) : GoString :=
  s.map E.toLower

/-- Lower-casing neither creates nor removes white space (no white-space character
has a case mapping, and no letter maps to one). -/
def Stdlib.LowerKeepsSpace (E : Stdlib) : Prop :=
  ∀ c, isSpace (E.toLower c) = isSpace c

/-- The characters that can occur in a string accepted by `strconv.ParseFloat`:
ASCII letters and digits, the signs, the point and the underscore. -/
def floatAlphabet (c : Char) : Bool :=
  ('0' ≤ c && c ≤ '9') || ('a' ≤ c && c ≤ 'z') || ('A' ≤ c && c ≤ 'Z') ||
    c == '+' || c == '-' || c == '.' || c == '_'

/-- The predicate `strconv.ParseFloat` accepts only strings over `floatAlphabet`. -/
def Stdlib.FloatSyntax (E : Stdlib) : Prop :=
  ∀ s, E.parseFloatOk s = true → ∀ c ∈ s, floatAlphabet c = true

/-! ## Pattern detector and cell classifier (`excel_analyzer_helpers.go`) -/

/-- The map returned by `detectFillableField`, with its four keys. -/
structure FillableInfo where
  /-- Key `is_fillable`. -/
  is_fillable : Bool
  /-- Key `pattern_type`. -/
  pattern_type : GoString
  /-- Key `field_name`. -/
  field_name : GoString
  /-- Key `placeholder`. -/
  placeholder : GoString
deriving DecidableEq, Repr

/-- The function `detectFillableField`. -/
def detectFillableField (E : Stdlib) (value : GoString) : FillableInfo :=
  let value := trimSpace value
  match findSubmatch doubleBracketPattern value with
  | some m => ⟨true, "double_bracket".toList, E.lower (replaceAll m ' ' "_".toList), m⟩
  | none =>
  match findSubmatch singleBracketPattern value with
  | some m => ⟨true, "single_bracket_caps".toList, E.lower m, m⟩
  | none =>
  match findSubmatch doubleCurlyPattern value with
  | some m => ⟨true, "double_curly".toList, E.lower (replaceAll m ' ' "_".toList), m⟩
  | none =>
  match findSubmatch singleCurlyPattern value with
  | some m => ⟨true, "single_curly_caps".toList, E.lower m, m⟩
  | none =>
  match findSubmatch anglePattern value with
  | some m => ⟨true, "angle_brackets".toList, E.lower m, m⟩
  | none => ⟨false, [], [], []⟩

/-- The list `headerIndicators` of `isLikelyHeader`. -/
def headerIndicators : List GoString :=
  ["name", "id", "code", "number", "date", "amount", "total", "price",
   "quantity", "description", "type", "status", "address", "email",
   "phone", "category", "item", "product", "service", "client", "customer",
   "vendor", "supplier", "company", "organization", "department", "location",
   "reference", "order", "invoice", "bill", "receipt", "payment", "tax"].map String.toList

/-- The function `isLikelyHeader`. -/
def isLikelyHeader (E : Stdlib) (value : GoString) (rowIndex _colIndex : Int) : Bool :=
  let value := E.lower (trimSpace value)
  if rowIndex > 5 then false
  else if headerIndicators.any (fun indicator => contains value indicator) then true
  else if hasSuffix value ":".toList || hasSuffix value "#".toList then true
  else if (fields value).length == 1 && decide (byteLen value > 2) &&
      decide (byteLen value < 20) then true
  else false

/-- The function `detectDataType`. The test `float64(digitCount)/float64(len(value)) > 0.6`
is taken on lengths below 20, where the quotient of the two small integers is either
exactly three fifths (and rounds to the constant) or differs from it by more than the
rounding error, so it is the integer comparison `5 * digitCount > 3 * len(value)`. -/
def detectDataType (E : Stdlib) (value : GoString) : GoString :=
  let value := trimSpace value
  if hasPrefix value "$".toList || hasSuffix value "$".toList then "currency".toList
  else if E.parseFloatOk (replaceAll (replaceAll value ',' []) '$' []) then "number".toList
  else if datePatterns.any (fun pattern => matchString pattern value) then "date".toList
  else if contains value "@".toList && contains value ".".toList then "email".toList
  else if decide (byteLen value > 7) && decide (byteLen value < 20) &&
      decide (5 * (value.filter E.isDigit).length > 3 * byteLen value) then "phone".toList
  else "text".toList

/-- The keys of the map `stopWords` of `extractKeywords`. -/
def stopWords : List GoString :=
  ["a", "an", "the", "and", "or", "but", "in", "on", "at", "to", "for", "of", "with",
   "by"].map String.toList

/-- The function `extractKeywords`. -/
def extractKeywords (E : Stdlib) (value : GoString) : List GoString :=
  let value := E.lower (trimSpace value)
  let cleanValue := replaceAll value ':' []
  let cleanValue := replaceAll cleanValue '#' []
  let cleanValue := replaceAll cleanValue '-' " ".toList
  let cleanValue := replaceAll cleanValue '_' " ".toList
  let words := fields cleanValue
  words.filter (fun word => decide (byteLen word > 2) && !(stopWords.contains word))

/-! ## Sampler (`excel_analyzer_helpers.go`) -/

/-- A sheet: rows of cells, the rows of possibly different lengths. -/
abbrev Grid := List (List GoString)

/-- A Go loop `for i := start; cond(i); i += step`, whose body may fail (a failed
index); `none` also when the `fuel` runs out before the condition turns false. -/
def forLoop {σ : Type} (cond : Nat → Bool) (step : Nat) (body : Nat → σ → Option σ) :
    Nat → Nat → σ → Option σ
  | 0, i, st => if cond i then none else some st
  | fuel + 1, i, st =>
    if cond i then
      match body i st with
      | some st1 => forLoop cond step body fuel (i + step) st1
      | none => none
    else some st

/-- The statements `analysisRows = append(analysisRows, rows[i])` and
`rowMapping = append(rowMapping, i)`; `none` when `i` is not an index of `rows`. -/
def sampleRow (rows : Grid) (i : Nat) (st : Grid × List Nat) : Option (Grid × List Nat) :=
  match rows[i]? with
  | some row => some (st.1 ++ [row], st.2 ++ [i])
  | none => none

/-- The assignment `rowMapping[i] = i`; `none` when `i` is not an index. -/
def setIndex (i : Nat) (rowMapping : List Nat) : Option (List Nat) :=
  if i < rowMapping.length then some (rowMapping.set i i) else none

/-- The function `smartSample`; `none` stands for a run-time panic. -/
def smartSample (rows : Grid) : Option (Grid × List Nat) :=
  let maxRows := rows.length
  if maxRows > 50 then
    -- first 10 rows
    (forLoop (fun i => decide (i < 10) && decide (i < maxRows)) 1 (sampleRow rows)
      maxRows 0 ([], [])).bind fun st1 =>
    -- every 5th row of the middle section
    (if maxRows > 20 then
      forLoop (fun i => decide (i < maxRows - 5)) 5
        (fun i st => if st.1.length < 30 then sampleRow rows i st else some st)
        maxRows 10 st1
     else some st1).bind fun st2 =>
    -- last 5 rows
    forLoop (fun i => decide (i < maxRows)) 1
      (fun i st => if i > 10 then sampleRow rows i st else some st)
      maxRows (maxRows - 5) st2
  else
    (forLoop (fun i => decide (i < rows.length)) 1 setIndex
      rows.length 0 (List.replicate rows.length 0)).map fun rowMapping => (rows, rowMapping)

/-- The function `findMaxColumns`. -/
def findMaxColumns (rows : Grid) : Nat :=
  rows.foldl (fun maxCols row => if row.length > maxCols then row.length else maxCols) 0

/-! ## Orchestrator (`excel_analyzer.go`) -/

/-- The map `cellInfo` built for every classified cell. -/
structure CellInfo where
  /-- Key `cell`: the cell reference. -/
  cell : GoString
  /-- Key `value`. -/
  value : GoString
  /-- Key `row`, counted from 1. -/
  row : Nat
  /-- Key `column`, counted from 1. -/
  column : Nat
  /-- Key `is_header`. -/
  is_header : Bool
  /-- Key `data_type`. -/
  data_type : GoString
  /-- Key `keywords`. -/
  keywords : List GoString
  /-- Key `fillable`. -/
  fillable : FillableInfo
deriving DecidableEq, Repr

/-- The two lists filled by the cell loop of `AnalyzeFile`. -/
structure Classified where
  /-- The slice `headerCandidates`. -/
  headerCandidates : List CellInfo
  /-- The slice `dataCells`. -/
  dataCells : List CellInfo
deriving DecidableEq, Repr

/-- Body of the inner loop of `AnalyzeFile` for the cell at `colIndex` of `row`
(the map `cellData`, which no later step reads, is left out). -/
def processCell (E : Stdlib) (row : List GoString) (originalRowIndex : Nat)
    (colIndex : Nat) (st : Classified) : Option Classified :=
  match row[colIndex]? with
  | none => none
  | some raw =>
    let cellValue := trimSpace raw
    if cellValue = [] then some st
    else
      match E.coordinatesToCellName (colIndex + 1) (originalRowIndex + 1) with
      | none => some st
      | some cellName =>
        let fillableInfo := detectFillableField E cellValue
        let cellInfo : CellInfo :=
          { cell := cellName
            value := cellValue
            row := originalRowIndex + 1
            column := colIndex + 1
            is_header := isLikelyHeader E cellValue originalRowIndex colIndex
            data_type := detectDataType E cellValue
            keywords := extractKeywords E cellValue
            fillable := fillableInfo }
        if fillableInfo.is_fillable then
          some { st with dataCells := st.dataCells ++ [cellInfo] }
        else if cellInfo.is_header then
          some { st with headerCandidates := st.headerCandidates ++ [cellInfo] }
        else
          some { st with dataCells := st.dataCells ++ [cellInfo] }

/-- The loop `for sampleIndex, row := range analysisRows` of `AnalyzeFile`, from
`sampleIndex` on; `none` stands for a run-time panic. -/
def processRows (E : Stdlib) (rowMapping : List Nat) (analysisMaxCols : Nat) :
    Nat → Grid → Classified → Option Classified
  | _, [], st => some st
  | sampleIndex, row :: rest, st =>
    match rowMapping[sampleIndex]? with
    | none => none
    | some originalRowIndex =>
      match forLoop (fun colIndex => decide (colIndex < analysisMaxCols) &&
          decide (colIndex < row.length)) 1 (processCell E row originalRowIndex)
          row.length 0 st with
      | none => none
      | some st1 => processRows E rowMapping analysisMaxCols (sampleIndex + 1) rest st1

/-- The part of `AnalyzeFile` from `smartSample` to the end of the cell loop, on the
rows of the chosen sheet. -/
def classifyCells (E : Stdlib) (rows : Grid) : Option Classified :=
  match smartSample rows with
  | none => none
  | some (analysisRows, rowMapping) =>
    let maxCols := findMaxColumns analysisRows
    let analysisMaxCols := if maxCols > 20 then 20 else maxCols
    processRows E rowMapping analysisMaxCols 0 analysisRows ⟨[], []⟩

/-- The opened workbook, as far as the analyzer reads it. -/
structure Document where
  /-- The result of `GetSheetList`. -/
  sheetList : List GoString
  /-- The result of `GetRows`: the rows, and whether the error is non-nil. -/
  getRows : GoString → Grid × Bool
  /-- The result of `GetMergeCells`: the number of merged ranges, and whether the error
  is non-nil. -/
  getMergeCells : GoString → Nat × Bool

/-- The number of cells that are not empty after trimming (the counting loops of
`findBestSheet` and `analyzeAllSheets`). -/
def countDataCells (rows : Grid) : Nat :=
  rows.foldl (fun n row =>
    row.foldl (fun m cell => if trimSpace cell ≠ [] then m + 1 else m) n) 0

/-- The variables `bestSheet`, `bestRows` and `maxDataCells` of `findBestSheet`. -/
structure Best where
  /-- The variable `bestSheet`. -/
  bestSheet : GoString
  /-- The variable `bestRows`. -/
  bestRows : Grid
  /-- The variable `maxDataCells`. -/
  maxDataCells : Nat
deriving DecidableEq, Repr

/-- The loop over the sheet names of `findBestSheet`. -/
def findBestSheetLoop (f : Document) : List GoString → Best → Best
  | [], st => st
  | sheetName :: rest, st =>
    let (rows, err) := f.getRows sheetName
    if err then findBestSheetLoop f rest st
    else
      let dataCells := countDataCells rows
      if dataCells > st.maxDataCells then
        findBestSheetLoop f rest ⟨sheetName, rows, dataCells⟩
      else findBestSheetLoop f rest st

/-- The function `findBestSheet`; `none` stands for the panic of `sheets[0]` on an
empty list. -/
def findBestSheet (f : Document) (sheets : List GoString) : Option (GoString × Grid) :=
  let st := findBestSheetLoop f sheets ⟨[], [], 0⟩
  if st.bestSheet = [] then
    match sheets with
    | [] => none
    | first :: _ => some (first, (f.getRows first).1)
  else some (st.bestSheet, st.bestRows)

/-! ## A reference instance of the library -/

/-- The ASCII lower-casing. -/
def asciiToLower (c : Char) : Char :=
  if 'A' ≤ c ∧ c ≤ 'Z' then Char.ofNat (c.toNat + 32) else c

/-- Plain decimal numerals: an optional sign, digits with at most one point and at
least one digit. -/
def plainDecimal (s : GoString) : Bool :=
  let body := match s with
    | [] => []
    | c :: r => if c = '+' ∨ c = '-' then r else c :: r
  body.all (fun c => digit c || c == '.') &&
    decide ((body.filter (fun c => c == '.')).length ≤ 1) && body.any digit

/-- The column letters of `excelize.ColumnNumberToName`. -/
def columnLetters : Nat → Nat → GoString
  | 0, _ => []
  | fuel + 1, num =>
    if num = 0 then []
    else columnLetters fuel ((num - 1) / 26) ++ [Char.ofNat ((num - 1) % 26 + 65)]

/-- The function `excelize.CoordinatesToCellName` (columns up to 16384, rows up to
1048576). -/
def cellName (col row : Nat) : Option GoString :=
  if col < 1 ∨ row < 1 ∨ col > 16384 ∨ row > 1048576 then none
  else some (columnLetters col col ++ (Nat.repr row).toList)

/-- An instance of `Stdlib` for evaluating the analyzer on concrete inputs. Case
mapping, letters and digits are those of ASCII (other characters are left unchanged and
are neither letters nor digits), cell names are those of the library, and the number
parser accepts plain decimal numerals only, where Go's also accepts exponents,
hexadecimal numerals, underscores between digits, `inf` and `nan`, and rejects a
numeral too large for a `float64`. -/
def asciiLib : Stdlib where
  toLower := asciiToLower
  isLetter := fun c => ('a' ≤ c && c ≤ 'z') || ('A' ≤ c && c ≤ 'Z')
  isDigit := digit
  parseFloatOk := plainDecimal
  coordinatesToCellName := cellName
  toTitle := fun c => if 'a' ≤ c ∧ c ≤ 'z' then Char.ofNat (c.toNat - 32) else c

/-! ## Invariants used in the proofs -/

/-- Invariant of the sampling loops: sampled row `k` is row `rowMapping[k]` of the
grid, and the mapping is strictly increasing with all entries below `b`. -/
def SampleInv (rows : Grid) (b : Nat) (st : Grid × List Nat) : Prop :=
  List.Forall₂ (fun row i => rows[i]? = some row) st.1 st.2 ∧
    st.2.Pairwise (· < ·) ∧ ∀ i ∈ st.2, i < b

/-- The number of cells of a grid that are not blank after trimming. -/
def nonBlankCells (rows : Grid) : Nat :=
  (rows.flatten.filter (fun cell => decide (trimSpace cell ≠ []))).length

/-- Invariant of the loop of `findBestSheet` after the sheets `pre`: either nothing has
been chosen and all sheets so far are blank, or the chosen sheet is the first of `pre`
with the greatest count, which is positive. -/
def BestInv (f : Document) (pre : List GoString) (st : Best) : Prop :=
  (st = ⟨[], [], 0⟩ ∧ ∀ s ∈ pre, nonBlankCells (f.getRows s).1 = 0) ∨
  (∃ i, pre[i]? = some st.bestSheet ∧ st.bestRows = (f.getRows st.bestSheet).1 ∧
    st.maxDataCells = nonBlankCells st.bestRows ∧ 0 < st.maxDataCells ∧
    (∀ s ∈ pre, nonBlankCells (f.getRows s).1 ≤ st.maxDataCells) ∧
    ∀ (j : Nat) (s : GoString), j < i → pre[j]? = some s →
      nonBlankCells (f.getRows s).1 < st.maxDataCells)

/-- A workbook with an empty sheet and two sheets of two non-blank cells each. -/
def sampleWorkbook : Document where
  sheetList := ["Cover".toList, "Data".toList, "More".toList]
  getRows := fun name =>
    if name = "Cover".toList then ([[" ".toList]], false)
    else if name = "Data".toList then ([["a".toList, "".toList], ["b".toList]], false)
    else if name = "More".toList then ([["c".toList, "d".toList]], false)
    else ([], true)
  getMergeCells := fun _ => (0, false)

/-- A classified cell whose coordinates point at its text in the grid `rows`: row and
column are counted from 1, the value is the trimmed text at that place, and the cell
reference is the library's name of (column, row). -/
def CellAt (E : Stdlib) (rows : Grid) (c : CellInfo) : Prop :=
  1 ≤ c.row ∧ 1 ≤ c.column ∧
    (∃ (row : List GoString) (raw : GoString), rows[c.row - 1]? = some row ∧
      row[c.column - 1]? = some raw ∧ c.value = trimSpace raw) ∧
    E.coordinatesToCellName c.column c.row = some c.cell

/-- A property of all cells of both lists. -/
def Classified.All (P : CellInfo → Prop) (st : Classified) : Prop :=
  (∀ c ∈ st.headerCandidates, P c) ∧ ∀ c ∈ st.dataCells, P c

/-! ## Declarative reading of the patterns -/

/-- The texts one repeated class stands for: `w` consists of characters of the class
and its length is within the repetition bounds. -/
def Atom.Accepts (a : Atom) (w : GoString) : Prop :=
  (∀ c ∈ w, a.cls c = true) ∧ a.min ≤ w.length ∧ ∀ m, a.max = some m → w.length ≤ m

/-- The text `mid` is matched by the whole pattern, `g` being the part matched inside
the capturing group. -/
def SeqMatch : List Atom → GoString → GoString → Prop
  | [], mid, g => mid = [] ∧ g = []
  | a :: as, mid, g => ∃ w v g1, mid = w ++ v ∧ a.Accepts w ∧ SeqMatch as v g1 ∧
      g = if a.cap then w ++ g1 else g1

/-- The pattern has a match somewhere in `s`. -/
def Matches (re : List Atom) (s : GoString) : Prop :=
  ∃ pre mid post g, s = pre ++ mid ++ post ∧ SeqMatch re mid g

/-- The pattern has a match in `s` that starts after `pre`, with group `g`, and no
match starts earlier. -/
def LeftmostMatch (re : List Atom) (s pre g : GoString) : Prop :=
  (∃ mid post, s = pre ++ mid ++ post ∧ SeqMatch re mid g) ∧
    ∀ pre1 mid1 post1 g1, s = pre1 ++ mid1 ++ post1 → SeqMatch re mid1 g1 →
      pre.length ≤ pre1.length

/-- Every match of the pattern begins and ends with a character that is not white
space (the placeholder patterns begin and end with a bracket). -/
def Bracketed (re : List Atom) : Prop :=
  ∀ mid g, SeqMatch re mid g →
    ∃ c m d, mid = c :: m ++ [d] ∧ isSpace c = false ∧ isSpace d = false

/-- Two matches of the pattern that start at the same place have the same group. -/
def GroupDetermined (re : List Atom) : Prop :=
  ∀ (rest1 rest2 mid1 post1 g1 mid2 post2 g2 : GoString), rest1 = rest2 →
    rest1 = mid1 ++ post1 → rest2 = mid2 ++ post2 →
    SeqMatch re mid1 g1 → SeqMatch re mid2 g2 → g1 = g2

/-- The identifiers matched as a whole by `[A-Z_][A-Z0-9_]*`. -/
def isCapsId : GoString → Bool
  | [] => false
  | c :: r => capsStart c && r.all capsRest

/-- The pattern `\[\[(.+)\]\]` under which the specification states the property of
the double-bracket placeholder; the dot stands for any character but a line feed. -/
def dotPlusDoubleBracketPattern : List Atom :=
  [lit '[', lit '[', ⟨fun c => c != '\n', 1, none, true⟩, lit ']', lit ']']

/-- Keyword extraction as the specification words it: the text is lower-cased, every
`:` and `#` is deleted, every `-` and `_` becomes a space, the result is split at white
space, and the words of length at most 2 (in bytes) and the stop words are dropped. -/
def extractKeywordsSpec (E : Stdlib) (text : GoString) : List GoString :=
  (fields (replaceAll (replaceAll (replaceAll (replaceAll (E.lower text) ':' []) '#' [])
    '-' " ".toList) '_' " ".toList)).filter
    (fun w => decide (¬ byteLen w ≤ 2) && decide (w ∉ stopWords))

/-! ## The checks of `detectDataType`, read declaratively -/

/-- The text starts or ends with `$`. -/
def IsCurrency (t : GoString) : Prop :=
  (∃ r, t = '$' :: r) ∨ ∃ r, t = r ++ ['$']

/-- The text parses as a number once every `,` and `$` is removed. -/
def IsNumeric (E : Stdlib) (t : GoString) : Prop :=
  E.parseFloatOk (replaceAll (replaceAll t ',' []) '$' []) = true

/-- The text contains a match of one of the three date patterns. -/
def HasDate (t : GoString) : Prop :=
  ∃ p ∈ datePatterns, Matches p t

/-- The text contains both `@` and `.`. -/
def IsEmail (t : GoString) : Prop :=
  '@' ∈ t ∧ '.' ∈ t

/-- The text has between 8 and 19 bytes and more than 60% of that number are digits. -/
def IsPhone (E : Stdlib) (t : GoString) : Prop :=
  7 < byteLen t ∧ byteLen t < 20 ∧ 3 * byteLen t < 5 * (t.filter E.isDigit).length

/-! ## Go maps and their iteration order -/

/-- A Go map, as the list of its entries in the order of first insertion; the keys are
distinct. -/
abbrev GoMap (κ ν : Type) := List (κ × ν)

/-- The lookup `m[k]` with the presence flag, `none` when the key is absent. -/
def GoMap.get? {κ ν : Type} [DecidableEq κ] : GoMap κ ν → κ → Option ν
  | [], _ => none
  | (k1, v1) :: m, k => if k1 = k then some v1 else GoMap.get? m k

/-- The assignment `m[k] = v`. -/
def GoMap.set {κ ν : Type} [DecidableEq κ] : GoMap κ ν → κ → ν → GoMap κ ν
  | [], k, v => [(k, v)]
  | (k1, v1) :: m, k, v => if k1 = k then (k, v) :: m else (k1, v1) :: GoMap.set m k v

/-- The order in which a `range` over a map visits the entries is not fixed by the
language. `indices site n` is the order chosen at the loop `site` for a map of `n`
entries, as positions in the insertion order. -/
structure MapOrder where
  /-- The visiting order for `n` entries at a loop. -/
  indices : Nat → Nat → List Nat

/-- Every entry is visited once. -/
def MapOrder.Valid (o : MapOrder) : Prop :=
  ∀ site n, (o.indices site n).Perm (List.range n)

/-- The entries of a map in the order in which the loop `site` visits them. -/
def MapOrder.iterate {κ ν : Type} (o : MapOrder) (site : Nat) (m : GoMap κ ν) :
    List (κ × ν) :=
  (o.indices site m.length).filterMap (fun i => m[i]?)

/-- The order of insertion, one of the possible visiting orders. -/
def insertionOrder : MapOrder := ⟨fun _ n => List.range n⟩

/-- The reverse of the order of insertion, another possible visiting order. -/
def reverseOrder : MapOrder := ⟨fun _ n => (List.range n).reverse⟩

/-! ## Floating point

A non-negative finite `float64` is the number `mant / 2 ^ scale`. The operations the
analyzer uses (conversion of a decimal constant or of an integer, addition, division)
compute the exact result and round it to 53 significant bits, ties to even. Infinities,
NaN and subnormal numbers do not arise: all values are counts, quotients of counts or
sums of at most three constants. -/

/-- A non-negative `float64`, the number `mant / 2 ^ scale`; in normal form `mant` is
odd or `scale` is 0. -/
structure F64 where
  /-- The numerator. -/
  mant : Nat
  /-- The exponent of the denominator. -/
  scale : Nat
deriving DecidableEq, Repr

/-- The normal form of `m / 2 ^ s`. -/
def F64.norm : Nat → Nat → F64
  | m, 0 => ⟨m, 0⟩
  | m, s + 1 => if m % 2 = 0 then F64.norm (m / 2) s else ⟨m, s + 1⟩

/-- The quotient `N / D` rounded to the nearest integer, ties to even. -/
def roundHalfEven (N D : Nat) : Nat :=
  let q := N / D
  let r := N % D
  if 2 * r > D ∨ (2 * r = D ∧ q % 2 = 1) then q + 1 else q

/-- The integer part of the binary logarithm (0 for 0), by halving. -/
def floorLog2 : Nat → Nat → Nat
  | 0, _ => 0
  | fuel + 1, n => if 2 ≤ n then floorLog2 fuel (n / 2) + 1 else 0

/-- The `float64` nearest to the fraction `N / D`: with `e` the binary exponent of the
fraction, the fraction is scaled into `[2 ^ 52, 2 ^ 53)`, rounded to an integer and
scaled back. -/
def F64.round (N D : Nat) : F64 :=
  if N = 0 ∨ D = 0 then ⟨0, 0⟩
  else
    let k := floorLog2 N N
    let l := floorLog2 D D
    if N * 2 ^ l ≥ D * 2 ^ k then
      -- the exponent is k - l
      if k ≤ l + 52 then F64.norm (roundHalfEven (N * 2 ^ (52 + l - k)) D) (52 + l - k)
      else ⟨roundHalfEven N (D * 2 ^ (k - l - 52)) * 2 ^ (k - l - 52), 0⟩
    else
      -- the exponent is k - l - 1
      if k ≤ l + 53 then F64.norm (roundHalfEven (N * 2 ^ (53 + l - k)) D) (53 + l - k)
      else ⟨roundHalfEven N (D * 2 ^ (k - l - 53)) * 2 ^ (k - l - 53), 0⟩

/-- The conversion `float64(n)` of an integer. -/
def F64.ofNat (n : Nat) : F64 := F64.round n 1

/-- The sum of two `float64`. -/
def F64.add (a b : F64) : F64 :=
  F64.round (a.mant * 2 ^ b.scale + b.mant * 2 ^ a.scale) (2 ^ (a.scale + b.scale))

/-- The quotient of two `float64`, the divisor not zero. -/
def F64.div (a b : F64) : F64 :=
  F64.round (a.mant * 2 ^ b.scale) (b.mant * 2 ^ a.scale)

/-- The rational number a `float64` stands for. -/
def F64.toRat (a : F64) : ℚ := a.mant / 2 ^ a.scale

/-! ## Field inventory and field candidates (`excel_analyzer_analysis.go`) -/

/-- The map `fieldData` built for every fillable cell. -/
structure FieldData where
  /-- Key `cell`. -/
  cell : GoString
  /-- Key `value`. -/
  value : GoString
  /-- Key `row`. -/
  row : Nat
  /-- Key `column`. -/
  column : Nat
  /-- Key `pattern_type`. -/
  pattern_type : GoString
  /-- Key `field_name`. -/
  field_name : GoString
  /-- Key `placeholder`. -/
  placeholder : GoString
  /-- Key `data_type`. -/
  data_type : GoString
deriving DecidableEq, Repr

/-- The map returned by `extractFillableFields`. -/
structure FillableFields where
  /-- Key `fields`. -/
  fields : List FieldData
  /-- Key `patterns`. -/
  patterns : GoMap GoString Nat
  /-- Key `field_mapping`. -/
  field_mapping : GoMap GoString GoString
  /-- Key `total_count`. -/
  total_count : Nat
deriving DecidableEq, Repr

/-- Body of the loop of `extractFillableFields`. -/
def extractFillableStep (st : FillableFields) (cellInfo : CellInfo) : FillableFields :=
  if cellInfo.fillable.is_fillable then
    { st with
      fields := st.fields ++ [
        { cell := cellInfo.cell
          value := cellInfo.value
          row := cellInfo.row
          column := cellInfo.column
          pattern_type := cellInfo.fillable.pattern_type
          field_name := cellInfo.fillable.field_name
          placeholder := cellInfo.fillable.placeholder
          data_type := cellInfo.data_type }]
      patterns := st.patterns.set cellInfo.fillable.pattern_type
        ((st.patterns.get? cellInfo.fillable.pattern_type).getD 0 + 1)
      field_mapping := st.field_mapping.set cellInfo.fillable.field_name cellInfo.cell }
  else st

/-- The function `extractFillableFields`. -/
def extractFillableFields (dataCells headerCandidates : List CellInfo) : FillableFields :=
  let allCells := dataCells ++ headerCandidates
  let st := allCells.foldl extractFillableStep ⟨[], [], [], 0⟩
  { st with total_count := st.fields.length }

/-- The first byte of the UTF-8 encoding of a character. -/
def utf8FirstByte (c : Char) : Nat :=
  let n := c.toNat
  if n < 0x80 then n
  else if n < 0x800 then 0xC0 + n / 64
  else if n < 0x10000 then 0xE0 + n / 4096
  else 0xF0 + n / 262144

/-- The function `generateFieldName`. The test `unicode.IsDigit(rune(result[0]))` reads
the first byte of `result`, not its first character. -/
def generateFieldName (E : Stdlib) (displayName : GoString) : GoString :=
  let fieldName := E.lower (trimSpace displayName)
  let fieldName := replaceAll fieldName ' ' "_".toList
  let fieldName := replaceAll fieldName '-' "_".toList
  let fieldName := replaceAll fieldName ':' []
  let fieldName := replaceAll fieldName '#' []
  let fieldName := replaceAll fieldName '(' []
  let fieldName := replaceAll fieldName ')' []
  let result := fieldName.filter (fun char => E.isLetter char || E.isDigit char || char == '_')
  match result with
  | [] => result
  | c :: _ =>
    if E.isDigit (Char.ofNat (utf8FirstByte c)) then "field_".toList ++ result else result

/-- The function `calculateConfidence`. -/
def calculateConfidence (cellInfo : CellInfo) : F64 :=
  let confidence := F64.round 5 10
  let confidence :=
    if cellInfo.row ≤ 2 then confidence.add (F64.round 3 10)
    else if cellInfo.row ≤ 5 then confidence.add (F64.round 1 10)
    else confidence
  if cellInfo.keywords.length > 0 then confidence.add (F64.round 2 10) else confidence

/-- The map `candidate` of `generateFieldCandidates`; the key `inferred` is present,
with value true, for the candidates inferred from a column only. -/
structure FieldCandidate where
  /-- Key `field_name`. -/
  field_name : GoString
  /-- Key `display_name`. -/
  display_name : GoString
  /-- Key `cell`. -/
  cell : GoString
  /-- Key `data_type`. -/
  data_type : GoString
  /-- Key `keywords`. -/
  keywords : List GoString
  /-- Key `confidence`. -/
  confidence : F64
  /-- Key `inferred`, false when the key is absent. -/
  inferred : Bool
deriving DecidableEq, Repr

/-- The function `isSeparator` of package `strings`. -/
def isSeparator (E : Stdlib) (r : Char) : Bool :=
  if r.toNat ≤ 0x7F then
    !(digit r || ('a' ≤ r && r ≤ 'z') || ('A' ≤ r && r ≤ 'Z') || r == '_')
  else if E.isLetter r || E.isDigit r then false
  else isSpace r

/-- The mapping loop of `strings.Title`; `prev` is the previous character. -/
def titleGo (E : Stdlib) : Char → GoString → GoString
  | _, [] => []
  | prev, r :: rest => (if isSeparator E prev then E.toTitle r else r) :: titleGo E r rest

/-- The function `strings.Title`. -/
def Stdlib.title (E : Stdlib) (s : GoString) : GoString :=
  titleGo E ' ' s

/-- The candidate built from a header cell. -/
def headerCandidate (E : Stdlib) (header : CellInfo) : FieldCandidate :=
  { field_name := generateFieldName E header.value
    display_name := header.value
    cell := header.cell
    data_type := header.data_type
    keywords := header.keywords
    confidence := calculateConfidence header
    inferred := false }

/-- The loop that groups the data cells by column into the map `columnData`. -/
def groupByColumn (dataCells : List CellInfo) : GoMap Nat (List CellInfo) :=
  dataCells.foldl (fun columnData dataCell =>
    columnData.set dataCell.column
      ((columnData.get? dataCell.column).getD [] ++ [dataCell])) []

/-- The loop that counts the data types of the cells of a column into the map
`dataTypes`. -/
def tallyDataTypes (colCells : List CellInfo) : GoMap GoString Nat :=
  colCells.foldl (fun dataTypes cell =>
    dataTypes.set cell.data_type ((dataTypes.get? cell.data_type).getD 0 + 1)) []

/-- The loop that finds the most common data type: the variables `dominantType` and
`maxCount` after visiting the entries in the given order. -/
def dominantDataType (entries : List (GoString × Nat)) : GoString × Nat :=
  entries.foldl (fun st entry => if entry.2 > st.2 then (entry.1, entry.2) else st)
    ("text".toList, 0)

/-- The candidate inferred for column `colNum` with dominant type `dominantType`; the
error of `CoordinatesToCellName` is ignored and leaves the empty cell name. -/
def inferredCandidate (E : Stdlib) (colNum : Nat) (dominantType : GoString) :
    FieldCandidate :=
  let cellName := (E.coordinatesToCellName colNum 1).getD []
  { field_name := "column_".toList ++ E.lower cellName ++ "_".toList ++ dominantType
    display_name := "Column ".toList ++ cellName ++ " (".toList ++ E.title dominantType ++
      ")".toList
    cell := cellName
    data_type := dominantType
    keywords := [dominantType, "column".toList, E.lower cellName]
    confidence := F64.round 6 10
    inferred := true }

/-- Body of the loop over `columnData` in `generateFieldCandidates`: the candidates
added for one column. -/
def columnCandidates (E : Stdlib) (o : MapOrder) (entry : Nat × List CellInfo) :
    List FieldCandidate :=
  if entry.2.length > 2 then
    let best := dominantDataType (o.iterate (entry.1 + 1) (tallyDataTypes entry.2))
    if best.2 > 1 ∧ entry.2.length > 2 then [inferredCandidate E entry.1 best.1] else []
  else []

/-- The function `generateFieldCandidates`; the order `o` is the one in which the maps
`columnData` (loop 0) and `dataTypes` (loop `colNum + 1`) are visited. -/
def generateFieldCandidates (E : Stdlib) (o : MapOrder)
    (headerCandidates dataCells : List CellInfo) : List FieldCandidate :=
  headerCandidates.map (headerCandidate E) ++
    ((o.iterate 0 (groupByColumn dataCells)).map (columnCandidates E o)).flatten

/-- The function `generateSuggestions`. -/
def generateSuggestions (fieldCandidates : List FieldCandidate) : GoMap GoString GoString :=
  fieldCandidates.foldl (fun suggestions candidate =>
    if candidate.field_name ≠ [] then suggestions.set candidate.field_name candidate.cell
    else suggestions) []

/-! ## Table structure (`excel_analyzer_analysis.go`) -/

/-- The number of cells of a row that are not empty after trimming. -/
def nonEmptyCount (row : List GoString) : Nat :=
  row.foldl (fun n cell => if trimSpace cell ≠ [] then n + 1 else n) 0

/-- The loop of `findLikelyHeaderRow` from row index `i` on; the state is the pair of
`maxCells` and `headerRow`. -/
def findLikelyHeaderRowLoop : Nat → Grid → Nat × Nat → Nat × Nat
  | _, [], st => st
  | i, row :: rest, st =>
    if i < 5 then
      if nonEmptyCount row > st.1 then
        findLikelyHeaderRowLoop (i + 1) rest (nonEmptyCount row, i + 1)
      else findLikelyHeaderRowLoop (i + 1) rest st
    else st

/-- The function `findLikelyHeaderRow`. -/
def findLikelyHeaderRow (rows : Grid) : Nat :=
  (findLikelyHeaderRowLoop 0 rows (0, 0)).2

/-- The function `findDataStartRow`. -/
def findDataStartRow (rows : Grid) : Nat :=
  findLikelyHeaderRow rows + 1

/-- The function `checkForMergedCells`. -/
def checkForMergedCells (f : Document) (sheetName : GoString) : Bool :=
  let (mergedCells, err) := f.getMergeCells sheetName
  if err then false else decide (mergedCells > 0)

/-- The map returned by `analyzeTableStructure`; the last three keys are absent when
the sheet has fewer than 2 rows. -/
structure TableStructure where
  /-- Key `is_tabular`. -/
  is_tabular : Bool
  /-- Key `has_headers`. -/
  has_headers : Bool
  /-- Key `uniform_cols`. -/
  uniform_cols : Bool
  /-- Key `data_density`. -/
  data_density : F64
  /-- Key `empty_rows`. -/
  empty_rows : Nat
  /-- Key `max_columns`. -/
  max_columns : Nat
  /-- Key `varying_widths`. -/
  varying_widths : Bool
  /-- Key `common_column_count`. -/
  common_column_count : Option Nat
  /-- Key `column_variations`. -/
  column_variations : Option Nat
  /-- Key `template_type`. -/
  template_type : Option GoString
deriving DecidableEq, Repr

/-- The variables updated by the loop over the rows in `analyzeTableStructure`. -/
structure TableScan where
  /-- The map `columnCounts`. -/
  columnCounts : GoMap Nat Nat
  /-- The variable `totalCells`. -/
  totalCells : Nat
  /-- The variable `filledCells`. -/
  filledCells : Nat
  /-- The variable `emptyRows`. -/
  emptyRows : Nat
  /-- The entry `max_columns` of the result. -/
  maxColumns : Nat
deriving DecidableEq, Repr

/-- Body of the loop over the rows in `analyzeTableStructure`. -/
def scanRow (st : TableScan) (row : List GoString) : TableScan :=
  let colCount := row.length
  { columnCounts := st.columnCounts.set colCount ((st.columnCounts.get? colCount).getD 0 + 1)
    totalCells := st.totalCells + row.length
    filledCells := st.filledCells + nonEmptyCount row
    emptyRows := if nonEmptyCount row = 0 then st.emptyRows + 1 else st.emptyRows
    maxColumns := if colCount > st.maxColumns then colCount else st.maxColumns }

/-- The loop that finds the most common column count: the variables `commonCols` and
`maxCount` after visiting the entries in the given order. -/
def commonColumnCount (entries : List (Nat × Nat)) : Nat × Nat :=
  entries.foldl (fun st entry => if entry.2 > st.2 then (entry.1, entry.2) else st) (0, 0)

/-- The function `analyzeTableStructure`; the order `o` is the one in which the map
`columnCounts` is visited (loop 0). -/
def analyzeTableStructure (o : MapOrder) (rows : Grid) : TableStructure :=
  if rows.length < 2 then
    { is_tabular := false
      has_headers := decide (rows.length > 0)
      uniform_cols := true
      data_density := ⟨0, 0⟩
      empty_rows := 0
      max_columns := 0
      varying_widths := false
      common_column_count := none
      column_variations := none
      template_type := none }
  else
    let st := rows.foldl scanRow ⟨[], 0, 0, 0, 0⟩
    let varying := decide (st.columnCounts.length > 1)
    { is_tabular := true
      has_headers := decide (rows.length > 0)
      uniform_cols := !varying
      data_density :=
        if st.totalCells > 0 then (F64.ofNat st.filledCells).div (F64.ofNat st.totalCells)
        else ⟨0, 0⟩
      empty_rows := st.emptyRows
      max_columns := st.maxColumns
      varying_widths := varying
      common_column_count :=
        if varying then some (commonColumnCount (o.iterate 0 st.columnCounts)).1
        else ((o.iterate 0 st.columnCounts).head?).map Prod.fst
      column_variations := if varying then some st.columnCounts.length else some 1
      template_type :=
        if st.maxColumns > 10 ∧ rows.length > 20 then some "large_admin_template".toList
        else if st.maxColumns > 5 ∧ rows.length > 10 then some "medium_template".toList
        else some "simple_template".toList }

/-! ## The analysis of a file (`excel_analyzer.go`) -/

/-- The function `analyzeAllSheets`. -/
def analyzeAllSheets (f : Document) (sheets : List GoString) : GoMap GoString Nat :=
  sheets.foldl (fun sheetsAnalyzed sheetName =>
    let (rows, err) := f.getRows sheetName
    if err then sheetsAnalyzed else sheetsAnalyzed.set sheetName (countDataCells rows)) []

/-- The map under the key `data_structure` of the report. -/
structure DataStructure where
  /-- Key `likely_header_row`. -/
  likely_header_row : Nat
  /-- Key `data_start_row`. -/
  data_start_row : Nat
  /-- Key `has_merged_cells`. -/
  has_merged_cells : Bool
  /-- Key `table_structure`. -/
  table_structure : TableStructure
deriving DecidableEq, Repr

/-- The map returned by `AnalyzeFile` (without the key `cell_data`). -/
structure Report where
  /-- Key `sheets`. -/
  sheets : List GoString
  /-- Key `active_sheet`. -/
  active_sheet : GoString
  /-- Key `sheets_analyzed`. -/
  sheets_analyzed : GoMap GoString Nat
  /-- Key `field_candidates`. -/
  field_candidates : List FieldCandidate
  /-- Key `header_candidates`. -/
  header_candidates : List CellInfo
  /-- Key `data_cells`. -/
  data_cells : List CellInfo
  /-- Key `fillable_fields`. -/
  fillable_fields : FillableFields
  /-- Key `suggestions`. -/
  suggestions : GoMap GoString GoString
  /-- Key `row_count`. -/
  row_count : Nat
  /-- Key `column_count`. -/
  column_count : Nat
  /-- Key `data_structure`. -/
  data_structure : DataStructure
deriving DecidableEq, Repr

/-- The errors returned by `AnalyzeFile`. -/
inductive AnalyzeError where
  /-- The error "cannot open Excel file". -/
  | cannotOpen
  /-- The error "excel file has no sheets". -/
  | noSheets
deriving DecidableEq, Repr

/-- The function `AnalyzeFile` on the result of `excelize.OpenFile` (`none` when the
file cannot be opened). The outer `none` stands for a run-time panic; `oc` and `os` are
the visiting orders of the maps in `generateFieldCandidates` and
`analyzeTableStructure`. -/
def analyzeFile (E : Stdlib) (oc os : MapOrder) (file : Option Document) :
    Option (Except AnalyzeError Report) :=
  match file with
  | none => some (Except.error AnalyzeError.cannotOpen)
  | some f =>
    let sheets := f.sheetList
    if sheets.length = 0 then some (Except.error AnalyzeError.noSheets)
    else
      match findBestSheet f sheets with
      | none => none
      | some (bestSheet, rows) =>
        match smartSample rows with
        | none => none
        | some (analysisRows, rowMapping) =>
          let maxCols := findMaxColumns analysisRows
          let analysisMaxCols := if maxCols > 20 then 20 else maxCols
          match processRows E rowMapping analysisMaxCols 0 analysisRows ⟨[], []⟩ with
          | none => none
          | some cl =>
            let fieldCandidates := generateFieldCandidates E oc cl.headerCandidates cl.dataCells
            some (Except.ok
              { sheets := sheets
                active_sheet := bestSheet
                sheets_analyzed := analyzeAllSheets f sheets
                field_candidates := fieldCandidates
                header_candidates := cl.headerCandidates
                data_cells := cl.dataCells
                fillable_fields := extractFillableFields cl.dataCells cl.headerCandidates
                suggestions := generateSuggestions fieldCandidates
                row_count := rows.length
                column_count := maxCols
                data_structure :=
                  { likely_header_row := findLikelyHeaderRow rows
                    data_start_row := findDataStartRow rows
                    has_merged_cells := checkForMergedCells f bestSheet
                    table_structure := analyzeTableStructure os rows } })

/-- The workbook with the single sheet of two rows `Vendor Name:`, `[VENDOR_NAME]` and
`Invoice Number:`, `[INVOICE_NUMBER]`. -/
def vendorInvoiceWorkbook : Document where
  sheetList := ["Invoice".toList]
  getRows := fun name =>
    if name = "Invoice".toList then
      ([["Vendor Name:".toList, "[VENDOR_NAME]".toList],
        ["Invoice Number:".toList, "[INVOICE_NUMBER]".toList]], false)
    else ([], true)
  getMergeCells := fun _ => (0, false)

/-- The number of cells of a row that are not blank after trimming. -/
def nonBlankCount (row : List GoString) : Nat :=
  (row.filter (fun cell => decide (trimSpace cell ≠ []))).length

/-- Invariant of the loop of `findLikelyHeaderRow` after the rows `pre`: either nothing
has been chosen and the rows looked at so far are blank, or the chosen row is the first
of the rows looked at with the greatest count, which is positive. Only the first five
rows are looked at. -/
def HeaderInv (pre : Grid) (st : Nat × Nat) : Prop :=
  (st = (0, 0) ∧ ∀ j row, j < 5 → pre[j]? = some row → nonBlankCount row = 0) ∨
  (∃ row, 1 ≤ st.2 ∧ st.2 ≤ 5 ∧ pre[st.2 - 1]? = some row ∧ nonBlankCount row = st.1 ∧
    0 < st.1 ∧
    (∀ j other, j < 5 → pre[j]? = some other → nonBlankCount other ≤ st.1) ∧
    ∀ j other, j < st.2 - 1 → pre[j]? = some other → nonBlankCount other < st.1)


/-- The library tables restricted to ASCII: on a character below 128, `unicode.ToLower`
maps `A-Z` to `a-z` and leaves the rest, the letters are `A-Z` and `a-z`, and the
digits are `0-9`. -/
def Stdlib.Ascii (E : Stdlib) : Prop :=
  ∀ c : Char, c.toNat < 128 →
    E.toLower c = asciiToLower c ∧ E.isLetter c = asciiLib.isLetter c ∧ E.isDigit c = digit c

/-- The instance `asciiLib` with the Arabic-Indic digits U+0660 to U+0669 added to the
digits: they are decimal digits (category Nd), so `unicode.IsDigit` accepts them, and
they have no case mapping. -/
def arabicIndicLib : Stdlib :=
  { asciiLib with
    isDigit := fun c => digit c || (decide (0x660 ≤ c.toNat) && decide (c.toNat ≤ 0x669)) }


/-- The data cells of column `col`, in the order of the list. -/
def columnCells (dataCells : List CellInfo) (col : Nat) : List CellInfo :=
  dataCells.filter (fun d => decide (d.column = col))

/-- The number of cells of a list that have data type `t`. -/
def typeCount (cells : List CellInfo) (t : GoString) : Nat :=
  (cells.filter (fun d => decide (d.data_type = t))).length

/-- The inferred candidate of `columnCandidates`, if the column gets one, as the pair
of the column and its dominant type. -/
def columnPick (o : MapOrder) (entry : Nat × List CellInfo) : Option (Nat × GoString) :=
  if entry.2.length > 2 ∧
      (dominantDataType (o.iterate (entry.1 + 1) (tallyDataTypes entry.2))).2 > 1 then
    some (entry.1, (dominantDataType (o.iterate (entry.1 + 1) (tallyDataTypes entry.2))).1)
  else none


/-- Four data cells in two columns: column 1 holds three texts, column 2 one number. -/
def sampleDataCells : List CellInfo :=
  [⟨"A6".toList, "pen".toList, 6, 1, false, "text".toList, ["pen".toList], ⟨false, [], [], []⟩⟩,
   ⟨"B6".toList, "12".toList, 6, 2, false, "number".toList, [], ⟨false, [], [], []⟩⟩,
   ⟨"A7".toList, "ink".toList, 7, 1, false, "text".toList, ["ink".toList], ⟨false, [], [], []⟩⟩,
   ⟨"A8".toList, "cap".toList, 8, 1, false, "text".toList, ["cap".toList], ⟨false, [], [], []⟩⟩]


/-- The record `cellInfo` that the cell loop of `AnalyzeFile` builds for the non-blank
trimmed text `cellValue` at `colIndex` of the row with index `originalRowIndex`. -/
def cellRecord (E : Stdlib) (cellName cellValue : GoString)
    (originalRowIndex colIndex : Nat) : CellInfo :=
  { cell := cellName
    value := cellValue
    row := originalRowIndex + 1
    column := colIndex + 1
    is_header := isLikelyHeader E cellValue originalRowIndex colIndex
    data_type := detectDataType E cellValue
    keywords := extractKeywords E cellValue
    fillable := detectFillableField E cellValue }

/-- The record of the cell at `colIndex` of `row`, when the cell is not blank and the
library names it. -/
def retainedCell (E : Stdlib) (row : List GoString) (originalRowIndex colIndex : Nat) :
    Option CellInfo :=
  match row[colIndex]? with
  | none => none
  | some raw =>
    if trimSpace raw = [] then none
    else (E.coordinatesToCellName (colIndex + 1) (originalRowIndex + 1)).map
      (fun cellName => cellRecord E cellName (trimSpace raw) originalRowIndex colIndex)

/-- The records of the retained cells of one row, the columns from `analysisMaxCols` on
left out. -/
def rowRecords (E : Stdlib) (analysisMaxCols : Nat) (row : List GoString)
    (originalRowIndex : Nat) : List CellInfo :=
  (List.range (min analysisMaxCols row.length)).filterMap
    (retainedCell E row originalRowIndex)

/-- The records of the retained cells of the sampled rows, row by row. -/
def retainedCells (E : Stdlib) (analysisMaxCols : Nat) (analysisRows : Grid)
    (rowMapping : List Nat) : List CellInfo :=
  ((analysisRows.zip rowMapping).map
    (fun p => rowRecords E analysisMaxCols p.1 p.2)).flatten

/-- A likely header without a placeholder. -/
def isHeaderCandidate (c : CellInfo) : Bool :=
  !c.fillable.is_fillable && c.is_header

/-- A cell with a placeholder, or one that is not a likely header. -/
def isDataCell (c : CellInfo) : Bool :=
  c.fillable.is_fillable || !c.is_header


/-- Whether the analysis ended with a report that passes the test `p`. -/
def reportPasses (r : Option (Except AnalyzeError Report)) (p : Report → Bool) : Bool :=
  match r with
  | some (Except.ok report) => p report
  | _ => false


/-- The workbook with the single sheet of one row holding the one cell `!!!`. -/
def punctuationWorkbook : Document where
  sheetList := ["Sheet1".toList]
  getRows := fun name => if name = "Sheet1".toList then ([["!!!".toList]], false) else ([], true)
  getMergeCells := fun _ => (0, false)


/-- The map `fieldData` that `extractFillableFields` builds for a fillable cell. -/
def fieldDataOf (cellInfo : CellInfo) : FieldData :=
  { cell := cellInfo.cell
    value := cellInfo.value
    row := cellInfo.row
    column := cellInfo.column
    pattern_type := cellInfo.fillable.pattern_type
    field_name := cellInfo.fillable.field_name
    placeholder := cellInfo.fillable.placeholder
    data_type := cellInfo.data_type }

/-- The cells with `is_fillable` set, the data cells first, in the order of the lists. -/
def fillableCells (dataCells headerCandidates : List CellInfo) : List CellInfo :=
  (dataCells ++ headerCandidates).filter (fun c => c.fillable.is_fillable)


/-- The number of rows of length `n`. -/
def lengthCount (rows : Grid) (n : Nat) : Nat :=
  (rows.filter (fun row => decide (row.length = n))).length

/-- The number of cells of a grid, every row counted with its own length. -/
def cellCount (rows : Grid) : Nat :=
  (rows.map List.length).sum


/-- The texts that `strconv.ParseFloat` accepts as special values (function `special` of
package `strconv`): `NaN`, and `Inf` or `Infinity` with an optional sign, the letters in
either case. -/
def isSpecialFloat (s : GoString) : Bool :=
  let t := s.map asciiToLower
  let u := match t with
    | '+' :: r => r
    | '-' :: r => r
    | _ => t
  t == "nan".toList || u == "inf".toList || u == "infinity".toList

/-- The instance `asciiLib` with a number parser that accepts the plain decimal numerals
and the special values of `strconv.ParseFloat`. It is used on the texts `NaN`,
`Infinity` and `-inf` only; the numerals with an exponent, with an underscore or in
hexadecimal, which `strconv.ParseFloat` accepts as well, are not part of it. -/
def specialFloatLib : Stdlib :=
  { asciiLib with parseFloatOk := fun s => plainDecimal s || isSpecialFloat s }

/-- Four data cells of column 1 whose data types are text, number, text, number: the
two types tie, and text is met first. -/
def tieDataCells : List CellInfo :=
  [⟨"A6".toList, "pen".toList, 6, 1, false, "text".toList, ["pen".toList], ⟨false, [], [], []⟩⟩,
   ⟨"A7".toList, "12".toList, 7, 1, false, "number".toList, [], ⟨false, [], [], []⟩⟩,
   ⟨"A8".toList, "ink".toList, 8, 1, false, "text".toList, ["ink".toList], ⟨false, [], [], []⟩⟩,
   ⟨"A9".toList, "30".toList, 9, 1, false, "number".toList, [], ⟨false, [], [], []⟩⟩]


/-- Lower-casing a character twice gives the same as lower-casing it once. -/
def Stdlib.LowerIdempotent (E : Stdlib) : Prop :=
  ∀ c, E.toLower (E.toLower c) = E.toLower c

/-- No white-space character is a letter or a digit. -/
def Stdlib.SpaceNotAlnum (E : Stdlib) : Prop :=
  ∀ c, isSpace c = true → E.isLetter c = false ∧ E.isDigit c = false

/-- The variable `result` of `generateFieldName` before the test for a leading digit. -/
def fieldNameCore (E : Stdlib) (displayName : GoString) : GoString :=
  let fieldName := E.lower (trimSpace displayName)
  let fieldName := replaceAll fieldName ' ' "_".toList
  let fieldName := replaceAll fieldName '-' "_".toList
  let fieldName := replaceAll fieldName ':' []
  let fieldName := replaceAll fieldName '#' []
  let fieldName := replaceAll fieldName '(' []
  let fieldName := replaceAll fieldName ')' []
  fieldName.filter (fun char => E.isLetter char || E.isDigit char || char == '_')


end SmartInvoice

/-! # Properties -/

namespace SmartInvoice

/-! ## Loops -/

/-- A loop whose condition bounds the index and whose step is positive ends within
`bound - i` iterations; an invariant kept by the body holds at the end, where the
condition is false. -/
theorem forLoop_inv {σ : Type} (cond : Nat → Bool) (step : Nat) (body : Nat → σ → Option σ)
    (P : Nat → σ → Prop) (bound : Nat) (hstep : 0 < step)
    (hbound : ∀ i, cond i = true → i < bound)
    (hbody : ∀ i st, cond i = true → P i st → ∃ st1, body i st = some st1 ∧ P (i + step) st1) :
    ∀ (fuel i : Nat) (st : σ), bound ≤ fuel + i → P i st →
      ∃ st1 j, forLoop cond step body fuel i st = some st1 ∧ P j st1 ∧ cond j = false ∧ i ≤ j := by
  intro fuel
  induction fuel with
  | zero =>
    intro i st hf hP
    have hc : cond i = false := by
      cases h : cond i with
      | false => rfl
      | true => have := hbound i h; omega
    exact ⟨st, i, by simp [forLoop, hc], hP, hc, le_refl _⟩
  | succ fuel ih =>
    intro i st hf hP
    cases hc : cond i with
    | false => exact ⟨st, i, by simp [forLoop, hc], hP, hc, le_refl _⟩
    | true =>
      obtain ⟨st1, hb, hP1⟩ := hbody i st hc hP
      obtain ⟨st2, j, hl, hP2, hcj, hij⟩ := ih (i + step) st1 (by omega) hP1
      exact ⟨st2, j, by simp [forLoop, hc, hb, hl], hP2, hcj, by omega⟩

/-! ## Sampler -/

theorem SampleInv.mono {rows : Grid} {b b1 : Nat} {st : Grid × List Nat}
    (h : SampleInv rows b st) (hb : b ≤ b1) : SampleInv rows b1 st :=
  ⟨h.1, h.2.1, fun i hi => lt_of_lt_of_le (h.2.2 i hi) hb⟩

theorem sampleRow_inv {rows : Grid} {b i : Nat} {st : Grid × List Nat}
    (h : SampleInv rows b st) (hbi : b ≤ i) (hi : i < rows.length) :
    ∃ st1, sampleRow rows i st = some st1 ∧ SampleInv rows (i + 1) st1 ∧
      st1.1.length = st.1.length + 1 := by
  obtain ⟨row, hrow⟩ : ∃ row, rows[i]? = some row :=
    ⟨rows[i], List.getElem?_eq_getElem hi⟩
  refine ⟨(st.1 ++ [row], st.2 ++ [i]), by simp [sampleRow, hrow], ⟨?_, ?_, ?_⟩, by simp⟩
  · exact List.rel_append h.1 (List.Forall₂.cons hrow List.Forall₂.nil)
  · rw [List.pairwise_append]
    refine ⟨h.2.1, List.pairwise_singleton _ _, ?_⟩
    intro a ha c hc
    have := h.2.2 a ha
    simp at hc
    omega
  · intro a ha
    simp at ha
    rcases ha with ha | ha
    · have := h.2.2 a ha
      omega
    · omega

theorem setIndex_loop (n : Nat) :
    ∀ (fuel i : Nat) (m : List Nat), n ≤ fuel + i → m.length = n → i ≤ n →
      (∀ k, k < i → m[k]? = some k) →
      ∃ m1, forLoop (fun i => decide (i < n)) 1 setIndex fuel i m = some m1 ∧
        m1.length = n ∧ ∀ k, k < n → m1[k]? = some k := by
  intro fuel i m hf hlen hi hm
  obtain ⟨m1, j, hl, hP, hc, hij⟩ := forLoop_inv (fun i => decide (i < n)) 1 setIndex
    (fun i m => m.length = n ∧ ∀ k, k < i → m[k]? = some k) n (by omega)
    (fun i h => by simpa using h)
    (fun i m hc hP => by
      have hin : i < n := by simpa using hc
      refine ⟨m.set i i, by simp [setIndex, hP.1, hin], by simp [hP.1], ?_⟩
      intro k hk
      by_cases hki : k = i
      · subst hki
        simp [List.getElem?_set, hP.1, hin]
      · have : k < i := by omega
        rw [List.getElem?_set_ne (Ne.symm hki)]
        exact hP.2 k this)
    fuel i m hf ⟨hlen, hm⟩
  have hjn : n ≤ j := by simpa using hc
  exact ⟨m1, hl, hP.1, fun k hk => hP.2 k (by omega)⟩

theorem smartSample_small (rows : Grid) (h : rows.length ≤ 50) :
    ∃ rowMapping, smartSample rows = some (rows, rowMapping) ∧
      rowMapping.length = rows.length ∧ ∀ i, i < rows.length → rowMapping[i]? = some i := by
  obtain ⟨m1, hl, hlen, hm⟩ := setIndex_loop rows.length rows.length 0
    (List.replicate rows.length 0) (by omega) (by simp) (by omega) (by intro k hk; omega)
  refine ⟨m1, ?_, hlen, hm⟩
  have hn : ¬ rows.length > 50 := by omega
  simp [smartSample, hn, hl]

theorem smartSample_large (rows : Grid) (h : rows.length > 50) :
    ∃ st, smartSample rows = some st ∧ SampleInv rows rows.length st ∧ st.1.length ≤ 35 := by
  -- first 10 rows
  obtain ⟨st1, j1, hl1, hP1, hc1, -⟩ := forLoop_inv
    (fun i => decide (i < 10) && decide (i < rows.length)) 1 (sampleRow rows)
    (fun i st => SampleInv rows i st ∧ st.1.length ≤ i ∧ i ≤ 10) rows.length (by omega)
    (fun i hi => by simp at hi; omega)
    (fun i st hc hP => by
      simp at hc
      obtain ⟨st1, hs, hinv, hlen⟩ := sampleRow_inv hP.1 (le_refl i) hc.2
      exact ⟨st1, hs, hinv, by omega, by omega⟩)
    rows.length 0 ([], []) (by omega)
    ⟨⟨List.Forall₂.nil, List.Pairwise.nil, by simp⟩, by simp, by omega⟩
  -- every 5th row of the middle section
  obtain ⟨st2, j2, hl2, hP2, hc2, -⟩ := forLoop_inv
    (fun i => decide (i < rows.length - 5)) 5
    (fun i st => if st.1.length < 30 then sampleRow rows i st else some st)
    (fun i st => SampleInv rows i st ∧ SampleInv rows (rows.length - 5) st ∧
      st.1.length ≤ 30) rows.length (by omega)
    (fun i hi => by simp at hi; omega)
    (fun i st hc hP => by
      simp at hc
      by_cases hlt : st.1.length < 30
      · obtain ⟨st1, hs, hinv, hlen⟩ := sampleRow_inv hP.1 (le_refl i) (by omega)
        exact ⟨st1, by simp [hlt, hs], hinv.mono (by omega), hinv.mono (by omega), by omega⟩
      · exact ⟨st, by simp [hlt], hP.1.mono (by omega), hP.2.1, hP.2.2⟩)
    rows.length 10 st1 (by omega)
    ⟨hP1.1.mono hP1.2.2, hP1.1.mono (by omega), by omega⟩
  -- last 5 rows
  obtain ⟨st3, j3, hl3, hP3, hc3, -⟩ := forLoop_inv
    (fun i => decide (i < rows.length)) 1
    (fun i st => if i > 10 then sampleRow rows i st else some st)
    (fun i st => SampleInv rows i st ∧ st.1.length + (rows.length - 5) ≤ 30 + i ∧
      rows.length - 5 ≤ i ∧ i ≤ rows.length) rows.length (by omega)
    (fun i hi => by simpa using hi)
    (fun i st hc hP => by
      simp at hc
      have h10 : i > 10 := by omega
      obtain ⟨st1, hs, hinv, hlen⟩ := sampleRow_inv hP.1 (le_refl i) hc
      exact ⟨st1, by simp [h10, hs], hinv, by omega, by omega, by omega⟩)
    rows.length (rows.length - 5) st2 (by omega)
    ⟨hP2.2.1, by omega, le_refl _, by omega⟩
  have h20 : rows.length > 20 := by omega
  refine ⟨st3, ?_, hP3.1.mono hP3.2.2.2, by omega⟩
  simp [smartSample, h, h20, hl1, hl2, hl3]

/-- C7: for a grid of at most 50 rows (the empty grid included) `smartSample` returns
the grid itself, the same rows in the same order, together with the identity row
mapping: the mapping has one entry per row and `rowMapping[i] = i` for every row
index `i`. -/
theorem smartSample_identity_of_le_50 (rows : Grid) (h : rows.length ≤ 50) :
    ∃ rowMapping, smartSample rows = some (rows, rowMapping) ∧
      rowMapping.length = rows.length ∧ ∀ i, i < rows.length → rowMapping[i]? = some i :=
  smartSample_small rows h

theorem smartSample_identity_of_le_50_witness :
    (∃ rowMapping, smartSample [["a".toList, "b".toList], [], ["c".toList]] =
        some ([["a".toList, "b".toList], [], ["c".toList]], rowMapping) ∧
      rowMapping.length = [["a".toList, "b".toList], [], ["c".toList]].length ∧
      ∀ i, i < [["a".toList, "b".toList], [], ["c".toList]].length → rowMapping[i]? = some i) ∧
    (∃ rowMapping, smartSample [] = some ([], rowMapping) ∧
      rowMapping.length = ([] : Grid).length ∧
      ∀ i, i < ([] : Grid).length → rowMapping[i]? = some i) :=
  ⟨smartSample_identity_of_le_50 [["a".toList, "b".toList], [], ["c".toList]] (by decide),
   smartSample_identity_of_le_50 [] (by decide)⟩

/-- C8: for a grid of more than 50 rows `smartSample` returns at most 10 + 30 + 5 = 45
sampled rows, one mapping entry per sampled row, and no original row index occurs
twice in the row mapping. -/
theorem smartSample_bound_of_gt_50 (rows : Grid) (h : rows.length > 50) :
    ∃ analysisRows rowMapping, smartSample rows = some (analysisRows, rowMapping) ∧
      analysisRows.length ≤ 10 + 30 + 5 ∧ rowMapping.length = analysisRows.length ∧
      rowMapping.Nodup := by
  obtain ⟨st, hs, hinv, hlen⟩ := smartSample_large rows h
  refine ⟨st.1, st.2, hs, by omega, hinv.1.length_eq.symm, ?_⟩
  exact hinv.2.1.imp (fun hab => Nat.ne_of_lt hab)

theorem smartSample_bound_of_gt_50_witness :
    ∃ analysisRows rowMapping,
      smartSample (List.replicate 1000 ["x".toList]) = some (analysisRows, rowMapping) ∧
      analysisRows.length ≤ 10 + 30 + 5 ∧ rowMapping.length = analysisRows.length ∧
      rowMapping.Nodup :=
  smartSample_bound_of_gt_50 (List.replicate 1000 ["x".toList])
    (by simp only [List.length_replicate]; decide)

/-! ## Sheet selector -/

theorem countRow_eq (row : List GoString) (n : Nat) :
    row.foldl (fun m cell => if trimSpace cell ≠ [] then m + 1 else m) n =
      n + (row.filter (fun cell => decide (trimSpace cell ≠ []))).length := by
  induction row generalizing n with
  | nil => simp
  | cons c cs ih =>
    simp only [List.foldl_cons, List.filter_cons]
    rw [ih]
    by_cases hc : trimSpace c ≠ []
    · simp [hc]; omega
    · simp [hc]

theorem countDataCells_eq (rows : Grid) : countDataCells rows = nonBlankCells rows := by
  have key : ∀ (rows : Grid) (n : Nat),
      rows.foldl (fun n row =>
        row.foldl (fun m cell => if trimSpace cell ≠ [] then m + 1 else m) n) n =
      n + nonBlankCells rows := by
    intro rows
    induction rows with
    | nil => intro n; simp [nonBlankCells]
    | cons r rs ih =>
      intro n
      simp only [List.foldl_cons]
      rw [ih, countRow_eq]
      simp [nonBlankCells, List.filter_append]
      omega
  simpa [countDataCells] using key rows 0

theorem findBestSheetLoop_cons (f : Document) (name : GoString) (rest : List GoString)
    (st : Best) :
    findBestSheetLoop f (name :: rest) st =
      if (f.getRows name).2 then findBestSheetLoop f rest st
      else if countDataCells (f.getRows name).1 > st.maxDataCells then
        findBestSheetLoop f rest ⟨name, (f.getRows name).1, countDataCells (f.getRows name).1⟩
      else findBestSheetLoop f rest st := rfl

theorem findBestSheetLoop_inv (f : Document) :
    ∀ (rest pre : List GoString) (st : Best),
      (∀ s ∈ rest, (f.getRows s).2 = false) → BestInv f pre st →
      BestInv f (pre ++ rest) (findBestSheetLoop f rest st) := by
  intro rest
  induction rest with
  | nil => intro pre st _ h; simpa [findBestSheetLoop] using h
  | cons name rest ih =>
    intro pre st hread hinv
    have herr : (f.getRows name).2 = false := hread name (List.mem_cons_self _ _)
    have hrest : ∀ s ∈ rest, (f.getRows s).2 = false :=
      fun s hs => hread s (List.mem_cons_of_mem _ hs)
    have happ : pre ++ name :: rest = (pre ++ [name]) ++ rest := by simp
    rw [happ, findBestSheetLoop_cons, herr, countDataCells_eq]
    simp only [Bool.false_eq_true, if_false]
    by_cases hgt : nonBlankCells (f.getRows name).1 > st.maxDataCells
    · rw [if_pos hgt]
      apply ih _ _ hrest
      refine Or.inr ⟨pre.length, by simp, rfl, rfl, ?_, ?_, ?_⟩
      · show 0 < nonBlankCells (f.getRows name).1
        omega
      · intro s hs
        show nonBlankCells (f.getRows s).1 ≤ nonBlankCells (f.getRows name).1
        simp only [List.mem_append, List.mem_singleton] at hs
        rcases hs with hs | hs
        · rcases hinv with ⟨-, h0⟩ | ⟨i, -, -, -, -, hmax, -⟩
          · rw [h0 s hs]; omega
          · have := hmax s hs
            omega
        · subst hs; exact le_refl _
      · intro j s hj hjs
        show nonBlankCells (f.getRows s).1 < nonBlankCells (f.getRows name).1
        have hjs1 : pre[j]? = some s := by
          rw [List.getElem?_append_left hj] at hjs
          exact hjs
        have hmem : s ∈ pre := List.getElem?_mem hjs1
        rcases hinv with ⟨-, h0⟩ | ⟨i, -, -, -, -, hmax, -⟩
        · rw [h0 s hmem]; omega
        · have := hmax s hmem
          omega
    · rw [if_neg hgt]
      apply ih _ _ hrest
      rcases hinv with ⟨hst, h0⟩ | ⟨i, hi, hrows, hcnt, hpos, hmax, hfirst⟩
      · refine Or.inl ⟨hst, ?_⟩
        intro s hs
        simp only [List.mem_append, List.mem_singleton] at hs
        rcases hs with hs | hs
        · exact h0 s hs
        · subst hs
          have hm : st.maxDataCells = 0 := by rw [hst]
          omega
      · refine Or.inr ?_
        have hil : i < pre.length := by
          by_contra hcon
          rw [List.getElem?_eq_none (by omega)] at hi
          exact absurd hi (by simp)
        refine ⟨i, ?_, hrows, hcnt, hpos, ?_, ?_⟩
        · rw [List.getElem?_append_left hil]; exact hi
        · intro s hs
          simp only [List.mem_append, List.mem_singleton] at hs
          rcases hs with hs | hs
          · exact hmax s hs
          · subst hs; omega
        · intro j s hj hjs
          rw [List.getElem?_append_left (by omega)] at hjs
          exact hfirst j s hj hjs

/-- C10: for a non-empty list of sheets that can all be read, `findBestSheet` returns
the first sheet of the list whose number of non-blank cells is the maximum over all
sheets, with that sheet's rows: every sheet has at most that many non-blank cells and
every earlier sheet has strictly fewer, so an earlier sheet wins a tie; when every sheet
has no non-blank cell the first sheet of the list is returned. (The library rejects the
blank sheet name, `hblank`, so a readable sheet has a non-blank name.) -/
theorem findBestSheet_first_maximal (f : Document) (sheets : List GoString)
    (hne : sheets ≠ []) (hread : ∀ s ∈ sheets, (f.getRows s).2 = false)
    (hblank : (f.getRows []).2 = true) :
    (∃ (i : Nat) (name : GoString), sheets[i]? = some name ∧
      findBestSheet f sheets = some (name, (f.getRows name).1) ∧
      (∀ s ∈ sheets, nonBlankCells (f.getRows s).1 ≤ nonBlankCells (f.getRows name).1) ∧
      ∀ (j : Nat) (s : GoString), j < i → sheets[j]? = some s →
        nonBlankCells (f.getRows s).1 < nonBlankCells (f.getRows name).1) ∧
    ((∀ s ∈ sheets, nonBlankCells (f.getRows s).1 = 0) →
      ∃ first, sheets.head? = some first ∧
        findBestSheet f sheets = some (first, (f.getRows first).1)) := by
  have hinv := findBestSheetLoop_inv f sheets [] ⟨[], [], 0⟩ hread
    (Or.inl ⟨rfl, by simp⟩)
  rw [List.nil_append] at hinv
  obtain ⟨first, rest, rfl⟩ : ∃ first rest, sheets = first :: rest := by
    cases sheets with
    | nil => exact absurd rfl hne
    | cons a l => exact ⟨a, l, rfl⟩
  rcases hinv with ⟨hst, h0⟩ | ⟨i, hi, hrows, hcnt, hpos, hmax, hfirst⟩
  · have hres : findBestSheet f (first :: rest) = some (first, (f.getRows first).1) := by
      simp [findBestSheet, hst]
    refine ⟨⟨0, first, by simp, hres, ?_, ?_⟩, fun _ => ⟨first, rfl, hres⟩⟩
    · intro s hs
      rw [h0 s hs]
      exact Nat.zero_le _
    · intro j s hj
      exact absurd hj (Nat.not_lt_zero _)
  · have hmem : (findBestSheetLoop f (first :: rest) ⟨[], [], 0⟩).bestSheet ∈
        first :: rest := List.getElem?_mem hi
    have hname : (findBestSheetLoop f (first :: rest) ⟨[], [], 0⟩).bestSheet ≠ [] := by
      intro hnil
      rw [hnil] at hmem
      have := hread [] hmem
      rw [hblank] at this
      exact absurd this (by decide)
    have hres : findBestSheet f (first :: rest) =
        some ((findBestSheetLoop f (first :: rest) ⟨[], [], 0⟩).bestSheet,
          (f.getRows (findBestSheetLoop f (first :: rest) ⟨[], [], 0⟩).bestSheet).1) := by
      simp only [findBestSheet, hname, if_false]
      rw [← hrows]
    rw [hrows] at hcnt
    refine ⟨⟨i, _, hi, hres, ?_, ?_⟩, ?_⟩
    · intro s hs
      rw [← hcnt]
      exact hmax s hs
    · intro j s hj hjs
      rw [← hcnt]
      exact hfirst j s hj hjs
    · intro hall
      have := hall _ hmem
      omega

theorem findBestSheet_first_maximal_witness :
    (∃ (i : Nat) (name : GoString), sampleWorkbook.sheetList[i]? = some name ∧
      findBestSheet sampleWorkbook sampleWorkbook.sheetList =
        some (name, (sampleWorkbook.getRows name).1) ∧
      (∀ s ∈ sampleWorkbook.sheetList, nonBlankCells (sampleWorkbook.getRows s).1 ≤
        nonBlankCells (sampleWorkbook.getRows name).1) ∧
      ∀ (j : Nat) (s : GoString), j < i → sampleWorkbook.sheetList[j]? = some s →
        nonBlankCells (sampleWorkbook.getRows s).1 <
          nonBlankCells (sampleWorkbook.getRows name).1) ∧
    ((∀ s ∈ sampleWorkbook.sheetList, nonBlankCells (sampleWorkbook.getRows s).1 = 0) →
      ∃ first, sampleWorkbook.sheetList.head? = some first ∧
        findBestSheet sampleWorkbook sampleWorkbook.sheetList =
          some (first, (sampleWorkbook.getRows first).1)) :=
  findBestSheet_first_maximal sampleWorkbook sampleWorkbook.sheetList (by decide)
    (by decide) (by decide)


/-! ## Cell loop of the orchestrator -/

theorem smartSample_rows (rows : Grid) :
    ∃ analysisRows rowMapping, smartSample rows = some (analysisRows, rowMapping) ∧
      List.Forall₂ (fun row i => rows[i]? = some row) analysisRows rowMapping := by
  by_cases h : rows.length ≤ 50
  · obtain ⟨m, hs, hlen, hm⟩ := smartSample_small rows h
    refine ⟨rows, m, hs, ?_⟩
    rw [List.forall₂_iff_get]
    refine ⟨hlen.symm, ?_⟩
    intro i h1 h2
    have := hm i h1
    rw [List.getElem?_eq_getElem h2] at this
    simp only [List.get_eq_getElem]
    rw [Option.some.inj this, List.getElem?_eq_getElem h1]
  · obtain ⟨st, hs, hinv, -⟩ := smartSample_large rows (by omega)
    exact ⟨st.1, st.2, hs, hinv.1⟩

theorem Classified.All.addHeader {P : CellInfo → Prop} {st : Classified} {c : CellInfo}
    (h : st.All P) (hc : P c) :
    Classified.All P { st with headerCandidates := st.headerCandidates ++ [c] } := by
  refine ⟨?_, h.2⟩
  intro x hx
  simp only [List.mem_append, List.mem_singleton] at hx
  rcases hx with hx | hx
  · exact h.1 x hx
  · rw [hx]; exact hc

theorem Classified.All.addData {P : CellInfo → Prop} {st : Classified} {c : CellInfo}
    (h : st.All P) (hc : P c) :
    Classified.All P { st with dataCells := st.dataCells ++ [c] } := by
  refine ⟨h.1, ?_⟩
  intro x hx
  simp only [List.mem_append, List.mem_singleton] at hx
  rcases hx with hx | hx
  · exact h.2 x hx
  · rw [hx]; exact hc

/-- One step of the cell loop keeps any property that holds of the cell it builds. -/
theorem processCell_inv (E : Stdlib) (P : CellInfo → Prop) (row : List GoString)
    (orig col : Nat) (st : Classified) (raw : GoString) (hraw : row[col]? = some raw)
    (hst : st.All P)
    (hP : ∀ name, trimSpace raw ≠ [] → E.coordinatesToCellName (col + 1) (orig + 1) = some name →
      P { cell := name
          value := trimSpace raw
          row := orig + 1
          column := col + 1
          is_header := isLikelyHeader E (trimSpace raw) orig col
          data_type := detectDataType E (trimSpace raw)
          keywords := extractKeywords E (trimSpace raw)
          fillable := detectFillableField E (trimSpace raw) }) :
    ∃ st1, processCell E row orig col st = some st1 ∧ st1.All P := by
  unfold processCell
  rw [hraw]
  simp only
  by_cases hblank : trimSpace raw = []
  · exact ⟨st, by simp [hblank], hst⟩
  · rw [if_neg hblank]
    cases hname : E.coordinatesToCellName (col + 1) (orig + 1) with
    | none => exact ⟨st, rfl, hst⟩
    | some name =>
      have hc := hP name hblank hname
      simp only
      split
      · exact ⟨_, rfl, hst.addData hc⟩
      · split
        · exact ⟨_, rfl, hst.addHeader hc⟩
        · exact ⟨_, rfl, hst.addData hc⟩

/-- The cell loop never fails, and it keeps any property that holds of every cell it
can build from a sampled row, a column below the cap and a non-blank text. -/
theorem processRows_inv (E : Stdlib) (P : CellInfo → Prop) (rows : Grid)
    (rowMapping : List Nat) (amc : Nat)
    (hP : ∀ (orig col : Nat) (row : List GoString) (raw name : GoString),
      rows[orig]? = some row → row[col]? = some raw → col < amc → trimSpace raw ≠ [] →
      E.coordinatesToCellName (col + 1) (orig + 1) = some name →
      P { cell := name
          value := trimSpace raw
          row := orig + 1
          column := col + 1
          is_header := isLikelyHeader E (trimSpace raw) orig col
          data_type := detectDataType E (trimSpace raw)
          keywords := extractKeywords E (trimSpace raw)
          fillable := detectFillableField E (trimSpace raw) }) :
    ∀ (rest : Grid) (k : Nat) (st : Classified),
      List.Forall₂ (fun row i => rows[i]? = some row) rest (rowMapping.drop k) →
      st.All P → ∃ st1, processRows E rowMapping amc k rest st = some st1 ∧ st1.All P := by
  intro rest
  induction rest with
  | nil => intro k st _ hst; exact ⟨st, rfl, hst⟩
  | cons row rest ih =>
    intro k st hrel hst
    cases hd : rowMapping.drop k with
    | nil => rw [hd] at hrel; cases hrel
    | cons orig tl =>
      rw [hd] at hrel
      cases hrel with
      | cons hrow htl =>
        have hk : rowMapping[k]? = some orig := by
          have := List.getElem?_drop rowMapping k 0
          rw [hd] at this
          simpa using this.symm
        have htl1 : rowMapping.drop (k + 1) = tl := by
          have : rowMapping.drop (k + 1) = (rowMapping.drop k).drop 1 := by
            rw [List.drop_drop, Nat.add_comm]
          rw [this, hd]
          rfl
        obtain ⟨st1, j, hl, hst1, -, -⟩ := forLoop_inv
          (fun colIndex => decide (colIndex < amc) && decide (colIndex < row.length)) 1
          (processCell E row orig) (fun _ st => st.All P) row.length (by omega)
          (fun i hi => by simp at hi; omega)
          (fun col st hc hst => by
            simp at hc
            exact processCell_inv E P row orig col st row[col]
              (List.getElem?_eq_getElem hc.2) hst
              (fun name hne hname =>
                hP orig col row row[col] name hrow (List.getElem?_eq_getElem hc.2) hc.1
                  hne hname))
          row.length 0 st (by omega) hst
        obtain ⟨st2, hl2, hst2⟩ := ih (k + 1) st1 (htl1 ▸ htl) hst1
        refine ⟨st2, ?_, hst2⟩
        simp only [processRows, hk, hl]
        exact hl2

/-- C9: for every sheet grid, sampled or not, the cell loop of `AnalyzeFile` ends
normally, and each cell recorded in `header_candidates` or `data_cells` with row `r`
and column `c` (both counted from 1) has as its value the trimmed text at row `r`,
column `c` of the full grid, and as its cell reference the name the library gives to
(column `c`, row `r`): coordinates refer to the place in the sheet, never to the place
in the sample. -/
theorem classifyCells_coordinates (E : Stdlib) (rows : Grid) :
    ∃ cl, classifyCells E rows = some cl ∧
      ∀ c ∈ cl.headerCandidates ++ cl.dataCells,
        1 ≤ c.row ∧ 1 ≤ c.column ∧
        (∃ (row : List GoString) (raw : GoString), rows[c.row - 1]? = some row ∧
          row[c.column - 1]? = some raw ∧ c.value = trimSpace raw) ∧
        E.coordinatesToCellName c.column c.row = some c.cell := by
  obtain ⟨ar, rm, hs, hrel⟩ := smartSample_rows rows
  obtain ⟨cl, hcl, hall⟩ := processRows_inv E (CellAt E rows) rows rm
    (if findMaxColumns ar > 20 then 20 else findMaxColumns ar)
    (fun orig col row raw name hrow hraw _ _ hname =>
      ⟨by simp, by simp, ⟨row, raw, by simpa using hrow, by simpa using hraw, rfl⟩, hname⟩)
    ar 0 ⟨[], []⟩ (by simpa using hrel) ⟨by simp, by simp⟩
  refine ⟨cl, by simp only [classifyCells, hs]; exact hcl, ?_⟩
  intro c hc
  simp only [List.mem_append] at hc
  rcases hc with hc | hc
  · exact hall.1 c hc
  · exact hall.2 c hc

/-! ## The matcher against the declarative reading -/

theorem matchRep_sound (a : Atom) (k : GoString → Option (GoString × GoString)) :
    ∀ (s : GoString) (n : Nat) (g rest : GoString), matchRep a k n s = some (g, rest) →
      ∃ w v g1, s = w ++ v ∧ (∀ c ∈ w, a.cls c = true) ∧ a.min ≤ n + w.length ∧
        (∀ m, a.max = some m → w ≠ [] → n + w.length ≤ m) ∧
        k v = some (g1, rest) ∧ g = if a.cap then w ++ g1 else g1 := by
  intro s
  induction s with
  | nil =>
    intro n g rest h
    simp only [matchRep] at h
    split at h
    · rename_i hmin
      exact ⟨[], [], g, rfl, by simp, by simpa using hmin, by simp, h, by simp⟩
    · cases h
  | cons c cs ih =>
    intro n g rest h
    have stop : (if a.min ≤ n then k (c :: cs) else none) = some (g, rest) →
        ∃ w v g1, c :: cs = w ++ v ∧ (∀ c ∈ w, a.cls c = true) ∧ a.min ≤ n + w.length ∧
          (∀ m, a.max = some m → w ≠ [] → n + w.length ≤ m) ∧
          k v = some (g1, rest) ∧ g = if a.cap then w ++ g1 else g1 := by
      intro h
      split at h
      · rename_i hmin
        exact ⟨[], c :: cs, g, rfl, by simp, by simpa using hmin, by simp, h, by simp⟩
      · cases h
    simp only [matchRep] at h
    split at h
    · rename_i hc
      simp only [Bool.and_eq_true] at hc
      cases hrec : matchRep a k (n + 1) cs with
      | none =>
        rw [hrec] at h
        exact stop h
      | some r =>
        obtain ⟨g0, rest0⟩ := r
        rw [hrec] at h
        simp only [Option.some.injEq, Prod.mk.injEq] at h
        obtain ⟨w, v, g1, hs, hw, hmin, hmax, hk, hg⟩ := ih (n + 1) g0 rest0 hrec
        refine ⟨c :: w, v, g1, by simp [hs], ?_, by simp; omega, ?_, by rw [hk, h.2], ?_⟩
        · intro x hx
          simp only [List.mem_cons] at hx
          rcases hx with hx | hx
          · rw [hx]; exact hc.1
          · exact hw x hx
        · intro m hm _
          by_cases hwn : w = []
          · have hmore := hc.2
            simp only [Atom.more, hm, decide_eq_true_eq] at hmore
            simp [hwn]
            omega
          · have := hmax m hm hwn
            simp
            omega
        · rw [← h.1, hg]
          cases a.cap <;> simp
    · exact stop h

theorem matchRep_complete (a : Atom) (k : GoString → Option (GoString × GoString)) :
    ∀ (w v : GoString) (n : Nat), (∀ c ∈ w, a.cls c = true) → a.min ≤ n + w.length →
      (∀ m, a.max = some m → n + w.length ≤ m) → (k v).isSome = true →
      (matchRep a k n (w ++ v)).isSome = true := by
  intro w
  induction w with
  | nil =>
    intro v n _ hmin _ hk
    simp only [List.length_nil, Nat.add_zero] at hmin
    cases v with
    | nil => simp [matchRep, hmin, hk]
    | cons c cs =>
      simp only [List.nil_append, matchRep]
      split
      · cases hrec : matchRep a k (n + 1) cs with
        | none => simp [hmin, hk]
        | some r => simp
      · simp [hmin, hk]
  | cons c w ih =>
    intro v n hw hmin hmax hk
    have hc : a.cls c = true := hw c (List.mem_cons_self _ _)
    have hmore : a.more n = true := by
      unfold Atom.more
      cases hm : a.max with
      | none => rfl
      | some m =>
        have := hmax m hm
        simp only [List.length_cons] at this
        simp only [decide_eq_true_eq]
        omega
    have hrec := ih v (n + 1) (fun x hx => hw x (List.mem_cons_of_mem _ hx))
      (by simp only [List.length_cons] at hmin; omega)
      (fun m hm => by have := hmax m hm; simp only [List.length_cons] at this; omega) hk
    simp only [List.cons_append, matchRep, hc, hmore, Bool.and_self, if_true]
    cases hr : matchRep a k (n + 1) (w ++ v) with
    | none => rw [hr] at hrec; cases hrec
    | some r => simp

theorem matchHere_sound :
    ∀ (re : List Atom) (s g rest : GoString), matchHere re s = some (g, rest) →
      ∃ mid, s = mid ++ rest ∧ SeqMatch re mid g := by
  intro re
  induction re with
  | nil =>
    intro s g rest h
    simp only [matchHere, Option.some.injEq, Prod.mk.injEq] at h
    exact ⟨[], by simp [h.2], rfl, h.1.symm⟩
  | cons a as ih =>
    intro s g rest h
    obtain ⟨w, v, g1, hs, hw, hmin, hmax, hk, hg⟩ := matchRep_sound a (matchHere as) s 0 g rest h
    obtain ⟨mid, hv, hm⟩ := ih v g1 rest hk
    refine ⟨w ++ mid, by rw [hs, hv, List.append_assoc], w, mid, g1, rfl, ⟨hw, by omega, ?_⟩,
      hm, hg⟩
    intro m hmx
    by_cases hwn : w = []
    · simp [hwn]
    · have := hmax m hmx hwn
      omega

theorem matchHere_complete :
    ∀ (re : List Atom) (mid g rest : GoString), SeqMatch re mid g →
      (matchHere re (mid ++ rest)).isSome = true := by
  intro re
  induction re with
  | nil => intro mid g rest _; simp [matchHere]
  | cons a as ih =>
    intro mid g rest h
    obtain ⟨w, v, g1, hmid, hacc, hv, -⟩ := h
    rw [hmid, List.append_assoc]
    exact matchRep_complete a (matchHere as) w (v ++ rest) 0 hacc.1 (by have := hacc.2.1; omega)
      (fun m hm => by have := hacc.2.2 m hm; omega) (ih v g1 rest hv)

theorem findSubmatch_sound (re : List Atom) :
    ∀ (s g : GoString), findSubmatch re s = some g → ∃ pre, LeftmostMatch re s pre g := by
  intro s
  induction s with
  | nil =>
    intro g h
    simp only [findSubmatch] at h
    cases hh : matchHere re [] with
    | none => rw [hh] at h; cases h
    | some r =>
      obtain ⟨g0, rest⟩ := r
      rw [hh] at h
      simp only [Option.map_some', Option.some.injEq] at h
      subst h
      obtain ⟨mid, hs, hm⟩ := matchHere_sound re [] g0 rest hh
      exact ⟨[], ⟨mid, rest, by simpa using hs, hm⟩, fun _ _ _ _ _ _ => Nat.zero_le _⟩
  | cons c cs ih =>
    intro g h
    simp only [findSubmatch] at h
    cases hh : matchHere re (c :: cs) with
    | some r =>
      obtain ⟨g0, rest⟩ := r
      rw [hh] at h
      simp only [Option.some.injEq] at h
      subst h
      obtain ⟨mid, hs, hm⟩ := matchHere_sound re (c :: cs) g0 rest hh
      exact ⟨[], ⟨mid, rest, by simpa using hs, hm⟩, fun _ _ _ _ _ _ => Nat.zero_le _⟩
    | none =>
      rw [hh] at h
      obtain ⟨pre, ⟨mid, post, hs, hm⟩, hleft⟩ := ih g h
      refine ⟨c :: pre, ⟨mid, post, by simp [hs], hm⟩, ?_⟩
      intro pre1 mid1 post1 g1 hs1 hm1
      cases pre1 with
      | nil =>
        have := matchHere_complete re mid1 g1 post1 hm1
        rw [List.nil_append] at hs1
        rw [← hs1, hh] at this
        cases this
      | cons d pre1 =>
        simp only [List.cons_append, List.cons.injEq] at hs1
        have := hleft pre1 mid1 post1 g1 hs1.2 hm1
        simp only [List.length_cons]
        omega

theorem findSubmatch_complete (re : List Atom) :
    ∀ (s : GoString), Matches re s → (findSubmatch re s).isSome = true := by
  intro s
  induction s with
  | nil =>
    rintro ⟨pre, mid, post, g, hs, hm⟩
    have hpre : pre = [] := by
      cases pre with
      | nil => rfl
      | cons _ _ => simp at hs
    subst hpre
    have := matchHere_complete re mid g post hm
    rw [List.nil_append] at hs
    rw [← hs] at this
    simp only [findSubmatch, Option.isSome_map']
    exact this
  | cons c cs ih =>
    rintro ⟨pre, mid, post, g, hs, hm⟩
    simp only [findSubmatch]
    cases hh : matchHere re (c :: cs) with
    | some r => simp
    | none =>
      cases pre with
      | nil =>
        have := matchHere_complete re mid g post hm
        rw [List.nil_append] at hs
        rw [← hs, hh] at this
        cases this
      | cons d pre =>
        simp only [List.cons_append, List.cons.injEq] at hs
        exact ih ⟨pre, mid, post, g, hs.2, hm⟩

theorem findSubmatch_isSome_iff (re : List Atom) (s : GoString) :
    (findSubmatch re s).isSome = true ↔ Matches re s := by
  constructor
  · intro h
    obtain ⟨g, hg⟩ := Option.isSome_iff_exists.mp h
    obtain ⟨pre, ⟨mid, post, hs, hm⟩, -⟩ := findSubmatch_sound re s g hg
    exact ⟨pre, mid, post, g, hs, hm⟩
  · exact findSubmatch_complete re s

theorem findSubmatch_eq_none_iff (re : List Atom) (s : GoString) :
    findSubmatch re s = none ↔ ¬ Matches re s := by
  rw [← findSubmatch_isSome_iff]
  cases findSubmatch re s <;> simp

/-! ## The shapes matched by the five placeholder patterns -/

theorem accepts_lit (c : Char) (w : GoString) : (lit c).Accepts w ↔ w = [c] := by
  constructor
  · rintro ⟨hall, hmin, hmax⟩
    have h1 := hmax 1 rfl
    simp only [lit] at hmin
    match w, hall, hmin, h1 with
    | [x], hall, _, _ =>
      have := hall x (List.mem_singleton_self x)
      simp only [lit, beq_iff_eq] at this
      rw [this]
  · rintro rfl
    refine ⟨?_, by simp [lit], ?_⟩
    · intro x hx
      simp only [List.mem_singleton] at hx
      simp [lit, hx]
    · intro m hm
      simp only [lit, Option.some.injEq] at hm
      simp [← hm]

/-- The shape of the matches of `oo(...)cc` with a group of characters other than `c`. -/
theorem seqMatch_double (o cl : Char) (mid g : GoString) :
    SeqMatch [lit o, lit o, ⟨fun c => c != cl, 1, none, true⟩, lit cl, lit cl] mid g ↔
      mid = o :: o :: g ++ [cl, cl] ∧ g ≠ [] ∧ ∀ c ∈ g, c ≠ cl := by
  simp only [SeqMatch, accepts_lit]
  constructor
  · rintro ⟨w1, v1, g1, rfl, rfl, ⟨w2, v2, g2, rfl, rfl, ⟨w3, v3, g3, rfl, hacc,
      ⟨w4, v4, g4, rfl, rfl, ⟨w5, v5, g5, rfl, rfl, ⟨rfl, rfl⟩, rfl⟩, rfl⟩, rfl⟩, rfl⟩, rfl⟩
    obtain ⟨hall, hmin, -⟩ := hacc
    refine ⟨by simp [lit], ?_, ?_⟩
    · simp only [lit, Bool.false_eq_true, if_false, if_true, List.append_nil]
      intro h
      rw [h] at hmin
      simp at hmin
    · simp only [lit, Bool.false_eq_true, if_false, if_true, List.append_nil]
      intro c hc
      simpa using hall c hc
  · rintro ⟨rfl, hne, hall⟩
    refine ⟨[o], o :: g ++ [cl, cl], g, by simp, rfl,
      ⟨[o], g ++ [cl, cl], g, by simp, rfl,
        ⟨g, [cl, cl], [], rfl, ⟨?_, ?_, by simp⟩,
          ⟨[cl], [cl], [], rfl, rfl, ⟨[cl], [], [], rfl, rfl, ⟨rfl, rfl⟩, by simp [lit]⟩,
            by simp [lit]⟩, by simp⟩,
        by simp [lit]⟩, by simp [lit]⟩
    · intro c hc
      simpa using hall c hc
    · cases g with
      | nil => exact absurd rfl hne
      | cons _ _ => simp

/-- The shape of the matches of `o([A-Z_][A-Z0-9_]*)c`. -/
theorem seqMatch_caps (o cl : Char) (mid g : GoString) :
    SeqMatch [lit o, ⟨capsStart, 1, some 1, true⟩, ⟨capsRest, 0, none, true⟩, lit cl] mid g ↔
      ∃ c r, g = c :: r ∧ capsStart c = true ∧ (∀ x ∈ r, capsRest x = true) ∧
        mid = o :: g ++ [cl] := by
  simp only [SeqMatch, accepts_lit]
  constructor
  · rintro ⟨w1, v1, g1, rfl, rfl, ⟨w2, v2, g2, rfl, hacc2, ⟨w3, v3, g3, rfl, hacc3,
      ⟨w4, v4, g4, rfl, rfl, ⟨rfl, rfl⟩, rfl⟩, rfl⟩, rfl⟩, rfl⟩
    obtain ⟨hall2, hmin2, hmax2⟩ := hacc2
    have h1 := hmax2 1 rfl
    simp only at hmin2
    match w2, hall2, hmin2, h1 with
    | [c], hall2, _, _ =>
      refine ⟨c, w3, by simp [lit], hall2 c (List.mem_singleton_self c), hacc3.1, by simp [lit]⟩
  · rintro ⟨c, r, rfl, hc, hr, rfl⟩
    refine ⟨[o], c :: r ++ [cl], c :: r, by simp, rfl,
      ⟨[c], r ++ [cl], r, by simp, ⟨?_, by simp, ?_⟩,
        ⟨r, [cl], [], rfl, ⟨hr, by simp, by simp⟩,
          ⟨[cl], [], [], rfl, rfl, ⟨rfl, rfl⟩, by simp [lit]⟩, by simp⟩, by simp⟩,
      by simp [lit]⟩
    · intro x hx
      simp only [List.mem_singleton] at hx
      rw [hx]; exact hc
    · intro m hm
      simp only [Option.some.injEq] at hm
      simp [← hm]

/-! ## Pattern detector -/

/-- The result of `detectFillableField`, by the first pattern that is found. -/
theorem detectFillableField_cases (E : Stdlib) (s : GoString) :
    (∃ m, findSubmatch doubleBracketPattern (trimSpace s) = some m ∧
      detectFillableField E s =
        ⟨true, "double_bracket".toList, E.lower (replaceAll m ' ' "_".toList), m⟩) ∨
    (findSubmatch doubleBracketPattern (trimSpace s) = none ∧
      ∃ m, findSubmatch singleBracketPattern (trimSpace s) = some m ∧
      detectFillableField E s = ⟨true, "single_bracket_caps".toList, E.lower m, m⟩) ∨
    (findSubmatch doubleBracketPattern (trimSpace s) = none ∧
      findSubmatch singleBracketPattern (trimSpace s) = none ∧
      ∃ m, findSubmatch doubleCurlyPattern (trimSpace s) = some m ∧
      detectFillableField E s =
        ⟨true, "double_curly".toList, E.lower (replaceAll m ' ' "_".toList), m⟩) ∨
    (findSubmatch doubleBracketPattern (trimSpace s) = none ∧
      findSubmatch singleBracketPattern (trimSpace s) = none ∧
      findSubmatch doubleCurlyPattern (trimSpace s) = none ∧
      ∃ m, findSubmatch singleCurlyPattern (trimSpace s) = some m ∧
      detectFillableField E s = ⟨true, "single_curly_caps".toList, E.lower m, m⟩) ∨
    (findSubmatch doubleBracketPattern (trimSpace s) = none ∧
      findSubmatch singleBracketPattern (trimSpace s) = none ∧
      findSubmatch doubleCurlyPattern (trimSpace s) = none ∧
      findSubmatch singleCurlyPattern (trimSpace s) = none ∧
      ∃ m, findSubmatch anglePattern (trimSpace s) = some m ∧
      detectFillableField E s = ⟨true, "angle_brackets".toList, E.lower m, m⟩) ∨
    (findSubmatch doubleBracketPattern (trimSpace s) = none ∧
      findSubmatch singleBracketPattern (trimSpace s) = none ∧
      findSubmatch doubleCurlyPattern (trimSpace s) = none ∧
      findSubmatch singleCurlyPattern (trimSpace s) = none ∧
      findSubmatch anglePattern (trimSpace s) = none ∧
      detectFillableField E s = ⟨false, [], [], []⟩) := by
  simp only [detectFillableField]
  cases h1 : findSubmatch doubleBracketPattern (trimSpace s) <;>
  cases h2 : findSubmatch singleBracketPattern (trimSpace s) <;>
  cases h3 : findSubmatch doubleCurlyPattern (trimSpace s) <;>
  cases h4 : findSubmatch singleCurlyPattern (trimSpace s) <;>
  cases h5 : findSubmatch anglePattern (trimSpace s) <;>
  simp


/-! ## Trimming -/

theorem dropWhile_append_cons {p : Char → Bool} (pre : GoString) (c : Char) (rest : GoString)
    (hc : p c = false) :
    (pre ++ c :: rest).dropWhile p = pre.dropWhile p ++ c :: rest := by
  induction pre with
  | nil => simp [List.dropWhile, hc]
  | cons x pre ih =>
    by_cases hx : p x = true
    · simp [List.dropWhile, hx, ih]
    · simp [List.dropWhile, hx]

/-- Trimming a text around a part `mid` that begins and ends with a character that is
not white space trims the text before and the text after it. -/
theorem trimSpace_around (pre post m : GoString) (c d : Char)
    (hc : isSpace c = false) (hd : isSpace d = false) :
    trimSpace (pre ++ (c :: m ++ [d]) ++ post) =
      pre.dropWhile isSpace ++ (c :: m ++ [d]) ++ (post.reverse.dropWhile isSpace).reverse := by
  unfold trimSpace
  have h1 : (pre ++ (c :: m ++ [d]) ++ post).dropWhile isSpace =
      pre.dropWhile isSpace ++ c :: (m ++ [d] ++ post) := by
    have := dropWhile_append_cons pre c (m ++ [d] ++ post) hc
    simpa using this
  rw [h1]
  have h2 : (pre.dropWhile isSpace ++ c :: (m ++ [d] ++ post)).reverse =
      post.reverse ++ d :: (m.reverse ++ c :: (pre.dropWhile isSpace).reverse) := by
    simp
  rw [h2, dropWhile_append_cons _ d _ hd]
  simp

/-- Trimming a text that begins and ends with a character that is not white space
leaves it unchanged. -/
theorem trimSpace_eq_self (m : GoString) (c d : Char)
    (hc : isSpace c = false) (hd : isSpace d = false) :
    trimSpace (c :: m ++ [d]) = c :: m ++ [d] := by
  have := trimSpace_around [] [] m c d hc hd
  simpa using this

/-- The trimmed text is a part of the text; what precedes it is the leading white
space. -/
theorem trimSpace_infix (s : GoString) :
    ∃ b, s = s.takeWhile isSpace ++ trimSpace s ++ b := by
  refine ⟨((s.dropWhile isSpace).reverse.takeWhile isSpace).reverse, ?_⟩
  unfold trimSpace
  have h1 := List.takeWhile_append_dropWhile isSpace s
  have h2 := List.takeWhile_append_dropWhile isSpace (s.dropWhile isSpace).reverse
  have h3 : s.dropWhile isSpace =
      ((s.dropWhile isSpace).reverse.dropWhile isSpace).reverse ++
        ((s.dropWhile isSpace).reverse.takeWhile isSpace).reverse := by
    rw [← List.reverse_append, h2, List.reverse_reverse]
  rw [List.append_assoc, ← h3, h1]


theorem takeWhile_append_cons {p : Char → Bool} (pre : GoString) (c : Char) (rest : GoString)
    (hc : p c = false) :
    (pre ++ c :: rest).takeWhile p = pre.takeWhile p := by
  induction pre with
  | nil => simp [List.takeWhile, hc]
  | cons x pre ih =>
    by_cases hx : p x = true
    · simp [List.takeWhile, hx, ih]
    · simp [List.takeWhile, hx]

theorem matches_trimSpace (re : List Atom) (hre : Bracketed re) (s : GoString) :
    Matches re (trimSpace s) ↔ Matches re s := by
  constructor
  · rintro ⟨pre, mid, post, g, hs, hm⟩
    obtain ⟨b, hb⟩ := trimSpace_infix s
    refine ⟨s.takeWhile isSpace ++ pre, mid, post ++ b, g, ?_, hm⟩
    rw [hs] at hb
    simpa [List.append_assoc] using hb
  · rintro ⟨pre, mid, post, g, hs, hm⟩
    obtain ⟨c, m, d, hmid, hc, hd⟩ := hre mid g hm
    refine ⟨pre.dropWhile isSpace, mid, (post.reverse.dropWhile isSpace).reverse, g, ?_, hm⟩
    rw [hs, hmid]
    exact trimSpace_around pre post m c d hc hd

theorem leftmost_trimSpace (re : List Atom) (hre : Bracketed re) (s pre g : GoString)
    (h : LeftmostMatch re s pre g) :
    LeftmostMatch re (trimSpace s) (pre.dropWhile isSpace) g := by
  obtain ⟨⟨mid, post, hs, hm⟩, hleft⟩ := h
  obtain ⟨c, m, d, hmid, hc, hd⟩ := hre mid g hm
  have htrim : trimSpace s =
      pre.dropWhile isSpace ++ mid ++ (post.reverse.dropWhile isSpace).reverse := by
    rw [hs, hmid]
    exact trimSpace_around pre post m c d hc hd
  refine ⟨⟨mid, _, htrim, hm⟩, ?_⟩
  intro pre1 mid1 post1 g1 hs1 hm1
  obtain ⟨b, hb⟩ := trimSpace_infix s
  have hocc : s = (s.takeWhile isSpace ++ pre1) ++ mid1 ++ (post1 ++ b) := by
    rw [hs1] at hb
    simpa [List.append_assoc] using hb
  have hle := hleft _ mid1 _ g1 hocc hm1
  have htw : s.takeWhile isSpace = pre.takeWhile isSpace := by
    rw [hs, hmid]
    have := takeWhile_append_cons (p := isSpace) pre c (m ++ [d] ++ post) hc
    simpa [List.append_assoc] using this
  have hsplit := congrArg List.length (List.takeWhile_append_dropWhile isSpace pre)
  rw [htw] at hle
  simp only [List.length_append] at hle hsplit
  omega

theorem leftmost_prefix_unique (re : List Atom) (s p1 g1 p2 g2 : GoString)
    (h1 : LeftmostMatch re s p1 g1) (h2 : LeftmostMatch re s p2 g2) : p1 = p2 := by
  obtain ⟨⟨mid1, post1, hs1, hm1⟩, hl1⟩ := h1
  obtain ⟨⟨mid2, post2, hs2, hm2⟩, hl2⟩ := h2
  have ha := hl1 p2 mid2 post2 g2 hs2 hm2
  have hb := hl2 p1 mid1 post1 g1 hs1 hm1
  have hlen : p1.length = p2.length := by omega
  have heq : p1 ++ (mid1 ++ post1) = p2 ++ (mid2 ++ post2) := by
    rw [← List.append_assoc, ← List.append_assoc, ← hs1, ← hs2]
  exact (List.append_inj heq hlen).1

/-- The matcher on the trimmed text returns the group of the leftmost match in the
text. -/
theorem findSubmatch_of_leftmost (re : List Atom) (hre : Bracketed re)
    (hdet : GroupDetermined re) (s pre g : GoString) (h : LeftmostMatch re s pre g) :
    findSubmatch re (trimSpace s) = some g := by
  have ht := leftmost_trimSpace re hre s pre g h
  have hmatch : Matches re (trimSpace s) := by
    obtain ⟨⟨mid, post, hs, hm⟩, -⟩ := ht
    exact ⟨_, mid, post, g, hs, hm⟩
  obtain ⟨m, hfind⟩ := Option.isSome_iff_exists.mp (findSubmatch_complete re _ hmatch)
  obtain ⟨pre0, h0⟩ := findSubmatch_sound re _ m hfind
  have hp := leftmost_prefix_unique re _ _ _ _ _ h0 ht
  subst hp
  obtain ⟨⟨mid0, post0, hs0, hm0⟩, -⟩ := h0
  obtain ⟨⟨mid1, post1, hs1, hm1⟩, -⟩ := ht
  have heq : mid0 ++ post0 = mid1 ++ post1 := by
    have : pre.dropWhile isSpace ++ (mid0 ++ post0) = pre.dropWhile isSpace ++ (mid1 ++ post1) := by
      rw [← List.append_assoc, ← List.append_assoc, ← hs0, ← hs1]
    exact List.append_cancel_left this
  rw [hfind, hdet (mid0 ++ post0) (mid1 ++ post1) mid0 post0 m mid1 post1 g heq rfl rfl hm0 hm1]

theorem append_cons_unique {a : Char} :
    ∀ (l1 l2 r1 r2 : GoString), a ∉ l1 → a ∉ l2 → l1 ++ a :: r1 = l2 ++ a :: r2 → l1 = l2 := by
  intro l1
  induction l1 with
  | nil =>
    intro l2 r1 r2 _ h2 h
    cases l2 with
    | nil => rfl
    | cons x l2 =>
      simp only [List.nil_append, List.cons_append, List.cons.injEq] at h
      exact absurd (h.1 ▸ List.mem_cons_self _ _) h2
  | cons y l1 ih =>
    intro l2 r1 r2 h1 h2 h
    cases l2 with
    | nil =>
      simp only [List.nil_append, List.cons_append, List.cons.injEq] at h
      exact absurd (h.1 ▸ List.mem_cons_self _ _ : a ∈ y :: l1) h1
    | cons x l2 =>
      simp only [List.cons_append, List.cons.injEq] at h
      rw [h.1, ih l2 r1 r2 (fun hm => h1 (List.mem_cons_of_mem _ hm))
        (fun hm => h2 (List.mem_cons_of_mem _ hm)) h.2]

theorem bracketed_double (o cl : Char) (ho : isSpace o = false) (hcl : isSpace cl = false) :
    Bracketed [lit o, lit o, ⟨fun c => c != cl, 1, none, true⟩, lit cl, lit cl] := by
  intro mid g h
  obtain ⟨hmid, -, -⟩ := (seqMatch_double o cl mid g).mp h
  exact ⟨o, o :: g ++ [cl], cl, by simp [hmid], ho, hcl⟩

theorem groupDetermined_double (o cl : Char) :
    GroupDetermined [lit o, lit o, ⟨fun c => c != cl, 1, none, true⟩, lit cl, lit cl] := by
  intro rest1 rest2 mid1 post1 g1 mid2 post2 g2 hrest h1 h2 hm1 hm2
  obtain ⟨hmid1, -, hg1⟩ := (seqMatch_double o cl mid1 g1).mp hm1
  obtain ⟨hmid2, -, hg2⟩ := (seqMatch_double o cl mid2 g2).mp hm2
  rw [h1, h2, hmid1, hmid2] at hrest
  have : g1 ++ cl :: (cl :: post1) = g2 ++ cl :: (cl :: post2) := by
    simpa using hrest
  exact append_cons_unique g1 g2 _ _ (fun hm => hg1 cl hm rfl) (fun hm => hg2 cl hm rfl) this

theorem bracketed_caps (o cl : Char) (ho : isSpace o = false) (hcl : isSpace cl = false) :
    Bracketed [lit o, ⟨capsStart, 1, some 1, true⟩, ⟨capsRest, 0, none, true⟩, lit cl] := by
  intro mid g h
  obtain ⟨c, r, -, -, -, hmid⟩ := (seqMatch_caps o cl mid g).mp h
  exact ⟨o, g, cl, by simp [hmid], ho, hcl⟩

theorem capsStart_capsRest (c : Char) (h : capsStart c = true) : capsRest c = true := by
  simp only [capsStart, capsRest, Bool.or_eq_true, Bool.and_eq_true] at h ⊢
  rcases h with h | h
  · exact Or.inl (Or.inl h)
  · exact Or.inr h

theorem groupDetermined_caps (o cl : Char) (hcl : capsRest cl = false) :
    GroupDetermined [lit o, ⟨capsStart, 1, some 1, true⟩, ⟨capsRest, 0, none, true⟩, lit cl] := by
  intro rest1 rest2 mid1 post1 g1 mid2 post2 g2 hrest h1 h2 hm1 hm2
  have key : ∀ mid g, SeqMatch [lit o, ⟨capsStart, 1, some 1, true⟩,
      ⟨capsRest, 0, none, true⟩, lit cl] mid g → mid = o :: g ++ [cl] ∧ cl ∉ g := by
    intro mid g hm
    obtain ⟨c, r, hg, hc, hr, hmid⟩ := (seqMatch_caps o cl mid g).mp hm
    refine ⟨hmid, ?_⟩
    intro hmem
    rw [hg, List.mem_cons] at hmem
    rcases hmem with hmem | hmem
    · rw [← hmem] at hc
      rw [capsStart_capsRest cl hc] at hcl
      cases hcl
    · rw [hr cl hmem] at hcl
      cases hcl
  obtain ⟨hmid1, hg1⟩ := key mid1 g1 hm1
  obtain ⟨hmid2, hg2⟩ := key mid2 g2 hm2
  rw [h1, h2, hmid1, hmid2] at hrest
  have : g1 ++ cl :: post1 = g2 ++ cl :: post2 := by
    simpa using hrest
  exact append_cons_unique g1 g2 _ _ hg1 hg2 this

theorem bracketed_doubleBracket : Bracketed doubleBracketPattern :=
  bracketed_double '[' ']' (by decide) (by decide)

theorem bracketed_singleBracket : Bracketed singleBracketPattern :=
  bracketed_caps '[' ']' (by decide) (by decide)

theorem bracketed_doubleCurly : Bracketed doubleCurlyPattern :=
  bracketed_double '{' '}' (by decide) (by decide)

theorem bracketed_singleCurly : Bracketed singleCurlyPattern :=
  bracketed_caps '{' '}' (by decide) (by decide)

theorem bracketed_angle : Bracketed anglePattern :=
  bracketed_caps '<' '>' (by decide) (by decide)

/-- A text that contains `[[g]]`, with `g` not empty and free of `]`, has a match of
the first pattern. -/
theorem matches_doubleBracket_of_shape (s pre g post : GoString)
    (hs : s = pre ++ "[[".toList ++ g ++ "]]".toList ++ post) (hg : g ≠ [])
    (hc : ∀ c ∈ g, c ≠ ']') : Matches doubleBracketPattern s :=
  ⟨pre, '[' :: '[' :: g ++ [']', ']'], post, g, by simp [hs],
    (seqMatch_double '[' ']' _ g).mpr ⟨rfl, hg, hc⟩⟩

theorem detectFillableField_example (E : Stdlib) :
    (detectFillableField E "[[A]] [B]".toList).pattern_type = "double_bracket".toList := rfl

/-- C1: `detectFillableField` reports the first of the five placeholder patterns, in
the order double_bracket, single_bracket_caps, double_curly, single_curly_caps,
angle_brackets, that has a match anywhere in the trimmed text; it reports
`is_fillable = false` exactly when none of the five has a match, and then the other
three fields are empty. In particular a text containing a `[[..]]` placeholder is
classified double_bracket whatever else it contains, as is `"[[A]] [B]"`. -/
theorem detectFillableField_first_pattern (E : Stdlib) (s : GoString) :
    (Matches doubleBracketPattern (trimSpace s) →
      (detectFillableField E s).is_fillable = true ∧
      (detectFillableField E s).pattern_type = "double_bracket".toList) ∧
    (¬ Matches doubleBracketPattern (trimSpace s) →
      Matches singleBracketPattern (trimSpace s) →
      (detectFillableField E s).is_fillable = true ∧
      (detectFillableField E s).pattern_type = "single_bracket_caps".toList) ∧
    (¬ Matches doubleBracketPattern (trimSpace s) →
      ¬ Matches singleBracketPattern (trimSpace s) →
      Matches doubleCurlyPattern (trimSpace s) →
      (detectFillableField E s).is_fillable = true ∧
      (detectFillableField E s).pattern_type = "double_curly".toList) ∧
    (¬ Matches doubleBracketPattern (trimSpace s) →
      ¬ Matches singleBracketPattern (trimSpace s) →
      ¬ Matches doubleCurlyPattern (trimSpace s) →
      Matches singleCurlyPattern (trimSpace s) →
      (detectFillableField E s).is_fillable = true ∧
      (detectFillableField E s).pattern_type = "single_curly_caps".toList) ∧
    (¬ Matches doubleBracketPattern (trimSpace s) →
      ¬ Matches singleBracketPattern (trimSpace s) →
      ¬ Matches doubleCurlyPattern (trimSpace s) →
      ¬ Matches singleCurlyPattern (trimSpace s) →
      Matches anglePattern (trimSpace s) →
      (detectFillableField E s).is_fillable = true ∧
      (detectFillableField E s).pattern_type = "angle_brackets".toList) ∧
    ((detectFillableField E s).is_fillable = false ↔
      ¬ Matches doubleBracketPattern (trimSpace s) ∧
      ¬ Matches singleBracketPattern (trimSpace s) ∧
      ¬ Matches doubleCurlyPattern (trimSpace s) ∧
      ¬ Matches singleCurlyPattern (trimSpace s) ∧
      ¬ Matches anglePattern (trimSpace s)) ∧
    ((detectFillableField E s).is_fillable = false →
      (detectFillableField E s).pattern_type = [] ∧
      (detectFillableField E s).field_name = [] ∧
      (detectFillableField E s).placeholder = []) ∧
    (∀ pre g post, s = pre ++ "[[".toList ++ g ++ "]]".toList ++ post → g ≠ [] →
      (∀ c ∈ g, c ≠ ']') →
      (detectFillableField E s).pattern_type = "double_bracket".toList) ∧
    (detectFillableField E "[[A]] [B]".toList).pattern_type = "double_bracket".toList := by
  have hshape : ∀ pre g post, s = pre ++ "[[".toList ++ g ++ "]]".toList ++ post → g ≠ [] →
      (∀ c ∈ g, c ≠ ']') → (findSubmatch doubleBracketPattern (trimSpace s)).isSome = true := by
    intro pre g post hs hg hc
    rw [findSubmatch_isSome_iff, matches_trimSpace _ bracketed_doubleBracket]
    exact matches_doubleBracket_of_shape s pre g post hs hg hc
  simp only [← findSubmatch_isSome_iff]
  refine ⟨?_, ?_, ?_, ?_, ?_, ?_, ?_, ?_, detectFillableField_example E⟩
  all_goals
    rcases detectFillableField_cases E s with ⟨m, h1, hr⟩ | ⟨h1, m, h2, hr⟩ |
      ⟨h1, h2, m, h3, hr⟩ | ⟨h1, h2, h3, m, h4, hr⟩ | ⟨h1, h2, h3, h4, m, h5, hr⟩ |
      ⟨h1, h2, h3, h4, h5, hr⟩
  all_goals first
    | (intro pre g post hs hg hc
       have hsome := hshape pre g post hs hg hc
       first
         | (rw [h1] at hsome; cases hsome; done)
         | (rw [hr]))
    | simp only [*, Option.isSome_some, Option.isSome_none,
        Bool.false_eq_true, Bool.true_eq_false, not_true_eq_false, not_false_eq_true,
        and_self, and_true, true_and, false_and, and_false, implies_true, false_implies,
        true_implies, iff_self, iff_false, iff_true, true_iff, false_iff]

theorem leftmost_of_trimSpace (re : List Atom) (hre : Bracketed re) (s pre g : GoString)
    (h : LeftmostMatch re (trimSpace s) pre g) :
    LeftmostMatch re s (s.takeWhile isSpace ++ pre) g := by
  obtain ⟨⟨mid, post, hs, hm⟩, hleft⟩ := h
  obtain ⟨b, hb⟩ := trimSpace_infix s
  refine ⟨⟨mid, post ++ b, ?_, hm⟩, ?_⟩
  · rw [hs] at hb
    simpa [List.append_assoc] using hb
  · intro pre1 mid1 post1 g1 hs1 hm1
    obtain ⟨c, m, d, hmid, hc, hd⟩ := hre mid1 g1 hm1
    have htrim : trimSpace s =
        pre1.dropWhile isSpace ++ mid1 ++ (post1.reverse.dropWhile isSpace).reverse := by
      rw [hs1, hmid]
      exact trimSpace_around pre1 post1 m c d hc hd
    have hle := hleft _ mid1 _ g1 htrim hm1
    have htw : s.takeWhile isSpace = pre1.takeWhile isSpace := by
      rw [hs1, hmid]
      have := takeWhile_append_cons (p := isSpace) pre1 c (m ++ [d] ++ post1) hc
      simpa [List.append_assoc] using this
    have hsplit := congrArg List.length (List.takeWhile_append_dropWhile isSpace pre1)
    rw [htw]
    simp only [List.length_append] at hsplit ⊢
    omega

theorem matches_lit_mem (o : Char) (re : List Atom) (s : GoString)
    (h : Matches (lit o :: re) s) : o ∈ s := by
  obtain ⟨pre, mid, post, g, hs, w, v, g1, hmid, hacc, -, -⟩ := h
  rw [accepts_lit] at hacc
  rw [hs, hmid, hacc]
  simp

theorem matches_lit_lit_mem_tail (o x : Char) (re : List Atom) (tl : GoString)
    (h : Matches (lit o :: lit o :: re) (x :: tl)) : o ∈ tl := by
  obtain ⟨pre, mid, post, g, hs, w, v, g1, hmid, hacc, ⟨w2, v2, g2, hv, hacc2, -, -⟩, -⟩ := h
  rw [accepts_lit] at hacc hacc2
  rw [hmid, hacc, hv, hacc2] at hs
  cases pre with
  | nil =>
    simp only [List.nil_append, List.cons_append, List.cons.injEq] at hs
    rw [hs.2]
    simp
  | cons y pre =>
    simp only [List.cons_append, List.cons.injEq] at hs
    rw [hs.2]
    simp

theorem capsRest_of_mem_capsId (id : GoString) (h : isCapsId id = true) :
    ∀ x ∈ id, capsRest x = true := by
  cases id with
  | nil => simp [isCapsId] at h
  | cons c r =>
    simp only [isCapsId, Bool.and_eq_true, List.all_eq_true] at h
    intro x hx
    rw [List.mem_cons] at hx
    rcases hx with hx | hx
    · rw [hx]; exact capsStart_capsRest c h.1
    · exact h.2 x hx

/-- A text `o ID c` has the caps pattern for the brackets `o`, `c` at its start, with
group `ID`, when the closing bracket is not a caps character. -/
theorem findSubmatch_caps_id (o cl : Char) (ho : isSpace o = false) (hcl : isSpace cl = false)
    (hr : capsRest cl = false) (id : GoString) (hid : isCapsId id = true) :
    findSubmatch [lit o, ⟨capsStart, 1, some 1, true⟩, ⟨capsRest, 0, none, true⟩, lit cl]
      (trimSpace (o :: id ++ [cl])) = some id := by
  apply findSubmatch_of_leftmost _ (bracketed_caps o cl ho hcl) (groupDetermined_caps o cl hr)
    _ [] id
  refine ⟨⟨o :: id ++ [cl], [], by simp, ?_⟩, fun _ _ _ _ _ _ => Nat.zero_le _⟩
  rw [seqMatch_caps]
  cases id with
  | nil => simp [isCapsId] at hid
  | cons c r =>
    simp only [isCapsId, Bool.and_eq_true, List.all_eq_true] at hid
    exact ⟨c, r, rfl, hid.1, hid.2, rfl⟩

theorem not_mem_capsId (x : Char) (hx : capsRest x = false) (id : GoString)
    (hid : isCapsId id = true) : x ∉ id := by
  intro hmem
  rw [capsRest_of_mem_capsId id hid x hmem] at hx
  cases hx

theorem findSubmatch_none_of_not_mem (o : Char) (re : List Atom) (s : GoString)
    (hre : Bracketed (lit o :: re)) (h : o ∉ s) :
    findSubmatch (lit o :: re) (trimSpace s) = none := by
  rw [findSubmatch_eq_none_iff, matches_trimSpace _ hre]
  exact fun hm => h (matches_lit_mem o re s hm)

theorem findSubmatch_none_of_not_mem_tail (o x : Char) (re : List Atom) (tl : GoString)
    (hre : Bracketed (lit o :: lit o :: re)) (h : o ∉ tl) :
    findSubmatch (lit o :: lit o :: re) (trimSpace (x :: tl)) = none := by
  rw [findSubmatch_eq_none_iff, matches_trimSpace _ hre]
  exact fun hm => h (matches_lit_lit_mem_tail o x re tl hm)

/-- C3: for every identifier `ID` matching `[A-Z_][A-Z0-9_]*`, `detectFillableField`
applied to `[ID]`, to `ID` in curly brackets and to `<ID>` returns `is_fillable = true`
with pattern_type single_bracket_caps, single_curly_caps and angle_brackets
respectively, in each case with field_name the lower-cased `ID` and placeholder `ID`. -/
theorem detectFillableField_caps_id (E : Stdlib) (id : GoString) (hid : isCapsId id = true) :
    detectFillableField E ('[' :: id ++ [']']) =
      ⟨true, "single_bracket_caps".toList, E.lower id, id⟩ ∧
    detectFillableField E ('{' :: id ++ ['}']) =
      ⟨true, "single_curly_caps".toList, E.lower id, id⟩ ∧
    detectFillableField E ('<' :: id ++ ['>']) =
      ⟨true, "angle_brackets".toList, E.lower id, id⟩ := by
  have hmem : ∀ x, capsRest x = false → ∀ y, x ≠ y → x ∉ id ++ [y] := by
    intro x hx y hxy hm
    simp only [List.mem_append, List.mem_singleton] at hm
    rcases hm with hm | hm
    · exact not_mem_capsId x hx id hid hm
    · exact hxy hm
  have hmem2 : ∀ x, capsRest x = false → ∀ o y, x ≠ o → x ≠ y → x ∉ o :: id ++ [y] := by
    intro x hx o y hxo hxy hm
    rw [List.cons_append, List.mem_cons] at hm
    rcases hm with hm | hm
    · exact hxo hm
    · exact hmem x hx y hxy hm
  refine ⟨?_, ?_, ?_⟩
  · have h1 : findSubmatch doubleBracketPattern (trimSpace ('[' :: id ++ [']'])) = none :=
      findSubmatch_none_of_not_mem_tail '[' '[' _ (id ++ [']']) bracketed_doubleBracket
        (hmem '[' (by decide) ']' (by decide))
    have h2 : findSubmatch singleBracketPattern (trimSpace ('[' :: id ++ [']'])) = some id :=
      findSubmatch_caps_id '[' ']' (by decide) (by decide) (by decide) id hid
    simp only [detectFillableField, h1, h2]
  · have h1 : findSubmatch doubleBracketPattern (trimSpace ('{' :: id ++ ['}'])) = none :=
      findSubmatch_none_of_not_mem '[' _ _ bracketed_doubleBracket
        (hmem2 '[' (by decide) '{' '}' (by decide) (by decide))
    have h2 : findSubmatch singleBracketPattern (trimSpace ('{' :: id ++ ['}'])) = none :=
      findSubmatch_none_of_not_mem '[' _ _ bracketed_singleBracket
        (hmem2 '[' (by decide) '{' '}' (by decide) (by decide))
    have h3 : findSubmatch doubleCurlyPattern (trimSpace ('{' :: id ++ ['}'])) = none :=
      findSubmatch_none_of_not_mem_tail '{' '{' _ (id ++ ['}']) bracketed_doubleCurly
        (hmem '{' (by decide) '}' (by decide))
    have h4 : findSubmatch singleCurlyPattern (trimSpace ('{' :: id ++ ['}'])) = some id :=
      findSubmatch_caps_id '{' '}' (by decide) (by decide) (by decide) id hid
    simp only [detectFillableField, h1, h2, h3, h4]
  · have h1 : findSubmatch doubleBracketPattern (trimSpace ('<' :: id ++ ['>'])) = none :=
      findSubmatch_none_of_not_mem '[' _ _ bracketed_doubleBracket
        (hmem2 '[' (by decide) '<' '>' (by decide) (by decide))
    have h2 : findSubmatch singleBracketPattern (trimSpace ('<' :: id ++ ['>'])) = none :=
      findSubmatch_none_of_not_mem '[' _ _ bracketed_singleBracket
        (hmem2 '[' (by decide) '<' '>' (by decide) (by decide))
    have h3 : findSubmatch doubleCurlyPattern (trimSpace ('<' :: id ++ ['>'])) = none :=
      findSubmatch_none_of_not_mem '{' _ _ bracketed_doubleCurly
        (hmem2 '{' (by decide) '<' '>' (by decide) (by decide))
    have h4 : findSubmatch singleCurlyPattern (trimSpace ('<' :: id ++ ['>'])) = none :=
      findSubmatch_none_of_not_mem '{' _ _ bracketed_singleCurly
        (hmem2 '{' (by decide) '<' '>' (by decide) (by decide))
    have h5 : findSubmatch anglePattern (trimSpace ('<' :: id ++ ['>'])) = some id :=
      findSubmatch_caps_id '<' '>' (by decide) (by decide) (by decide) id hid
    simp only [detectFillableField, h1, h2, h3, h4, h5]

theorem detectFillableField_caps_id_witness :
    detectFillableField asciiLib ('[' :: "INVOICE_NUMBER".toList ++ [']']) =
      ⟨true, "single_bracket_caps".toList, asciiLib.lower "INVOICE_NUMBER".toList,
        "INVOICE_NUMBER".toList⟩ ∧
    detectFillableField asciiLib ('{' :: "INVOICE_NUMBER".toList ++ ['}']) =
      ⟨true, "single_curly_caps".toList, asciiLib.lower "INVOICE_NUMBER".toList,
        "INVOICE_NUMBER".toList⟩ ∧
    detectFillableField asciiLib ('<' :: "INVOICE_NUMBER".toList ++ ['>']) =
      ⟨true, "angle_brackets".toList, asciiLib.lower "INVOICE_NUMBER".toList,
        "INVOICE_NUMBER".toList⟩ :=
  detectFillableField_caps_id asciiLib "INVOICE_NUMBER".toList (by decide)

/-- C2, as stated, fails: the text `[[A]B]]` contains a match of `\[\[(.+)\]\]`, yet
it is classified single_bracket_caps with field name `a`; and in `[[a]] [[b]]` the
group of `\[\[(.+)\]\]` is `a]] [[b`, while the field name is `a`. -/
theorem detectFillableField_dotPlus_counterexample :
    Matches dotPlusDoubleBracketPattern "[[A]B]]".toList ∧
    detectFillableField asciiLib "[[A]B]]".toList =
      ⟨true, "single_bracket_caps".toList, "a".toList, "A".toList⟩ ∧
    findSubmatch dotPlusDoubleBracketPattern "[[a]] [[b]]".toList = some "a]] [[b".toList ∧
    detectFillableField asciiLib "[[a]] [[b]]".toList =
      ⟨true, "double_bracket".toList, "a".toList, "a".toList⟩ :=
  ⟨(findSubmatch_isSome_iff _ _).mp (by decide), by decide, by decide, by decide⟩

/-- C2, amended: for every cell text that contains a match of the pattern of the code,
`\[\[([^\]]+)\]\]`, whose group holds no `]`, `detectFillableField` returns
`is_fillable = true` with pattern_type double_bracket, placeholder the group of the
leftmost match, and field_name that group with every space replaced by `_`,
lower-cased. The second part says the same for a text written out as
`pre [[g]] post` in which no such placeholder starts before `pre` ends. -/
theorem detectFillableField_double_bracket (E : Stdlib) (t : GoString) :
    (Matches doubleBracketPattern t →
      ∃ pre g, LeftmostMatch doubleBracketPattern t pre g ∧
        detectFillableField E t =
          ⟨true, "double_bracket".toList, E.lower (replaceAll g ' ' "_".toList), g⟩) ∧
    (∀ pre g post, t = pre ++ "[[".toList ++ g ++ "]]".toList ++ post → g ≠ [] →
      (∀ c ∈ g, c ≠ ']') →
      (∀ pre1 g1 post1, t = pre1 ++ "[[".toList ++ g1 ++ "]]".toList ++ post1 → g1 ≠ [] →
        (∀ c ∈ g1, c ≠ ']') → pre.length ≤ pre1.length) →
      detectFillableField E t =
        ⟨true, "double_bracket".toList, E.lower (replaceAll g ' ' "_".toList), g⟩) := by
  constructor
  · intro hm
    have hm1 := (matches_trimSpace _ bracketed_doubleBracket t).mpr hm
    obtain ⟨m, hfind⟩ := Option.isSome_iff_exists.mp (findSubmatch_complete _ _ hm1)
    obtain ⟨pre0, h0⟩ := findSubmatch_sound _ _ m hfind
    refine ⟨_, m, leftmost_of_trimSpace _ bracketed_doubleBracket t pre0 m h0, ?_⟩
    simp only [detectFillableField, hfind]
  · intro pre g post ht hg hc hleft
    have hl : LeftmostMatch doubleBracketPattern t pre g := by
      refine ⟨⟨'[' :: '[' :: g ++ [']', ']'], post, by simp [ht],
        (seqMatch_double '[' ']' _ g).mpr ⟨rfl, hg, hc⟩⟩, ?_⟩
      intro pre1 mid1 post1 g1 hs1 hm1
      obtain ⟨hmid1, hg1, hc1⟩ := (seqMatch_double '[' ']' mid1 g1).mp hm1
      exact hleft pre1 g1 post1 (by simp [hs1, hmid1]) hg1 hc1
    have hfind := findSubmatch_of_leftmost _ bracketed_doubleBracket
      (groupDetermined_double '[' ']') t pre g hl
    simp only [detectFillableField, hfind]

theorem detectFillableField_double_bracket_witness :
    detectFillableField asciiLib " [[Vendor Name]] [B]".toList =
      ⟨true, "double_bracket".toList, "vendor_name".toList, "Vendor Name".toList⟩ :=
  (detectFillableField_double_bracket asciiLib " [[Vendor Name]] [B]".toList).2
    " ".toList "Vendor Name".toList " [B]".toList rfl (by decide) (by decide)
    (fun pre1 g1 post1 h _ _ => by
      cases pre1 with
      | nil =>
        have h1 := congrArg List.head? h
        simp at h1
      | cons c r => simp)

/-! ## String functions -/

theorem hasPrefix_iff (s p : GoString) : hasPrefix s p = true ↔ ∃ r, s = p ++ r := by
  induction p generalizing s with
  | nil => simp [hasPrefix]
  | cons x p ih =>
    cases s with
    | nil => simp [hasPrefix]
    | cons c cs =>
      simp only [hasPrefix, Bool.and_eq_true, beq_iff_eq, ih, List.cons_append, List.cons.injEq]
      constructor
      · rintro ⟨rfl, r, rfl⟩
        exact ⟨r, rfl, rfl⟩
      · rintro ⟨r, rfl, rfl⟩
        exact ⟨rfl, r, rfl⟩

theorem hasSuffix_iff (s p : GoString) : hasSuffix s p = true ↔ ∃ r, s = r ++ p := by
  unfold hasSuffix
  rw [hasPrefix_iff]
  constructor
  · rintro ⟨r, hr⟩
    refine ⟨r.reverse, ?_⟩
    have := congrArg List.reverse hr
    simpa using this
  · rintro ⟨r, rfl⟩
    exact ⟨r.reverse, by simp⟩

theorem contains_iff (s sub : GoString) :
    contains s sub = true ↔ ∃ a b, s = a ++ sub ++ b := by
  induction s with
  | nil =>
    simp only [contains, List.isEmpty_iff]
    constructor
    · rintro rfl
      exact ⟨[], [], rfl⟩
    · rintro ⟨a, b, h⟩
      have := congrArg List.length h
      simp only [List.length_nil, List.length_append] at this
      exact List.length_eq_zero.mp (by omega)
  | cons c cs ih =>
    simp only [contains, Bool.or_eq_true, hasPrefix_iff, ih]
    constructor
    · rintro (⟨r, hr⟩ | ⟨a, b, hab⟩)
      · exact ⟨[], r, by simpa using hr⟩
      · exact ⟨c :: a, b, by simp [hab]⟩
    · rintro ⟨a, b, hab⟩
      cases a with
      | nil => exact Or.inl ⟨b, by simpa using hab⟩
      | cons x a =>
        simp only [List.cons_append, List.cons.injEq] at hab
        exact Or.inr ⟨a, b, by simpa using hab.2⟩

theorem contains_char_iff (s : GoString) (c : Char) : contains s [c] = true ↔ c ∈ s := by
  rw [contains_iff]
  constructor
  · rintro ⟨a, b, rfl⟩
    simp
  · intro h
    obtain ⟨a, b, rfl⟩ := List.append_of_mem h
    exact ⟨a, b, by simp⟩

theorem replaceAll_append (s t : GoString) (old : Char) (new : GoString) :
    replaceAll (s ++ t) old new = replaceAll s old new ++ replaceAll t old new := by
  simp [replaceAll]

theorem replaceAll_of_not_mem (s : GoString) (old : Char) (new : GoString) (h : old ∉ s) :
    replaceAll s old new = s := by
  induction s with
  | nil => rfl
  | cons c cs ih =>
    have hc : c ≠ old := fun e => h (e ▸ List.mem_cons_self _ _)
    have := ih (fun hm => h (List.mem_cons_of_mem _ hm))
    simp only [replaceAll, List.map_cons, List.flatten_cons, hc, if_false] at this ⊢
    rw [this]
    rfl

theorem mem_replaceAll (s : GoString) (old : Char) (new : GoString) (x : Char)
    (h : x ∈ replaceAll s old new) : (x ∈ s ∧ x ≠ old) ∨ x ∈ new := by
  induction s with
  | nil => simp [replaceAll] at h
  | cons c cs ih =>
    have hsplit : replaceAll (c :: cs) old new =
        (if c = old then new else [c]) ++ replaceAll cs old new := by
      simp [replaceAll]
    rw [hsplit, List.mem_append] at h
    rcases h with h | h
    · by_cases hc : c = old
      · rw [if_pos hc] at h
        exact Or.inr h
      · rw [if_neg hc, List.mem_singleton] at h
        exact Or.inl ⟨h ▸ List.mem_cons_self _ _, h ▸ hc⟩
    · rcases ih h with ⟨h1, h2⟩ | h1
      · exact Or.inl ⟨List.mem_cons_of_mem _ h1, h2⟩
      · exact Or.inr h1

theorem dropWhile_head {p : Char → Bool} (l : GoString) (c : Char) (r : GoString)
    (h : l.dropWhile p = c :: r) : p c = false := by
  induction l with
  | nil => simp at h
  | cons x l ih =>
    by_cases hx : p x = true
    · rw [List.dropWhile_cons_of_pos hx] at h
      exact ih h
    · rw [List.dropWhile_cons_of_neg hx] at h
      simp only [List.cons.injEq] at h
      rw [← h.1]
      simpa using hx

theorem trimSpace_last (s m : GoString) (d : Char) (h : trimSpace s = m ++ [d]) :
    isSpace d = false := by
  unfold trimSpace at h
  have h1 := congrArg List.reverse h
  simp only [List.reverse_reverse, List.reverse_append, List.reverse_cons, List.reverse_nil,
    List.nil_append, List.singleton_append] at h1
  exact dropWhile_head _ d _ h1

theorem trimSpace_head (s rest : GoString) (c : Char) (h : trimSpace s = c :: rest) :
    isSpace c = false := by
  unfold trimSpace at h
  have h1 := congrArg List.reverse h
  simp only [List.reverse_reverse, List.reverse_cons] at h1
  obtain ⟨a, ha⟩ := List.dropWhile_suffix (l := (s.dropWhile isSpace).reverse) isSpace
  rw [h1] at ha
  have h2 := congrArg List.reverse ha
  simp only [List.reverse_append, List.reverse_reverse, List.reverse_cons, List.reverse_nil,
    List.nil_append, List.singleton_append, List.cons_append] at h2
  exact dropWhile_head _ c _ h2.symm

/-! ### `strings.Fields` -/

theorem fieldsGo_spaces_left (ws s : GoString) (h : ∀ c ∈ ws, isSpace c = true) :
    fieldsGo (ws ++ s) [] = fieldsGo s [] := by
  induction ws with
  | nil => rfl
  | cons x ws ih =>
    have hx := h x (List.mem_cons_self _ _)
    rw [List.cons_append]
    simp only [fieldsGo, hx, if_true, List.isEmpty_nil]
    exact ih (fun c hc => h c (List.mem_cons_of_mem _ hc))

theorem fieldsGo_spaces (ws cur : GoString) (h : ∀ c ∈ ws, isSpace c = true) :
    fieldsGo ws cur = fieldsGo [] cur := by
  induction ws generalizing cur with
  | nil => rfl
  | cons x ws ih =>
    have hx := h x (List.mem_cons_self _ _)
    have hws : ∀ c ∈ ws, isSpace c = true := fun c hc => h c (List.mem_cons_of_mem _ hc)
    simp only [fieldsGo, hx, if_true]
    cases cur with
    | nil => simpa [fieldsGo] using ih [] hws
    | cons y cur => simpa [fieldsGo] using ih [] hws

theorem fieldsGo_spaces_right (s ws cur : GoString) (h : ∀ c ∈ ws, isSpace c = true) :
    fieldsGo (s ++ ws) cur = fieldsGo s cur := by
  induction s generalizing cur with
  | nil => simpa using fieldsGo_spaces ws cur h
  | cons x s ih =>
    rw [List.cons_append]
    simp only [fieldsGo]
    by_cases hx : isSpace x = true
    · simp only [hx, if_true, ih]
    · simp only [hx, if_false, ih]

theorem fieldsGo_noSpace (s cur : GoString) (h : ∀ c ∈ s, isSpace c = false) :
    fieldsGo s cur = if (cur ++ s).isEmpty then [] else [cur ++ s] := by
  induction s generalizing cur with
  | nil => simp [fieldsGo]
  | cons x s ih =>
    have hx := h x (List.mem_cons_self _ _)
    simp only [fieldsGo, hx, Bool.false_eq_true, if_false]
    rw [ih (cur ++ [x]) (fun c hc => h c (List.mem_cons_of_mem _ hc))]
    simp

theorem fieldsGo_ne_nil (s cur : GoString)
    (h : cur ≠ [] ∨ ∃ c ∈ s, isSpace c = false) : fieldsGo s cur ≠ [] := by
  induction s generalizing cur with
  | nil =>
    rcases h with h | ⟨c, hc, -⟩
    · cases cur with
      | nil => exact absurd rfl h
      | cons y cur => simp [fieldsGo]
    · simp at hc
  | cons x s ih =>
    simp only [fieldsGo]
    by_cases hx : isSpace x = true
    · simp only [hx, if_true]
      cases cur with
      | nil =>
        simp only [List.isEmpty_nil, if_true]
        apply ih
        rcases h with h | ⟨c, hc, hcs⟩
        · exact absurd rfl h
        · rw [List.mem_cons] at hc
          rcases hc with hc | hc
          · rw [hc, hx] at hcs; cases hcs
          · exact Or.inr ⟨c, hc, hcs⟩
      | cons y cur => simp
    · simp only [hx, if_false]
      apply ih
      exact Or.inl (by simp)

theorem fieldsGo_word_space (w rest cur : GoString) (sp : Char)
    (hw : ∀ c ∈ w, isSpace c = false) (hsp : isSpace sp = true) (hne : cur ++ w ≠ []) :
    fieldsGo (w ++ sp :: rest) cur = (cur ++ w) :: fieldsGo rest [] := by
  induction w generalizing cur with
  | nil =>
    simp only [List.nil_append, fieldsGo, hsp, if_true, List.append_nil]
    cases cur with
    | nil => simp at hne
    | cons y cur => simp
  | cons x w ih =>
    have hx := hw x (List.mem_cons_self _ _)
    rw [List.cons_append]
    simp only [fieldsGo, hx, Bool.false_eq_true, if_false]
    rw [ih (cur ++ [x]) (fun c hc => hw c (List.mem_cons_of_mem _ hc)) (by simp)]
    simp

theorem mem_fieldsGo (s cur w : GoString) (hcur : ∀ c ∈ cur, isSpace c = false)
    (h : w ∈ fieldsGo s cur) :
    w ≠ [] ∧ ∀ c ∈ w, (c ∈ cur ∨ c ∈ s) ∧ isSpace c = false := by
  induction s generalizing cur with
  | nil =>
    cases cur with
    | nil => simp [fieldsGo] at h
    | cons y cur =>
      simp only [fieldsGo, List.isEmpty_cons, Bool.false_eq_true, if_false,
        List.mem_singleton] at h
      subst h
      exact ⟨by simp, fun c hc => ⟨Or.inl hc, hcur c hc⟩⟩
  | cons x s ih =>
    simp only [fieldsGo] at h
    by_cases hx : isSpace x = true
    · simp only [hx, if_true] at h
      cases cur with
      | nil =>
        simp only [List.isEmpty_nil, if_true] at h
        obtain ⟨h1, h2⟩ := ih [] (by simp) h
        exact ⟨h1, fun c hc => ⟨Or.inr (List.mem_cons_of_mem _
          ((h2 c hc).1.resolve_left (by simp))), (h2 c hc).2⟩⟩
      | cons y cur =>
        simp only [List.isEmpty_cons, Bool.false_eq_true, if_false, List.mem_cons] at h
        rcases h with h | h
        · subst h
          exact ⟨by simp, fun c hc => ⟨Or.inl hc, hcur c hc⟩⟩
        · obtain ⟨h1, h2⟩ := ih [] (by simp) h
          exact ⟨h1, fun c hc => ⟨Or.inr (List.mem_cons_of_mem _
            ((h2 c hc).1.resolve_left (by simp))), (h2 c hc).2⟩⟩
    · simp only [hx, if_false] at h
      have hx' : isSpace x = false := by simpa using hx
      obtain ⟨h1, h2⟩ := ih (cur ++ [x]) (by
        intro c hc
        simp only [List.mem_append, List.mem_singleton] at hc
        rcases hc with hc | hc
        · exact hcur c hc
        · rw [hc]; exact hx') h
      refine ⟨h1, fun c hc => ⟨?_, (h2 c hc).2⟩⟩
      rcases (h2 c hc).1 with h3 | h3
      · simp only [List.mem_append, List.mem_singleton] at h3
        rcases h3 with h3 | h3
        · exact Or.inl h3
        · exact Or.inr (h3 ▸ List.mem_cons_self _ _)
      · exact Or.inr (List.mem_cons_of_mem _ h3)

theorem fieldsGo_map (f : Char → Char) (hf : ∀ c, isSpace (f c) = isSpace c)
    (s cur : GoString) :
    fieldsGo (s.map f) (cur.map f) = (fieldsGo s cur).map (List.map f) := by
  induction s generalizing cur with
  | nil =>
    cases cur with
    | nil => simp [fieldsGo]
    | cons y cur => simp [fieldsGo]
  | cons x s ih =>
    simp only [List.map_cons, fieldsGo, hf]
    by_cases hx : isSpace x = true
    · simp only [hx, if_true]
      cases cur with
      | nil => simpa using ih []
      | cons y cur =>
        have := ih []
        simp only [List.map_nil] at this
        simp [this]
    · simp only [hx, if_false]
      have := ih (cur ++ [x])
      simpa using this

/-- A text without leading or trailing white space is a single field exactly when it is
not empty and holds no white space at all. -/
theorem fields_length_one_iff (v : GoString)
    (hhead : ∀ c r, v = c :: r → isSpace c = false)
    (hlast : ∀ m d, v = m ++ [d] → isSpace d = false) :
    (fields v).length = 1 ↔ v ≠ [] ∧ ∀ c ∈ v, isSpace c = false := by
  constructor
  · intro h
    have hne : v ≠ [] := by
      rintro rfl
      simp [fields, fieldsGo] at h
    refine ⟨hne, ?_⟩
    by_contra hcon
    push_neg at hcon
    obtain ⟨sp, hsp, hspace⟩ := hcon
    have hsplit := List.takeWhile_append_dropWhile (fun c => !isSpace c) v
    cases hd : v.dropWhile (fun c => !isSpace c) with
    | nil =>
      rw [List.dropWhile_eq_nil_iff] at hd
      have := hd sp hsp
      simp at this
      exact hspace this
    | cons sp1 rest =>
      have hsp1 : isSpace sp1 = true := by
        have := dropWhile_head (p := fun c => !isSpace c) v sp1 rest hd
        simpa using this
      rw [hd] at hsplit
      have hw : ∀ c ∈ v.takeWhile (fun c => !isSpace c), isSpace c = false := by
        intro c hc
        have := List.mem_takeWhile_imp hc
        simpa using this
      have hwne : v.takeWhile (fun c => !isSpace c) ≠ [] := by
        obtain ⟨c, r, hv⟩ := List.exists_cons_of_ne_nil hne
        have hc := hhead c r hv
        rw [hv, List.takeWhile_cons_of_pos (by simp [hc])]
        simp
      have hf := fieldsGo_word_space (v.takeWhile (fun c => !isSpace c)) rest [] sp1 hw hsp1
        (by simpa using hwne)
      rw [hsplit] at hf
      unfold fields at h
      rw [hf] at h
      simp only [List.nil_append, List.length_cons, Nat.add_eq_right,
        List.length_eq_zero] at h
      have hrest : ∀ c ∈ rest, isSpace c = true := by
        intro c hc
        by_contra hcs
        exact fieldsGo_ne_nil rest [] (Or.inr ⟨c, hc, by simpa using hcs⟩) h
      obtain ⟨m, d, hmd⟩ : ∃ m d, sp1 :: rest = m ++ [d] :=
        ⟨(sp1 :: rest).dropLast, (sp1 :: rest).getLast (by simp),
          (List.dropLast_append_getLast (by simp)).symm⟩
      have hd_mem : d ∈ sp1 :: rest := by rw [hmd]; simp
      have hdsp : isSpace d = true := by
        rw [List.mem_cons] at hd_mem
        rcases hd_mem with hd1 | hd1
        · rw [hd1]; exact hsp1
        · exact hrest d hd1
      have := hlast (v.takeWhile (fun c => !isSpace c) ++ m) d (by
        rw [List.append_assoc, ← hmd, hsplit])
      rw [this] at hdsp
      cases hdsp
  · rintro ⟨hne, hall⟩
    unfold fields
    rw [fieldsGo_noSpace v [] hall]
    cases v with
    | nil => exact absurd rfl hne
    | cons c r => simp

theorem fields_trimSpace_length_one_iff (s : GoString) :
    (fields (trimSpace s)).length = 1 ↔
      trimSpace s ≠ [] ∧ ∀ c ∈ trimSpace s, isSpace c = false :=
  fields_length_one_iff (trimSpace s) (fun c r h => trimSpace_head s r c h)
    (fun m d h => trimSpace_last s m d h)

/-! ### The reference library -/

theorem toNat_ofNat_small (n : Nat) (h : n < 0xd800) : (Char.ofNat n).toNat = n := by
  have hv : n.isValidChar := Or.inl h
  unfold Char.ofNat
  rw [dif_pos hv]
  unfold Char.ofNatAux Char.toNat
  simp [UInt32.toNat]

theorem asciiLib_lowerKeepsSpace : asciiLib.LowerKeepsSpace := by
  intro c
  show isSpace (asciiToLower c) = isSpace c
  unfold asciiToLower
  split
  · rename_i h
    obtain ⟨h1, h2⟩ := h
    rw [Char.le_def] at h1 h2
    have h3 : 65 ≤ c.toNat := h1
    have h4 : c.toNat ≤ 90 := h2
    have h5 := toNat_ofNat_small (c.toNat + 32) (by omega)
    have e1 : isSpace c = false := by
      unfold isSpace
      simp only [Bool.or_eq_false_iff, Bool.and_eq_false_iff, decide_eq_false_iff_not,
        beq_eq_false_iff_ne]
      omega
    have e2 : isSpace (Char.ofNat (c.toNat + 32)) = false := by
      unfold isSpace
      simp only [h5, Bool.or_eq_false_iff, Bool.and_eq_false_iff, decide_eq_false_iff_not,
        beq_eq_false_iff_ne]
      omega
    rw [e1, e2]
  · rfl

/-! ## Header heuristic -/

/-- C5: `isLikelyHeader` returns false when the row index is greater than 5; otherwise
it returns true exactly when the lower-cased trimmed text contains one of the terms of
the fixed vocabulary, or ends with `:` or `#`, or is a single word, a text without any
white space, whose length (in bytes, as `len` counts) is strictly between 2 and 20.
The column index never affects the result. -/
theorem isLikelyHeader_iff (E : Stdlib) (hE : E.LowerKeepsSpace) (text : GoString)
    (rowIndex colIndex : Int) :
    (rowIndex > 5 → isLikelyHeader E text rowIndex colIndex = false) ∧
    (rowIndex ≤ 5 →
      (isLikelyHeader E text rowIndex colIndex = true ↔
        (∃ term ∈ headerIndicators, ∃ a b, E.lower (trimSpace text) = a ++ term ++ b) ∨
        (∃ r, E.lower (trimSpace text) = r ++ [':']) ∨
        (∃ r, E.lower (trimSpace text) = r ++ ['#']) ∨
        ((∀ c ∈ E.lower (trimSpace text), isSpace c = false) ∧
          2 < byteLen (E.lower (trimSpace text)) ∧
          byteLen (E.lower (trimSpace text)) < 20))) ∧
    ∀ other : Int,
      isLikelyHeader E text rowIndex other = isLikelyHeader E text rowIndex colIndex := by
  refine ⟨?_, ?_, fun _ => rfl⟩
  · intro h
    simp [isLikelyHeader, h]
  · intro h
    have hrow : ¬ rowIndex > 5 := by omega
    have hfields : (fields (E.lower (trimSpace text))).length = (fields (trimSpace text)).length := by
      have := fieldsGo_map E.toLower hE (trimSpace text) []
      simp only [List.map_nil] at this
      unfold fields Stdlib.lower
      rw [this, List.length_map]
    have hspace : (∀ c ∈ E.lower (trimSpace text), isSpace c = false) ↔
        ∀ c ∈ trimSpace text, isSpace c = false := by
      unfold Stdlib.lower
      simp only [List.mem_map, forall_exists_index, and_imp, forall_apply_eq_imp_iff₂]
      constructor
      · intro hall c hc
        rw [← hE c]; exact hall c hc
      · intro hall c hc
        rw [hE c]; exact hall c hc
    simp only [isLikelyHeader, hrow, if_false, Bool.or_eq_true, Bool.and_eq_true,
      beq_iff_eq, decide_eq_true_eq, hfields, fields_trimSpace_length_one_iff, hspace]
    constructor
    · intro hres
      split at hres
      · rename_i hany
        rw [List.any_eq_true] at hany
        obtain ⟨term, hterm, hc⟩ := hany
        exact Or.inl ⟨term, hterm, (contains_iff _ _).mp hc⟩
      · split at hres
        · rename_i hsuf
          rcases hsuf with hsuf | hsuf
          · exact Or.inr (Or.inl ((hasSuffix_iff _ _).mp hsuf))
          · exact Or.inr (Or.inr (Or.inl ((hasSuffix_iff _ _).mp hsuf)))
        · split at hres
          · rename_i hword
            exact Or.inr (Or.inr (Or.inr ⟨hword.1.1.2, hword.1.2, hword.2⟩))
          · cases hres
    · intro hcond
      split
      · rfl
      · rename_i hany
        split
        · rfl
        · rename_i hsuf
          split
          · rfl
          · rename_i hword
            exfalso
            rcases hcond with ⟨term, hterm, hc⟩ | hc | hc | ⟨h1, h2, h3⟩
            · exact hany (List.any_eq_true.mpr ⟨term, hterm, (contains_iff _ _).mpr hc⟩)
            · exact hsuf (Or.inl ((hasSuffix_iff _ _).mpr hc))
            · exact hsuf (Or.inr ((hasSuffix_iff _ _).mpr hc))
            · refine hword ⟨⟨⟨?_, h1⟩, h2⟩, h3⟩
              intro hnil
              rw [hnil] at h2
              simp [Stdlib.lower, byteLen] at h2

/-! ## Keyword extraction -/

theorem trimSpace_decomp (s : GoString) :
    ∃ a b, s = a ++ trimSpace s ++ b ∧ (∀ c ∈ a, isSpace c = true) ∧
      ∀ c ∈ b, isSpace c = true := by
  refine ⟨s.takeWhile isSpace,
    ((s.dropWhile isSpace).reverse.takeWhile isSpace).reverse, ?_, ?_, ?_⟩
  · unfold trimSpace
    have h1 := List.takeWhile_append_dropWhile isSpace s
    have h2 := List.takeWhile_append_dropWhile isSpace (s.dropWhile isSpace).reverse
    have h3 : s.dropWhile isSpace =
        ((s.dropWhile isSpace).reverse.dropWhile isSpace).reverse ++
          ((s.dropWhile isSpace).reverse.takeWhile isSpace).reverse := by
      rw [← List.reverse_append, h2, List.reverse_reverse]
    rw [List.append_assoc, ← h3, h1]
  · intro c hc
    exact List.mem_takeWhile_imp hc
  · intro c hc
    rw [List.mem_reverse] at hc
    exact List.mem_takeWhile_imp hc

theorem lower_trimSpace (E : Stdlib) (hE : E.LowerKeepsSpace) (s : GoString) :
    E.lower (trimSpace s) = trimSpace (E.lower s) := by
  have hcomp : (isSpace ∘ E.toLower) = isSpace := funext hE
  unfold Stdlib.lower trimSpace
  rw [List.dropWhile_map, hcomp, ← List.map_reverse, List.dropWhile_map, hcomp,
    ← List.map_reverse]

theorem replaceAll_spaces (ws : GoString) (old : Char) (new : GoString)
    (hws : ∀ c ∈ ws, isSpace c = true) (hold : isSpace old = false) :
    replaceAll ws old new = ws := by
  apply replaceAll_of_not_mem
  intro hm
  rw [hws old hm] at hold
  cases hold

/-- Splitting into fields after the four replacements does not see the white space
around the text. -/
theorem fields_clean_trimSpace (s : GoString) :
    fields (replaceAll (replaceAll (replaceAll (replaceAll (trimSpace s) ':' []) '#' [])
      '-' " ".toList) '_' " ".toList) =
    fields (replaceAll (replaceAll (replaceAll (replaceAll s ':' []) '#' [])
      '-' " ".toList) '_' " ".toList) := by
  obtain ⟨a, b, hs, ha, hb⟩ := trimSpace_decomp s
  have hra : ∀ (ws : GoString), (∀ c ∈ ws, isSpace c = true) →
      replaceAll (replaceAll (replaceAll (replaceAll ws ':' []) '#' [])
        '-' " ".toList) '_' " ".toList = ws := by
    intro ws hws
    rw [replaceAll_spaces ws ':' [] hws (by decide), replaceAll_spaces ws '#' [] hws (by decide),
      replaceAll_spaces ws '-' _ hws (by decide), replaceAll_spaces ws '_' _ hws (by decide)]
  conv_rhs => rw [hs]
  simp only [replaceAll_append, hra a ha, hra b hb]
  unfold fields
  rw [fieldsGo_spaces_right _ b [] hb, fieldsGo_spaces_left a _ ha]

theorem mem_clean (x : GoString) (c : Char)
    (h : c ∈ replaceAll (replaceAll (replaceAll (replaceAll x ':' []) '#' [])
      '-' " ".toList) '_' " ".toList) :
    c = ' ' ∨ (c ≠ ':' ∧ c ≠ '#' ∧ c ≠ '-' ∧ c ≠ '_') := by
  have hsp : ∀ y : Char, y ∈ " ".toList → y = ' ' := by
    intro y hy
    simpa using hy
  rcases mem_replaceAll _ _ _ _ h with ⟨h1, n1⟩ | h1
  · rcases mem_replaceAll _ _ _ _ h1 with ⟨h2, n2⟩ | h2
    · rcases mem_replaceAll _ _ _ _ h2 with ⟨h3, n3⟩ | h3
      · rcases mem_replaceAll _ _ _ _ h3 with ⟨-, n4⟩ | h4
        · exact Or.inr ⟨n4, n3, n2, n1⟩
        · simp at h4
      · simp at h3
    · exact Or.inl (hsp c h2)
  · exact Or.inl (hsp c h1)

/-- C6, as stated, fails: the keyword returned for the text `né le` is the word `né`,
which has two characters (its UTF-8 encoding has three bytes), so a returned keyword
need not be longer than 2 characters; the word `le`, of two bytes, is dropped. -/
theorem extractKeywords_two_characters_counterexample :
    extractKeywords asciiLib "né le".toList = ["né".toList] ∧
    ("né".toList).length = 2 ∧ byteLen "né".toList = 3 := by
  decide

/-- C6, amended: `extractKeywords` returns exactly the white-space-separated words of
the lower-cased text after deleting every `:` and `#` and replacing every `-` and `_`
by a space, without the words whose length in bytes (the value of `len`) is at most 2
and without the stop words, the remaining words in their order; hence every returned
keyword is longer than 2 bytes, is not a stop word, and contains none of `:`, `#`, `-`,
`_` or white space. -/
theorem extractKeywords_spec (E : Stdlib) (hE : E.LowerKeepsSpace) (text : GoString) :
    extractKeywords E text = extractKeywordsSpec E text ∧
    ∀ w ∈ extractKeywords E text,
      2 < byteLen w ∧ w ∉ stopWords ∧
      ∀ c ∈ w, c ≠ ':' ∧ c ≠ '#' ∧ c ≠ '-' ∧ c ≠ '_' ∧ isSpace c = false := by
  constructor
  · unfold extractKeywords extractKeywordsSpec
    simp only
    rw [lower_trimSpace E hE, fields_clean_trimSpace]
    apply List.filter_congr
    intro w _
    simp
  · intro w hw
    unfold extractKeywords at hw
    simp only [List.mem_filter, Bool.and_eq_true, decide_eq_true_eq, Bool.not_eq_true'] at hw
    obtain ⟨hmem, hlen, hstop⟩ := hw
    have hstop : w ∉ stopWords := by
      intro hin
      have : stopWords.contains w = true := List.elem_eq_true_of_mem hin
      rw [this] at hstop
      cases hstop
    refine ⟨hlen, hstop, ?_⟩
    obtain ⟨-, hchars⟩ := mem_fieldsGo _ [] w (by simp) hmem
    intro c hc
    obtain ⟨hin, hsp⟩ := hchars c hc
    have hin1 := hin.resolve_left (by simp)
    rcases mem_clean _ c hin1 with h | ⟨h1, h2, h3, h4⟩
    · rw [h] at hsp
      exact absurd hsp (by decide)
    · exact ⟨h1, h2, h3, h4, hsp⟩

theorem extractKeywords_spec_witness :
    asciiLib.LowerKeepsSpace ∧
    extractKeywords asciiLib " Date of-Issue #: ".toList =
      extractKeywordsSpec asciiLib " Date of-Issue #: ".toList ∧
    ∀ w ∈ extractKeywords asciiLib " Date of-Issue #: ".toList,
      2 < byteLen w ∧ w ∉ stopWords ∧
      ∀ c ∈ w, c ≠ ':' ∧ c ≠ '#' ∧ c ≠ '-' ∧ c ≠ '_' ∧ isSpace c = false :=
  ⟨asciiLib_lowerKeepsSpace,
    extractKeywords_spec asciiLib asciiLib_lowerKeepsSpace " Date of-Issue #: ".toList⟩

theorem isLikelyHeader_iff_witness :
    asciiLib.LowerKeepsSpace ∧
    isLikelyHeader asciiLib "  Qty".toList 3 7 = true ∧
    isLikelyHeader asciiLib "Qty".toList 6 0 = false :=
  ⟨asciiLib_lowerKeepsSpace,
    ((isLikelyHeader_iff asciiLib asciiLib_lowerKeepsSpace "  Qty".toList 3 7).2.1
      (by decide)).mpr (Or.inr (Or.inr (Or.inr ⟨by decide, by decide, by decide⟩))),
    (isLikelyHeader_iff asciiLib asciiLib_lowerKeepsSpace "Qty".toList 6 0).1 (by decide)⟩


/-! ## Data-type inference -/

theorem asciiLib_floatSyntax : asciiLib.FloatSyntax := by
  intro s hs c hc
  have hbody : ∀ body : GoString, body.all (fun c => digit c || c == '.') = true →
      ∀ x ∈ body, floatAlphabet x = true := by
    intro body hb x hx
    have := List.all_eq_true.mp hb x hx
    simp only [Bool.or_eq_true, beq_iff_eq] at this
    rcases this with h | h
    · unfold digit at h
      unfold floatAlphabet
      simp [h]
    · rw [h]; rfl
  change plainDecimal s = true at hs
  unfold plainDecimal at hs
  simp only [Bool.and_eq_true] at hs
  obtain ⟨⟨hall, -⟩, -⟩ := hs
  cases s with
  | nil => simp at hc
  | cons y r =>
    simp only at hall
    by_cases hy : y = '+' ∨ y = '-'
    · rw [if_pos hy] at hall
      rw [List.mem_cons] at hc
      rcases hc with hc | hc
      · rcases hy with hy | hy <;> · rw [hc, hy]; rfl
      · exact hbody r hall c hc
    · rw [if_neg hy] at hall
      exact hbody (y :: r) hall c hc

theorem isCurrency_iff (t : GoString) :
    (hasPrefix t "$".toList || hasSuffix t "$".toList) = true ↔ IsCurrency t := by
  simp only [Bool.or_eq_true, hasPrefix_iff, hasSuffix_iff, IsCurrency]
  rfl

theorem hasDate_iff (t : GoString) :
    datePatterns.any (fun pattern => matchString pattern t) = true ↔ HasDate t := by
  simp only [List.any_eq_true, matchString, findSubmatch_isSome_iff, HasDate]

theorem isEmail_iff (t : GoString) :
    (contains t "@".toList && contains t ".".toList) = true ↔ IsEmail t := by
  simp only [Bool.and_eq_true, IsEmail]
  exact and_congr (contains_char_iff t '@') (contains_char_iff t '.')

theorem isPhone_iff (E : Stdlib) (t : GoString) :
    (decide (byteLen t > 7) && decide (byteLen t < 20) &&
      decide (5 * (t.filter E.isDigit).length > 3 * byteLen t)) = true ↔ IsPhone E t := by
  simp only [Bool.and_eq_true, decide_eq_true_eq, IsPhone, gt_iff_lt, and_assoc]

/-- The function `detectDataType` as a chain of the declarative checks. -/
theorem detectDataType_chain (E : Stdlib) (value : GoString) :
    (IsCurrency (trimSpace value) → detectDataType E value = "currency".toList) ∧
    (¬ IsCurrency (trimSpace value) → IsNumeric E (trimSpace value) →
      detectDataType E value = "number".toList) ∧
    (¬ IsCurrency (trimSpace value) → ¬ IsNumeric E (trimSpace value) →
      HasDate (trimSpace value) → detectDataType E value = "date".toList) ∧
    (¬ IsCurrency (trimSpace value) → ¬ IsNumeric E (trimSpace value) →
      ¬ HasDate (trimSpace value) → IsEmail (trimSpace value) →
      detectDataType E value = "email".toList) ∧
    (¬ IsCurrency (trimSpace value) → ¬ IsNumeric E (trimSpace value) →
      ¬ HasDate (trimSpace value) → ¬ IsEmail (trimSpace value) →
      IsPhone E (trimSpace value) → detectDataType E value = "phone".toList) ∧
    (¬ IsCurrency (trimSpace value) → ¬ IsNumeric E (trimSpace value) →
      ¬ HasDate (trimSpace value) → ¬ IsEmail (trimSpace value) →
      ¬ IsPhone E (trimSpace value) → detectDataType E value = "text".toList) := by
  simp only [← isCurrency_iff, ← hasDate_iff, ← isEmail_iff, ← isPhone_iff, IsNumeric]
  refine ⟨?_, ?_, ?_, ?_, ?_, ?_⟩
  · intro h1
    simp only [detectDataType, h1, if_true]
  · intro h1 h2
    simp only [detectDataType, h1, h2, Bool.false_eq_true, if_true, if_false]
  · intro h1 h2 h3
    simp only [detectDataType, h1, h2, h3, Bool.false_eq_true, if_true, if_false]
  · intro h1 h2 h3 h4
    simp only [detectDataType, h1, h2, h3, h4, Bool.false_eq_true, if_true, if_false]
  · intro h1 h2 h3 h4 h5
    simp only [detectDataType, h1, h2, h3, h4, h5, Bool.false_eq_true, if_true, if_false]
  · intro h1 h2 h3 h4 h5
    simp only [detectDataType, h1, h2, h3, h4, h5, Bool.false_eq_true, if_false]

/-- C4: `detectDataType` applies its checks in the order currency, number, date, email,
phone, text and returns the first that holds. A value whose trimmed text starts or ends
with `$` is currency, whatever the rest (`$1,200.50`, `$100`); a value that is neither
currency nor numeric and contains one of the three date patterns is date, whatever else
it contains (`01/02/2024`); a value that is none of currency, number, date and contains
both `@` and `.` is email (`jane@x.com`). The library's number parser is only assumed
to accept no character outside the alphabet of numerals (`hE`). -/
theorem detectDataType_precedence (E : Stdlib) (hE : E.FloatSyntax) (value : GoString) :
    (IsCurrency (trimSpace value) → detectDataType E value = "currency".toList) ∧
    (¬ IsCurrency (trimSpace value) → IsNumeric E (trimSpace value) →
      detectDataType E value = "number".toList) ∧
    (¬ IsCurrency (trimSpace value) → ¬ IsNumeric E (trimSpace value) →
      HasDate (trimSpace value) → detectDataType E value = "date".toList) ∧
    (¬ IsCurrency (trimSpace value) → ¬ IsNumeric E (trimSpace value) →
      ¬ HasDate (trimSpace value) → IsEmail (trimSpace value) →
      detectDataType E value = "email".toList) ∧
    (¬ IsCurrency (trimSpace value) → ¬ IsNumeric E (trimSpace value) →
      ¬ HasDate (trimSpace value) → ¬ IsEmail (trimSpace value) →
      IsPhone E (trimSpace value) → detectDataType E value = "phone".toList) ∧
    (¬ IsCurrency (trimSpace value) → ¬ IsNumeric E (trimSpace value) →
      ¬ HasDate (trimSpace value) → ¬ IsEmail (trimSpace value) →
      ¬ IsPhone E (trimSpace value) → detectDataType E value = "text".toList) ∧
    detectDataType E "$1,200.50".toList = "currency".toList ∧
    detectDataType E "$100".toList = "currency".toList ∧
    detectDataType E "01/02/2024".toList = "date".toList ∧
    detectDataType E "jane@x.com".toList = "email".toList := by
  obtain ⟨c1, c2, c3, c4, c5, c6⟩ := detectDataType_chain E value
  refine ⟨c1, c2, c3, c4, c5, c6, ?_, ?_, ?_, ?_⟩
  · exact (detectDataType_chain E _).1 ((isCurrency_iff _).mp (by decide))
  · exact (detectDataType_chain E _).1 ((isCurrency_iff _).mp (by decide))
  · refine (detectDataType_chain E _).2.2.1
      (fun h => absurd ((isCurrency_iff _).mpr h) (by decide)) ?_
      ((hasDate_iff _).mp (by decide))
    intro hnum
    exact absurd (hE _ hnum '/' (by decide)) (by decide)
  · refine (detectDataType_chain E _).2.2.2.1
      (fun h => absurd ((isCurrency_iff _).mpr h) (by decide)) ?_
      (fun h => absurd ((hasDate_iff _).mpr h) (by decide)) ⟨by decide, by decide⟩
    intro hnum
    exact absurd (hE _ hnum '@' (by decide)) (by decide)

theorem detectDataType_precedence_witness :
    asciiLib.FloatSyntax ∧
    detectDataType asciiLib "$1,200.50".toList = "currency".toList ∧
    detectDataType asciiLib "$100".toList = "currency".toList ∧
    detectDataType asciiLib "01/02/2024".toList = "date".toList ∧
    detectDataType asciiLib "jane@x.com".toList = "email".toList ∧
    detectDataType asciiLib " 1,200.50 ".toList = "number".toList :=
  ⟨asciiLib_floatSyntax,
    (detectDataType_precedence asciiLib asciiLib_floatSyntax []).2.2.2.2.2.2.1,
    (detectDataType_precedence asciiLib asciiLib_floatSyntax []).2.2.2.2.2.2.2.1,
    (detectDataType_precedence asciiLib asciiLib_floatSyntax []).2.2.2.2.2.2.2.2.1,
    (detectDataType_precedence asciiLib asciiLib_floatSyntax []).2.2.2.2.2.2.2.2.2,
    (detectDataType_precedence asciiLib asciiLib_floatSyntax " 1,200.50 ".toList).2.1
      (fun h => absurd ((isCurrency_iff _).mpr h) (by decide)) (by unfold IsNumeric; decide)⟩

/-! ## Table structure -/

/-- C11: `analyzeTableStructure` reports `is_tabular = false` if and only if the sheet
has fewer than 2 rows; in that case it returns at once, with `data_density`,
`empty_rows` and `max_columns` at 0, `uniform_cols` true and `varying_widths` false,
whatever the single row contains (and without the keys `common_column_count`,
`column_variations` and `template_type`). -/
theorem analyzeTableStructure_not_tabular (o : MapOrder) (rows : Grid) :
    ((analyzeTableStructure o rows).is_tabular = false ↔ rows.length < 2) ∧
    (rows.length < 2 →
      (analyzeTableStructure o rows).data_density = ⟨0, 0⟩ ∧
      (analyzeTableStructure o rows).data_density.toRat = 0 ∧
      (analyzeTableStructure o rows).empty_rows = 0 ∧
      (analyzeTableStructure o rows).max_columns = 0 ∧
      (analyzeTableStructure o rows).uniform_cols = true ∧
      (analyzeTableStructure o rows).varying_widths = false ∧
      (analyzeTableStructure o rows).common_column_count = none ∧
      (analyzeTableStructure o rows).column_variations = none ∧
      (analyzeTableStructure o rows).template_type = none) := by
  by_cases h : rows.length < 2
  · simp [analyzeTableStructure, h, F64.toRat]
  · simp [analyzeTableStructure, h]

theorem scanRow_maxColumns (rows : Grid) (st : TableScan) :
    st.maxColumns ≤ (rows.foldl scanRow st).maxColumns ∧
    (∀ row ∈ rows, row.length ≤ (rows.foldl scanRow st).maxColumns) ∧
    ((rows.foldl scanRow st).maxColumns = st.maxColumns ∨
      ∃ row ∈ rows, row.length = (rows.foldl scanRow st).maxColumns) := by
  induction rows generalizing st with
  | nil => simp
  | cons r rs ih =>
    simp only [List.foldl_cons]
    obtain ⟨h1, h2, h3⟩ := ih (scanRow st r)
    have hstep : (scanRow st r).maxColumns = if r.length > st.maxColumns then r.length
        else st.maxColumns := rfl
    refine ⟨?_, ?_, ?_⟩
    · rw [hstep] at h1
      split at h1 <;> omega
    · intro row hrow
      rw [List.mem_cons] at hrow
      rcases hrow with hrow | hrow
      · rw [hstep] at h1
        rw [hrow]
        split at h1 <;> omega
      · exact h2 row hrow
    · rcases h3 with h3 | ⟨row, hrow, hlen⟩
      · rw [hstep] at h3
        by_cases hgt : r.length > st.maxColumns
        · rw [if_pos hgt] at h3
          exact Or.inr ⟨r, List.mem_cons_self _ _, h3.symm⟩
        · rw [if_neg hgt] at h3
          exact Or.inl h3
      · exact Or.inr ⟨row, List.mem_cons_of_mem _ hrow, hlen⟩

/-- The report of `AnalyzeFile` carries the table structure of all rows of the chosen
sheet. -/
theorem analyzeFile_table_structure (E : Stdlib) (oc os : MapOrder) (f : Document)
    (report : Report) (h : analyzeFile E oc os (some f) = some (Except.ok report)) :
    ∃ name rows, findBestSheet f f.sheetList = some (name, rows) ∧
      report.active_sheet = name ∧ report.row_count = rows.length ∧
      report.data_structure.table_structure = analyzeTableStructure os rows ∧
      report.data_structure.likely_header_row = findLikelyHeaderRow rows ∧
      report.data_structure.data_start_row = findDataStartRow rows := by
  unfold analyzeFile at h
  simp only at h
  split at h
  · cases h
  · cases hb : findBestSheet f f.sheetList with
    | none => simp [hb] at h
    | some best =>
      obtain ⟨name, rows⟩ := best
      simp only [hb] at h
      cases hs : smartSample rows with
      | none => simp [hs] at h
      | some sample =>
        obtain ⟨ar, rm⟩ := sample
        simp only [hs] at h
        cases hp : processRows E rm (if findMaxColumns ar > 20 then 20 else findMaxColumns ar)
            0 ar ⟨[], []⟩ with
        | none => simp [hp] at h
        | some cl =>
          simp only [hp, Option.some.injEq, Except.ok.injEq] at h
          subst h
          exact ⟨name, rows, rfl, rfl, rfl, rfl, rfl, rfl⟩

/-- C12: for a sheet of at least 2 rows `analyzeTableStructure` sets `max_columns` to
the greatest row length, and `template_type` to large_admin_template when
`max_columns > 10` and there are more than 20 rows, otherwise to medium_template when
`max_columns > 5` and there are more than 10 rows, otherwise to simple_template. In the
report of `AnalyzeFile` the rows are all the rows of the chosen sheet, not the sample. -/
theorem analyzeTableStructure_template (o : MapOrder) (rows : Grid) (h : 2 ≤ rows.length) :
    (∀ row ∈ rows, row.length ≤ (analyzeTableStructure o rows).max_columns) ∧
    (∃ row ∈ rows, row.length = (analyzeTableStructure o rows).max_columns) ∧
    (analyzeTableStructure o rows).template_type =
      some (if (analyzeTableStructure o rows).max_columns > 10 ∧ rows.length > 20 then
          "large_admin_template".toList
        else if (analyzeTableStructure o rows).max_columns > 5 ∧ rows.length > 10 then
          "medium_template".toList
        else "simple_template".toList) ∧
    ∀ (E : Stdlib) (oc : MapOrder) (f : Document) (report : Report),
      analyzeFile E oc o (some f) = some (Except.ok report) →
      ∃ name sheetRows, findBestSheet f f.sheetList = some (name, sheetRows) ∧
        report.row_count = sheetRows.length ∧
        report.data_structure.table_structure = analyzeTableStructure o sheetRows := by
  have hlen : ¬ rows.length < 2 := by omega
  have hmax : (analyzeTableStructure o rows).max_columns =
      (rows.foldl scanRow ⟨[], 0, 0, 0, 0⟩).maxColumns := by
    simp [analyzeTableStructure, hlen]
  obtain ⟨-, h2, h3⟩ := scanRow_maxColumns rows ⟨[], 0, 0, 0, 0⟩
  refine ⟨?_, ?_, ?_, ?_⟩
  · rw [hmax]; exact h2
  · rw [hmax]
    rcases h3 with h3 | h3
    · obtain ⟨row, rest, hrows⟩ : ∃ row rest, rows = row :: rest := by
        cases rows with
        | nil => simp at h
        | cons a l => exact ⟨a, l, rfl⟩
      have hmem : row ∈ rows := by rw [hrows]; exact List.mem_cons_self _ _
      have := h2 row hmem
      rw [h3] at this ⊢
      exact ⟨row, hmem, by simp only at this ⊢; omega⟩
    · exact h3
  · rw [hmax]
    simp only [analyzeTableStructure, hlen, if_false]
    split
    · rfl
    · split <;> rfl
  · intro E oc f report hrep
    obtain ⟨name, sheetRows, hb, -, hrc, hts, -, -⟩ :=
      analyzeFile_table_structure E oc o f report hrep
    exact ⟨name, sheetRows, hb, hrc, hts⟩

theorem analyzeTableStructure_template_witness :
    2 ≤ (List.replicate 21 (List.replicate 11 "x".toList)).length ∧
    (analyzeTableStructure insertionOrder
      (List.replicate 21 (List.replicate 11 "x".toList))).template_type =
      some (if (analyzeTableStructure insertionOrder
            (List.replicate 21 (List.replicate 11 "x".toList))).max_columns > 10 ∧
          (List.replicate 21 (List.replicate 11 "x".toList)).length > 20 then
          "large_admin_template".toList
        else if (analyzeTableStructure insertionOrder
            (List.replicate 21 (List.replicate 11 "x".toList))).max_columns > 5 ∧
          (List.replicate 21 (List.replicate 11 "x".toList)).length > 10 then
          "medium_template".toList
        else "simple_template".toList) :=
  ⟨by simp only [List.length_replicate]; decide,
    (analyzeTableStructure_template insertionOrder
      (List.replicate 21 (List.replicate 11 "x".toList))
      (by simp only [List.length_replicate]; decide)).2.2.1⟩

/-! ## Header row -/

theorem nonEmptyCount_eq (row : List GoString) : nonEmptyCount row = nonBlankCount row := by
  unfold nonEmptyCount nonBlankCount
  rw [countRow_eq]
  omega

theorem findLikelyHeaderRowLoop_inv (rest pre : Grid) (st : Nat × Nat)
    (hinv : HeaderInv pre st) :
    HeaderInv (pre ++ rest) (findLikelyHeaderRowLoop pre.length rest st) := by
  induction rest generalizing pre st with
  | nil => simpa [findLikelyHeaderRowLoop] using hinv
  | cons row rest ih =>
    unfold findLikelyHeaderRowLoop
    by_cases h5 : pre.length < 5
    · rw [if_pos h5]
      have hlen : (pre ++ [row]).length = pre.length + 1 := by simp
      have happ : pre ++ row :: rest = (pre ++ [row]) ++ rest := by simp
      rw [nonEmptyCount_eq, happ, ← hlen]
      have hnew : ∀ j other, (pre ++ [row])[j]? = some other →
          (j < pre.length ∧ pre[j]? = some other) ∨ (j = pre.length ∧ other = row) := by
        intro j other hj
        by_cases hjl : j < pre.length
        · rw [List.getElem?_append_left hjl] at hj
          exact Or.inl ⟨hjl, hj⟩
        · have hjlt : j < (pre ++ [row]).length := by
            by_contra hcon
            rw [List.getElem?_eq_none (by omega)] at hj
            cases hj
          have hje : j = pre.length := by omega
          subst hje
          simp at hj
          exact Or.inr ⟨rfl, hj.symm⟩
      by_cases hgt : nonBlankCount row > st.1
      · rw [if_pos hgt]
        apply ih
        refine Or.inr ⟨row, ?_, ?_, ?_, rfl, ?_, ?_, ?_⟩
        · simp
        · simp only; omega
        · simp
        · simp only; omega
        · intro j other hj5 hj
          rcases hnew j other hj with ⟨hjl, hjp⟩ | ⟨-, rfl⟩
          · rcases hinv with ⟨hst, h0⟩ | ⟨r0, -, -, -, -, -, hmax, -⟩
            · rw [h0 j other hj5 hjp]; exact Nat.zero_le _
            · have := hmax j other hj5 hjp
              simp only; omega
          · exact Nat.le_refl _
        · intro j other hjlt hj
          simp only [hlen, Nat.add_sub_cancel] at hjlt
          rw [List.getElem?_append_left hjlt] at hj
          rcases hinv with ⟨hst, h0⟩ | ⟨r0, -, -, -, -, -, hmax, -⟩
          · rw [h0 j other (by omega) hj]; simp only; omega
          · have := hmax j other (by omega) hj
            simp only; omega
      · rw [if_neg hgt]
        apply ih
        rcases hinv with ⟨hst, h0⟩ | ⟨r0, h1, h2, hrow, hcnt, hpos, hmax, hfirst⟩
        · refine Or.inl ⟨hst, ?_⟩
          intro j other hj5 hj
          rcases hnew j other hj with ⟨-, hjp⟩ | ⟨-, rfl⟩
          · exact h0 j other hj5 hjp
          · rw [hst] at hgt
            simp only at hgt
            omega
        · have hidx : st.2 - 1 < pre.length := by
            by_contra hcon
            rw [List.getElem?_eq_none (by omega)] at hrow
            cases hrow
          refine Or.inr ⟨r0, h1, h2, ?_, hcnt, hpos, ?_, ?_⟩
          · rw [List.getElem?_append_left hidx]; exact hrow
          · intro j other hj5 hj
            rcases hnew j other hj with ⟨-, hjp⟩ | ⟨-, rfl⟩
            · exact hmax j other hj5 hjp
            · omega
          · intro j other hjlt hj
            rw [List.getElem?_append_left (by omega)] at hj
            exact hfirst j other hjlt hj
    · rw [if_neg h5]
      rcases hinv with ⟨hst, h0⟩ | ⟨r0, h1, h2, hrow, hcnt, hpos, hmax, hfirst⟩
      · refine Or.inl ⟨hst, ?_⟩
        intro j other hj5 hj
        rw [List.getElem?_append_left (by omega)] at hj
        exact h0 j other hj5 hj
      · refine Or.inr ⟨r0, h1, h2, ?_, hcnt, hpos, ?_, ?_⟩
        · rw [List.getElem?_append_left (by omega)]; exact hrow
        · intro j other hj5 hj
          rw [List.getElem?_append_left (by omega)] at hj
          exact hmax j other hj5 hj
        · intro j other hjlt hj
          rw [List.getElem?_append_left (by omega)] at hj
          exact hfirst j other hjlt hj

/-- C13: for a grid with at least one non-blank cell in its first five rows,
`findLikelyHeaderRow` returns the 1-based index of the earliest row, among the first
five, whose number of non-blank cells is maximal over those rows, and
`findDataStartRow` returns that index plus one. -/
theorem findLikelyHeaderRow_first_maximal (rows : Grid)
    (h : ∃ j row, j < 5 ∧ rows[j]? = some row ∧ 0 < nonBlankCount row) :
    ∃ row, 1 ≤ findLikelyHeaderRow rows ∧ findLikelyHeaderRow rows ≤ 5 ∧
      rows[findLikelyHeaderRow rows - 1]? = some row ∧
      (∀ j other, j < 5 → rows[j]? = some other → nonBlankCount other ≤ nonBlankCount row) ∧
      (∀ j other, j < findLikelyHeaderRow rows - 1 → rows[j]? = some other →
        nonBlankCount other < nonBlankCount row) ∧
      findDataStartRow rows = findLikelyHeaderRow rows + 1 := by
  have hinv := findLikelyHeaderRowLoop_inv rows [] (0, 0) (Or.inl ⟨rfl, by simp⟩)
  rw [List.nil_append, List.length_nil] at hinv
  rcases hinv with ⟨-, h0⟩ | ⟨row, h1, h2, hrow, hcnt, -, hmax, hfirst⟩
  · obtain ⟨j, row, hj5, hj, hpos⟩ := h
    have := h0 j row hj5 hj
    omega
  · refine ⟨row, h1, h2, hrow, ?_, ?_, rfl⟩
    · rw [hcnt]; exact hmax
    · rw [hcnt]; exact hfirst

theorem findLikelyHeaderRow_first_maximal_witness :
    ∃ row, 1 ≤ findLikelyHeaderRow [["a".toList], ["b".toList, "c".toList],
        ["d".toList, "e".toList]] ∧
      findLikelyHeaderRow [["a".toList], ["b".toList, "c".toList],
        ["d".toList, "e".toList]] ≤ 5 ∧
      [["a".toList], ["b".toList, "c".toList], ["d".toList, "e".toList]][
        findLikelyHeaderRow [["a".toList], ["b".toList, "c".toList],
          ["d".toList, "e".toList]] - 1]? = some row ∧
      (∀ j other, j < 5 →
        [["a".toList], ["b".toList, "c".toList], ["d".toList, "e".toList]][j]? = some other →
        nonBlankCount other ≤ nonBlankCount row) ∧
      (∀ j other, j < findLikelyHeaderRow [["a".toList], ["b".toList, "c".toList],
          ["d".toList, "e".toList]] - 1 →
        [["a".toList], ["b".toList, "c".toList], ["d".toList, "e".toList]][j]? = some other →
        nonBlankCount other < nonBlankCount row) ∧
      findDataStartRow [["a".toList], ["b".toList, "c".toList], ["d".toList, "e".toList]] =
        findLikelyHeaderRow [["a".toList], ["b".toList, "c".toList],
          ["d".toList, "e".toList]] + 1 :=
  findLikelyHeaderRow_first_maximal
    [["a".toList], ["b".toList, "c".toList], ["d".toList, "e".toList]]
    ⟨0, ["a".toList], by decide, rfl, by decide⟩

/-! ## Confidence -/

set_option maxRecDepth 100000 in
theorem confidence_sums :
    (F64.round 5 10).add (F64.round 3 10) = F64.round 8 10 ∧
    (F64.round 5 10).add (F64.round 1 10) = F64.round 6 10 ∧
    (F64.round 5 10).add (F64.round 2 10) = F64.round 7 10 ∧
    (F64.round 8 10).add (F64.round 2 10) = ⟨1, 0⟩ ∧
    (F64.round 6 10).add (F64.round 2 10) = F64.round 8 10 ∧
    F64.round 5 10 = ⟨1, 1⟩ ∧
    F64.round 6 10 = ⟨5404319552844595, 53⟩ ∧
    F64.round 7 10 = ⟨3152519739159347, 52⟩ ∧
    F64.round 8 10 = ⟨3602879701896397, 52⟩ := by
  decide

/-- C16: `calculateConfidence` returns 0.5, plus 0.3 when the row is at most 2 or else
plus 0.1 when the row is at most 5, plus 0.2 when the keywords list is non-empty: the
float64 sums are the doubles nearest to the decimal sums. The result lies between 0.5
and 1.0, and it is 1.0 exactly when the row is at most 2 and the keywords list is
non-empty. -/
theorem calculateConfidence_spec (cellInfo : CellInfo) :
    calculateConfidence cellInfo =
      F64.round (5 + (if cellInfo.row ≤ 2 then 3 else if cellInfo.row ≤ 5 then 1 else 0) +
        (if cellInfo.keywords ≠ [] then 2 else 0)) 10 ∧
    (1 / 2 : ℚ) ≤ (calculateConfidence cellInfo).toRat ∧
    (calculateConfidence cellInfo).toRat ≤ 1 ∧
    ((calculateConfidence cellInfo).toRat = 1 ↔
      cellInfo.row ≤ 2 ∧ cellInfo.keywords ≠ []) := by
  obtain ⟨h83, h51, h52, h82, h62, v5, v6, v7, v8⟩ := confidence_sums
  have hk : cellInfo.keywords.length > 0 ↔ cellInfo.keywords ≠ [] := by
    rw [gt_iff_lt, List.length_pos]
  have v10 : F64.round 10 10 = ⟨1, 0⟩ := by decide
  unfold calculateConfidence
  by_cases hr2 : cellInfo.row ≤ 2
  · by_cases hkw : cellInfo.keywords ≠ []
    · simp only [hr2, hkw, hk.mpr hkw, if_true, h83, h82, v10, ne_eq, not_false_eq_true,
        and_self, iff_true, true_and, F64.toRat]
      norm_num
    · simp only [hr2, hkw, mt hk.mp hkw, if_true, if_false, h83, v8, ne_eq, and_false,
        iff_false, true_and, F64.toRat, Nat.add_zero]
      norm_num
  · by_cases hr5 : cellInfo.row ≤ 5
    · by_cases hkw : cellInfo.keywords ≠ []
      · simp only [hr2, hr5, hkw, hk.mpr hkw, if_true, if_false, h51, h62, v8, ne_eq,
          false_and, iff_false, true_and, F64.toRat, not_false_eq_true]
        norm_num
      · simp only [hr2, hr5, hkw, mt hk.mp hkw, if_true, if_false, h51, v6, ne_eq,
          false_and, iff_false, true_and, F64.toRat, Nat.add_zero]
        norm_num
    · by_cases hkw : cellInfo.keywords ≠ []
      · simp only [hr2, hr5, hkw, hk.mpr hkw, if_true, if_false, h52, v7, ne_eq,
          false_and, iff_false, true_and, F64.toRat, not_false_eq_true, Nat.add_zero]
        norm_num
      · simp only [hr2, hr5, hkw, mt hk.mp hkw, if_false, v5, ne_eq,
          false_and, iff_false, true_and, F64.toRat, Nat.add_zero]
        norm_num

/-! ## Field names -/

theorem asciiLib_ascii : asciiLib.Ascii := fun _ _ => ⟨rfl, rfl, rfl⟩

theorem asciiToLower_lt (c : Char) (h : c.toNat < 128) : (asciiToLower c).toNat < 128 := by
  unfold asciiToLower
  split
  · next hc =>
    have h2 : c.toNat ≤ 90 := by
      have := hc.2
      rw [Char.le_def] at this
      exact this
    rw [toNat_ofNat_small _ (by omega)]
    omega
  · exact h

theorem mem_trimSpace (s : GoString) (c : Char) (h : c ∈ trimSpace s) : c ∈ s := by
  obtain ⟨a, b, hs, -, -⟩ := trimSpace_decomp s
  rw [hs]
  simp [h]

theorem generateFieldName_ascii (E : Stdlib) (hE : E.Ascii) (displayName : GoString)
    (hd : ∀ c ∈ displayName, c.toNat < 128) :
    generateFieldName E displayName = generateFieldName asciiLib displayName := by
  have hlow : E.lower (trimSpace displayName) = asciiLib.lower (trimSpace displayName) := by
    unfold Stdlib.lower
    apply List.map_congr_left
    intro c hc
    exact (hE c (hd c (mem_trimSpace _ _ hc))).1
  have hl : ∀ c ∈ asciiLib.lower (trimSpace displayName), c.toNat < 128 := by
    intro c hc
    unfold Stdlib.lower at hc
    rw [List.mem_map] at hc
    obtain ⟨x, hx, rfl⟩ := hc
    exact asciiToLower_lt x (hd x (mem_trimSpace _ _ hx))
  have hrep : ∀ (s : GoString) (old : Char) (new : GoString),
      (∀ c ∈ s, c.toNat < 128) → (∀ c ∈ new, c.toNat < 128) →
      ∀ c ∈ replaceAll s old new, c.toNat < 128 := by
    intro s old new hs hn c hc
    rcases mem_replaceAll s old new c hc with ⟨h1, -⟩ | h2
    · exact hs c h1
    · exact hn c h2
  have hu : ∀ c ∈ "_".toList, c.toNat < 128 := by decide
  have hnil : ∀ c ∈ ([] : GoString), c.toNat < 128 := by simp
  have hall := hrep _ ')' [] (hrep _ '(' [] (hrep _ '#' [] (hrep _ ':' []
    (hrep _ '-' "_".toList (hrep _ ' ' "_".toList hl hu) hu) hnil) hnil) hnil) hnil
  unfold generateFieldName
  simp only [hlow]
  have hfilter : ∀ s : GoString, (∀ c ∈ s, c.toNat < 128) →
      s.filter (fun char => E.isLetter char || E.isDigit char || char == '_') =
      s.filter (fun char => asciiLib.isLetter char || asciiLib.isDigit char || char == '_') := by
    intro s hs
    apply List.filter_congr
    intro c hc
    rw [(hE c (hs c hc)).2.1, (hE c (hs c hc)).2.2]
    rfl
  rw [hfilter _ hall]
  generalize hres : List.filter _ _ = result
  cases result with
  | nil => rfl
  | cons c rest =>
    have hc : c.toNat < 128 := by
      have hmem : c ∈ c :: rest := List.mem_cons_self _ _
      rw [← hres] at hmem
      exact hall c (List.mem_of_mem_filter hmem)
    have hb : utf8FirstByte c = c.toNat := by
      unfold utf8FirstByte
      simp [hc]
    have hcc : Char.ofNat c.toNat = c := by
      apply Char.ext
      apply UInt32.ext
      exact toNat_ofNat_small _ (by omega)
    simp only [hb, hcc, (hE c hc).2.2]
    rfl

/-- C14 (as stated): with the ASCII tables, `generateFieldName` does not return
`invoice` for `Invoice #`; the underscore that replaces the space stays. -/
theorem generateFieldName_invoice_counterexample :
    generateFieldName asciiLib "Invoice #".toList ≠ "invoice".toList := by
  decide

/-- C14 (amended): `generateFieldName` returns `invoice_` for `Invoice #`: the `#` is
stripped rather than converted to an underscore, and the underscore that replaces the
space before it stays at the end of the result. -/
theorem generateFieldName_invoice (E : Stdlib) (hE : E.Ascii) :
    generateFieldName E "Invoice #".toList = "invoice_".toList := by
  rw [generateFieldName_ascii E hE _ (by decide)]
  decide

theorem generateFieldName_invoice_witness :
    asciiLib.Ascii ∧ generateFieldName asciiLib "Invoice #".toList = "invoice_".toList :=
  ⟨asciiLib_ascii, generateFieldName_invoice asciiLib asciiLib_ascii⟩

/-- C15: the test for a leading digit reads the first byte of the result, so a result
that starts with a digit outside ASCII gets no prefix: for the text made of the
Arabic-Indic digit three (U+0663) `generateFieldName` returns that digit alone, a result
that starts with a digit, while `2nd Item` gives `field_2nd_item`. -/
theorem generateFieldName_leading_digit_not_prefixed :
    generateFieldName arabicIndicLib [Char.ofNat 0x663] = [Char.ofNat 0x663] ∧
    arabicIndicLib.isDigit (Char.ofNat 0x663) = true ∧
    arabicIndicLib.isLetter (Char.ofNat 0x663) = false ∧
    generateFieldName arabicIndicLib "2nd Item".toList = "field_2nd_item".toList := by
  decide

/-! ## Maps -/

theorem GoMap.get?_set {κ ν : Type} [DecidableEq κ] (m : GoMap κ ν) (k j : κ) (v : ν) :
    GoMap.get? (GoMap.set m k v) j = if k = j then some v else GoMap.get? m j := by
  induction m with
  | nil =>
    simp only [GoMap.set, GoMap.get?]
  | cons e m ih =>
    obtain ⟨k1, v1⟩ := e
    simp only [GoMap.set]
    by_cases h1 : k1 = k
    · rw [if_pos h1]
      simp only [GoMap.get?]
      by_cases h2 : k = j
      · simp [h2]
      · have : ¬ k1 = j := by rw [h1]; exact h2
        simp [h2, this]
    · rw [if_neg h1]
      simp only [GoMap.get?]
      by_cases h3 : k1 = j
      · have : ¬ k = j := by rw [← h3]; exact fun h => h1 h.symm
        simp [h3, this]
      · simp only [if_neg h3]
        exact ih

theorem GoMap.keys_set {κ ν : Type} [DecidableEq κ] (m : GoMap κ ν) (k : κ) (v : ν) :
    (GoMap.set m k v).map Prod.fst =
      if k ∈ m.map Prod.fst then m.map Prod.fst else m.map Prod.fst ++ [k] := by
  induction m with
  | nil => simp [GoMap.set]
  | cons e m ih =>
    obtain ⟨k1, v1⟩ := e
    simp only [GoMap.set]
    by_cases h1 : k1 = k
    · simp [h1]
    · rw [if_neg h1]
      simp only [List.map_cons, List.mem_cons, ih]
      have h1s : ¬ k = k1 := fun h => h1 h.symm
      by_cases h2 : k ∈ m.map Prod.fst
      · simp [h2]
      · simp [h2, h1s]

theorem GoMap.nodup_set {κ ν : Type} [DecidableEq κ] (m : GoMap κ ν) (k : κ) (v : ν)
    (h : (m.map Prod.fst).Nodup) : ((GoMap.set m k v).map Prod.fst).Nodup := by
  rw [GoMap.keys_set]
  split
  · exact h
  · next hk =>
    rw [List.nodup_append]
    refine ⟨h, List.nodup_singleton _, ?_⟩
    intro a ha hb
    rw [List.mem_singleton] at hb
    exact hk (hb ▸ ha)

theorem GoMap.get?_eq_some_iff {κ ν : Type} [DecidableEq κ] (m : GoMap κ ν) (k : κ) (v : ν)
    (h : (m.map Prod.fst).Nodup) : GoMap.get? m k = some v ↔ (k, v) ∈ m := by
  induction m with
  | nil => simp [GoMap.get?]
  | cons e m ih =>
    obtain ⟨k1, v1⟩ := e
    rw [List.map_cons, List.nodup_cons] at h
    simp only [GoMap.get?, List.mem_cons, Prod.mk.injEq]
    by_cases h1 : k1 = k
    · rw [if_pos h1]
      constructor
      · intro hv
        exact Or.inl ⟨h1.symm, (Option.some.inj hv).symm⟩
      · rintro (⟨-, hv⟩ | hmem)
        · rw [hv]
        · exfalso
          apply h.1
          rw [h1]
          exact List.mem_map.mpr ⟨(k, v), hmem, rfl⟩
    · rw [if_neg h1, ih h.2]
      constructor
      · exact Or.inr
      · rintro (⟨hk, -⟩ | hmem)
        · exact absurd hk.symm h1
        · exact hmem

theorem GoMap.get?_isSome_iff {κ ν : Type} [DecidableEq κ] (m : GoMap κ ν) (k : κ) :
    (∃ v, GoMap.get? m k = some v) ↔ k ∈ m.map Prod.fst := by
  induction m with
  | nil => simp [GoMap.get?]
  | cons e m ih =>
    obtain ⟨k1, v1⟩ := e
    simp only [GoMap.get?, List.map_cons, List.mem_cons]
    by_cases h1 : k1 = k
    · simp [h1]
    · rw [if_neg h1, ih]
      constructor
      · exact Or.inr
      · rintro (hk | hmem)
        · exact absurd hk.symm h1
        · exact hmem

theorem range_filterMap_getElem? {α : Type} (m : List α) :
    (List.range m.length).filterMap (fun i => m[i]?) = m := by
  induction m using List.reverseRecOn with
  | nil => rfl
  | append_singleton m a ih =>
    rw [List.length_append, List.length_singleton, List.range_succ, List.filterMap_append]
    have h1 : (List.range m.length).filterMap (fun i => (m ++ [a])[i]?) =
        (List.range m.length).filterMap (fun i => m[i]?) := by
      apply List.filterMap_congr
      intro i hi
      rw [List.mem_range] at hi
      rw [List.getElem?_append_left hi]
    rw [h1, ih]
    simp

theorem MapOrder.iterate_perm {κ ν : Type} (o : MapOrder) (ho : o.Valid) (site : Nat)
    (m : GoMap κ ν) : (o.iterate site m).Perm m := by
  unfold MapOrder.iterate
  have h := (ho site m.length).filterMap (fun i => m[i]?)
  rw [range_filterMap_getElem?] at h
  exact h

theorem insertionOrder_valid : insertionOrder.Valid := fun _ _ => List.Perm.refl _

theorem reverseOrder_valid : reverseOrder.Valid := fun _ _ => List.reverse_perm _

/-! ## Suggestions -/

theorem generateSuggestions_get? (cs : List FieldCandidate) (k : GoString) :
    GoMap.get? (generateSuggestions cs) k =
      if k = [] then none
      else ((cs.filter (fun c => decide (c.field_name = k))).getLast?).map (fun c => c.cell) := by
  induction cs using List.reverseRecOn with
  | nil => simp [generateSuggestions, GoMap.get?]
  | append_singleton cs c ih =>
    unfold generateSuggestions at ih ⊢
    rw [List.foldl_append, List.foldl_cons, List.foldl_nil, List.filter_append]
    by_cases hc : c.field_name = []
    · simp only [hc, ne_eq, not_true_eq_false, if_false]
      rw [ih]
      by_cases hk : k = []
      · simp [hk]
      · have : ¬ ([] : GoString) = k := fun h => hk h.symm
        simp [hk, hc, this]
    · simp only [ne_eq, hc, not_false_eq_true, if_true]
      rw [GoMap.get?_set]
      by_cases hck : c.field_name = k
      · have hk : ¬ k = [] := fun h => hc (hck.trans h)
        simp [hck, hk]
      · rw [if_neg hck, ih]
        simp [hck]

theorem generateSuggestions_nodup (cs : List FieldCandidate) :
    ((generateSuggestions cs).map Prod.fst).Nodup := by
  induction cs using List.reverseRecOn with
  | nil => simp [generateSuggestions]
  | append_singleton cs c ih =>
    unfold generateSuggestions at ih ⊢
    rw [List.foldl_append, List.foldl_cons, List.foldl_nil]
    split
    · exact GoMap.nodup_set _ _ _ ih
    · exact ih

theorem filter_getLast?_split {α : Type} (p : α → Bool) (l : List α) (c : α)
    (h : (l.filter p).getLast? = some c) :
    ∃ pre post, l = pre ++ c :: post ∧ p c = true ∧ ∀ d ∈ post, p d = false := by
  induction l using List.reverseRecOn with
  | nil => simp at h
  | append_singleton l a ih =>
    rw [List.filter_append] at h
    by_cases ha : p a = true
    · have hfa : [a].filter p = [a] := by simp [ha]
      rw [hfa, List.getLast?_concat] at h
      have h := Option.some.inj h
      subst h
      exact ⟨l, [], rfl, ha, by simp⟩
    · have hfa : [a].filter p = [] := by simp [ha]
      rw [hfa, List.append_nil] at h
      obtain ⟨pre, post, hl, hc, hpost⟩ := ih h
      refine ⟨pre, post ++ [a], by simp [hl], hc, ?_⟩
      intro d hd
      rw [List.mem_append, List.mem_singleton] at hd
      rcases hd with hd | hd
      · exact hpost d hd
      · rw [hd]; simpa using ha

/-- C18: for a list of field candidates whose field names are non-empty,
`generateSuggestions` returns a map whose keys are exactly the field names that occur
in the list, each once, and which maps a field name to the cell of the last candidate
of the list that carries it: no candidate after that one has the name. -/
theorem generateSuggestions_last_wins (cs : List FieldCandidate)
    (hne : ∀ c ∈ cs, c.field_name ≠ []) :
    (∀ k, k ∈ (generateSuggestions cs).map Prod.fst ↔ ∃ c ∈ cs, c.field_name = k) ∧
    ((generateSuggestions cs).map Prod.fst).Nodup ∧
    (∀ pre c post, cs = pre ++ c :: post → (∀ d ∈ post, d.field_name ≠ c.field_name) →
      GoMap.get? (generateSuggestions cs) c.field_name = some c.cell) ∧
    ∀ k v, GoMap.get? (generateSuggestions cs) k = some v →
      ∃ pre c post, cs = pre ++ c :: post ∧ c.field_name = k ∧ c.cell = v ∧
        ∀ d ∈ post, d.field_name ≠ k := by
  have hlast : ∀ pre c post, cs = pre ++ c :: post →
      (∀ d ∈ post, d.field_name ≠ c.field_name) →
      GoMap.get? (generateSuggestions cs) c.field_name = some c.cell := by
    intro pre c post hcs hpost
    have hk0 : ¬ c.field_name = [] := hne c (by rw [hcs]; simp)
    rw [generateSuggestions_get?, if_neg hk0, hcs, List.filter_append, List.filter_cons]
    have hpostnil : post.filter (fun d => decide (d.field_name = c.field_name)) = [] := by
      rw [List.filter_eq_nil_iff]
      intro d hd
      simpa using hpost d hd
    simp [hpostnil]
  have hsome : ∀ k v, GoMap.get? (generateSuggestions cs) k = some v →
      ∃ pre c post, cs = pre ++ c :: post ∧ c.field_name = k ∧ c.cell = v ∧
        ∀ d ∈ post, d.field_name ≠ k := by
    intro k v hv
    rw [generateSuggestions_get?] at hv
    split at hv
    · cases hv
    · rw [Option.map_eq_some'] at hv
      obtain ⟨c, hc, hcell⟩ := hv
      obtain ⟨pre, post, hcs, hck, hpost⟩ := filter_getLast?_split _ cs c hc
      refine ⟨pre, c, post, hcs, of_decide_eq_true hck, hcell, ?_⟩
      intro d hd
      exact of_decide_eq_false (hpost d hd)
  refine ⟨?_, generateSuggestions_nodup cs, hlast, hsome⟩
  intro k
  rw [← GoMap.get?_isSome_iff]
  constructor
  · rintro ⟨v, hv⟩
    obtain ⟨pre, c, post, hcs, hck, -, -⟩ := hsome k v hv
    exact ⟨c, by rw [hcs]; simp, hck⟩
  · rintro ⟨c, hc, hk⟩
    have hk0 : ¬ k = [] := fun h => hne c hc (hk.trans h)
    rw [generateSuggestions_get?, if_neg hk0]
    have hmem : c ∈ cs.filter (fun c => decide (c.field_name = k)) := by
      rw [List.mem_filter]
      exact ⟨hc, decide_eq_true hk⟩
    have hnil : cs.filter (fun c => decide (c.field_name = k)) ≠ [] :=
      List.ne_nil_of_mem hmem
    rw [List.getLast?_eq_getLast _ hnil]
    exact ⟨_, rfl⟩

theorem generateSuggestions_last_wins_witness :
    (∀ c ∈ [(⟨"total".toList, [], "A1".toList, [], [], ⟨1, 0⟩, false⟩ : FieldCandidate),
        ⟨"date".toList, [], "B1".toList, [], [], ⟨1, 0⟩, false⟩,
        ⟨"total".toList, [], "C1".toList, [], [], ⟨1, 0⟩, false⟩], c.field_name ≠ []) ∧
    GoMap.get? (generateSuggestions
      [⟨"total".toList, [], "A1".toList, [], [], ⟨1, 0⟩, false⟩,
        ⟨"date".toList, [], "B1".toList, [], [], ⟨1, 0⟩, false⟩,
        ⟨"total".toList, [], "C1".toList, [], [], ⟨1, 0⟩, false⟩]) "total".toList =
      some "C1".toList :=
  ⟨by decide,
    (generateSuggestions_last_wins
      [⟨"total".toList, [], "A1".toList, [], [], ⟨1, 0⟩, false⟩,
        ⟨"date".toList, [], "B1".toList, [], [], ⟨1, 0⟩, false⟩,
        ⟨"total".toList, [], "C1".toList, [], [], ⟨1, 0⟩, false⟩]
      (by decide)).2.2.1
      [⟨"total".toList, [], "A1".toList, [], [], ⟨1, 0⟩, false⟩,
        ⟨"date".toList, [], "B1".toList, [], [], ⟨1, 0⟩, false⟩]
      ⟨"total".toList, [], "C1".toList, [], [], ⟨1, 0⟩, false⟩ [] rfl (by simp)⟩

/-! ## Field candidates -/

theorem groupByColumn_spec (dataCells : List CellInfo) :
    ((groupByColumn dataCells).map Prod.fst).Nodup ∧
    ∀ col, GoMap.get? (groupByColumn dataCells) col =
      if columnCells dataCells col = [] then none else some (columnCells dataCells col) := by
  induction dataCells using List.reverseRecOn with
  | nil => exact ⟨List.nodup_nil, fun col => rfl⟩
  | append_singleton D d ih =>
    have hstep : groupByColumn (D ++ [d]) = (groupByColumn D).set d.column
        ((GoMap.get? (groupByColumn D) d.column).getD [] ++ [d]) := by
      unfold groupByColumn
      rw [List.foldl_append, List.foldl_cons, List.foldl_nil]
    rw [hstep]
    refine ⟨GoMap.nodup_set _ _ _ ih.1, ?_⟩
    intro col
    rw [GoMap.get?_set]
    have hcc : columnCells (D ++ [d]) col =
        columnCells D col ++ (if d.column = col then [d] else []) := by
      unfold columnCells
      rw [List.filter_append]
      by_cases h : d.column = col <;> simp [h]
    rw [hcc]
    by_cases h : d.column = col
    · rw [if_pos h, if_pos h, ih.2 d.column, h]
      by_cases hnil : columnCells D col = []
      · simp [hnil]
      · simp [hnil]
    · rw [if_neg h, if_neg h, List.append_nil]
      exact ih.2 col

theorem tallyDataTypes_spec (cells : List CellInfo) :
    ((tallyDataTypes cells).map Prod.fst).Nodup ∧
    ∀ t, GoMap.get? (tallyDataTypes cells) t =
      if typeCount cells t = 0 then none else some (typeCount cells t) := by
  induction cells using List.reverseRecOn with
  | nil => exact ⟨List.nodup_nil, fun t => rfl⟩
  | append_singleton D d ih =>
    have hstep : tallyDataTypes (D ++ [d]) = (tallyDataTypes D).set d.data_type
        ((GoMap.get? (tallyDataTypes D) d.data_type).getD 0 + 1) := by
      unfold tallyDataTypes
      rw [List.foldl_append, List.foldl_cons, List.foldl_nil]
    rw [hstep]
    refine ⟨GoMap.nodup_set _ _ _ ih.1, ?_⟩
    intro t
    rw [GoMap.get?_set]
    have hcc : typeCount (D ++ [d]) t =
        typeCount D t + (if d.data_type = t then 1 else 0) := by
      unfold typeCount
      rw [List.filter_append, List.length_append]
      by_cases h : d.data_type = t <;> simp [h]
    rw [hcc]
    by_cases h : d.data_type = t
    · rw [if_pos h, if_pos h, ih.2 d.data_type, h]
      by_cases hz : typeCount D t = 0
      · simp [hz]
      · simp [hz]
    · rw [if_neg h, if_neg h, Nat.add_zero]
      exact ih.2 t

theorem dominantDataType_fold (entries : List (GoString × Nat)) (st : GoString × Nat) :
    st.2 ≤ (entries.foldl (fun st entry => if entry.2 > st.2 then (entry.1, entry.2)
      else st) st).2 ∧
    (∀ e ∈ entries, e.2 ≤ (entries.foldl (fun st entry => if entry.2 > st.2 then
      (entry.1, entry.2) else st) st).2) ∧
    ((entries.foldl (fun st entry => if entry.2 > st.2 then (entry.1, entry.2)
      else st) st) = st ∨
      (entries.foldl (fun st entry => if entry.2 > st.2 then (entry.1, entry.2)
      else st) st) ∈ entries) := by
  induction entries generalizing st with
  | nil => simp
  | cons e es ih =>
    simp only [List.foldl_cons]
    by_cases hgt : e.2 > st.2
    · rw [if_pos hgt]
      obtain ⟨h1, h2, h3⟩ := ih (e.1, e.2)
      refine ⟨?_, ?_, ?_⟩
      · simp only at h1; omega
      · intro x hx
        rw [List.mem_cons] at hx
        rcases hx with hx | hx
        · rw [hx]; exact h1
        · exact h2 x hx
      · rcases h3 with h3 | h3
        · right
          rw [h3]
          exact List.mem_cons_self _ _
        · exact Or.inr (List.mem_cons_of_mem _ h3)
    · rw [if_neg hgt]
      obtain ⟨h1, h2, h3⟩ := ih st
      refine ⟨h1, ?_, ?_⟩
      · intro x hx
        rw [List.mem_cons] at hx
        rcases hx with hx | hx
        · rw [hx]; omega
        · exact h2 x hx
      · rcases h3 with h3 | h3
        · exact Or.inl h3
        · exact Or.inr (List.mem_cons_of_mem _ h3)

theorem dominantDataType_spec (o : MapOrder) (ho : o.Valid) (site : Nat)
    (cells : List CellInfo) :
    (∀ t, typeCount cells t ≤
      (dominantDataType (o.iterate site (tallyDataTypes cells))).2) ∧
    ((dominantDataType (o.iterate site (tallyDataTypes cells))).2 > 0 →
      typeCount cells (dominantDataType (o.iterate site (tallyDataTypes cells))).1 =
        (dominantDataType (o.iterate site (tallyDataTypes cells))).2) := by
  have hperm := MapOrder.iterate_perm o ho site (tallyDataTypes cells)
  obtain ⟨hnd, hget⟩ := tallyDataTypes_spec cells
  obtain ⟨-, hmax, hmem⟩ := dominantDataType_fold (o.iterate site (tallyDataTypes cells))
    ("text".toList, 0)
  have hin : ∀ e : GoString × Nat, e ∈ o.iterate site (tallyDataTypes cells) ↔
      typeCount cells e.1 = e.2 ∧ e.2 ≠ 0 := by
    intro e
    rw [hperm.mem_iff, ← GoMap.get?_eq_some_iff _ _ _ hnd, hget]
    by_cases hz : typeCount cells e.1 = 0
    · rw [if_pos hz]
      constructor
      · intro h; cases h
      · rintro ⟨h1, h2⟩; omega
    · rw [if_neg hz]
      constructor
      · intro h
        have := Option.some.inj h
        exact ⟨this, by omega⟩
      · rintro ⟨h1, -⟩
        rw [h1]
  refine ⟨?_, ?_⟩
  · intro t
    by_cases hz : typeCount cells t = 0
    · rw [hz]; exact Nat.zero_le _
    · exact hmax (t, typeCount cells t) ((hin _).mpr ⟨rfl, hz⟩)
  · intro hpos
    unfold dominantDataType at hpos ⊢
    rcases hmem with h | h
    · rw [h] at hpos
      exact absurd hpos (by decide)
    · exact ((hin _).mp h).1

theorem columnCandidates_eq (E : Stdlib) (o : MapOrder) (entry : Nat × List CellInfo) :
    columnCandidates E o entry =
      ((columnPick o entry).map (fun p => inferredCandidate E p.1 p.2)).toList := by
  unfold columnCandidates columnPick
  by_cases h1 : entry.2.length > 2
  · by_cases h2 : (dominantDataType (o.iterate (entry.1 + 1)
        (tallyDataTypes entry.2))).2 > 1
    · simp [h1, h2]
    · simp [h1, h2]
  · simp [h1]

theorem flatten_columnCandidates (E : Stdlib) (o : MapOrder)
    (entries : List (Nat × List CellInfo)) :
    (entries.map (columnCandidates E o)).flatten =
      (entries.filterMap (columnPick o)).map (fun p => inferredCandidate E p.1 p.2) := by
  induction entries with
  | nil => rfl
  | cons e es ih =>
    rw [List.map_cons, List.flatten_cons, ih, columnCandidates_eq, List.filterMap_cons]
    cases columnPick o e <;> rfl

theorem columnPick_fst (o : MapOrder) (entry : Nat × List CellInfo) (p : Nat × GoString)
    (h : columnPick o entry = some p) : p.1 = entry.1 := by
  unfold columnPick at h
  split at h
  · rw [← Option.some.inj h]
  · cases h

theorem filterMap_columnPick_sublist (o : MapOrder) (entries : List (Nat × List CellInfo)) :
    ((entries.filterMap (columnPick o)).map Prod.fst).Sublist (entries.map Prod.fst) := by
  induction entries with
  | nil => exact List.Sublist.slnil
  | cons e es ih =>
    rw [List.filterMap_cons]
    cases h : columnPick o e with
    | none => exact List.Sublist.cons _ ih
    | some p =>
      simp only [List.map_cons]
      rw [columnPick_fst o e p h]
      exact List.Sublist.cons₂ _ ih
theorem columnPick_mem_iff (o : MapOrder) (ho : o.Valid) (dataCells : List CellInfo)
    (p : Nat × GoString) :
    p ∈ (o.iterate 0 (groupByColumn dataCells)).filterMap (columnPick o) ↔
      columnPick o (p.1, columnCells dataCells p.1) = some p := by
  obtain ⟨hnd, hget⟩ := groupByColumn_spec dataCells
  have hperm := MapOrder.iterate_perm o ho 0 (groupByColumn dataCells)
  rw [List.mem_filterMap]
  constructor
  · rintro ⟨entry, hentry, hpick⟩
    rw [hperm.mem_iff, ← GoMap.get?_eq_some_iff _ _ _ hnd, hget] at hentry
    have hfst := columnPick_fst o entry p hpick
    split at hentry
    · cases hentry
    · have h2 := Option.some.inj hentry
      have : entry = (p.1, columnCells dataCells p.1) := by
        rw [hfst]
        exact Prod.ext rfl h2.symm
      rw [← this]
      exact hpick
  · intro hpick
    refine ⟨(p.1, columnCells dataCells p.1), ?_, hpick⟩
    rw [hperm.mem_iff, ← GoMap.get?_eq_some_iff _ _ _ hnd, hget]
    have hlen : (columnCells dataCells p.1).length > 2 := by
      unfold columnPick at hpick
      split at hpick
      · next h => exact h.1
      · cases hpick
    have hne : columnCells dataCells p.1 ≠ [] := by
      intro h
      rw [h] at hlen
      exact absurd hlen (by decide)
    rw [if_neg hne]

/-- C17: for every order in which the maps are visited, `generateFieldCandidates`
returns one header-derived candidate per header candidate, in their order, followed by
exactly one inferred candidate for each column that has more than 2 data cells and a
data type occurring more than once among them, and none for any other column. The
inferred candidate of a column carries a most frequent data type of the column, which
occurs more than once; it has confidence 0.6, `inferred` true, that data type, the cell
name of row 1 of the column (empty if the library rejects the column) and field name
`column_`, the lowercased cell name, `_` and the type. -/
theorem generateFieldCandidates_spec (E : Stdlib) (o : MapOrder) (ho : o.Valid)
    (headerCandidates dataCells : List CellInfo) :
    ∃ picks : List (Nat × GoString),
      generateFieldCandidates E o headerCandidates dataCells =
        headerCandidates.map (headerCandidate E) ++
          picks.map (fun p => inferredCandidate E p.1 p.2) ∧
      (picks.map Prod.fst).Nodup ∧
      (∀ col, col ∈ picks.map Prod.fst ↔
        (columnCells dataCells col).length > 2 ∧
          ∃ t, typeCount (columnCells dataCells col) t > 1) ∧
      (∀ p ∈ picks, typeCount (columnCells dataCells p.1) p.2 > 1 ∧
        ∀ t, typeCount (columnCells dataCells p.1) t ≤
          typeCount (columnCells dataCells p.1) p.2) ∧
      (∀ h ∈ headerCandidates, (headerCandidate E h).inferred = false ∧
        (headerCandidate E h).cell = h.cell ∧
        (headerCandidate E h).field_name = generateFieldName E h.value) ∧
      ∀ col t, (inferredCandidate E col t).confidence = F64.round 6 10 ∧
        (inferredCandidate E col t).confidence.toRat = 5404319552844595 / 2 ^ 53 ∧
        (inferredCandidate E col t).inferred = true ∧
        (inferredCandidate E col t).data_type = t ∧
        (inferredCandidate E col t).cell = (E.coordinatesToCellName col 1).getD [] ∧
        (inferredCandidate E col t).field_name =
          "column_".toList ++ E.lower ((E.coordinatesToCellName col 1).getD []) ++
            "_".toList ++ t := by
  have hpickspec : ∀ p : Nat × GoString,
      columnPick o (p.1, columnCells dataCells p.1) = some p →
      (columnCells dataCells p.1).length > 2 ∧
      typeCount (columnCells dataCells p.1) p.2 > 1 ∧
      ∀ t, typeCount (columnCells dataCells p.1) t ≤
        typeCount (columnCells dataCells p.1) p.2 := by
    intro p hp
    obtain ⟨hmax, hattained⟩ := dominantDataType_spec o ho (p.1 + 1)
      (columnCells dataCells p.1)
    unfold columnPick at hp
    split at hp
    · next hcond =>
      have hp2 := congrArg Prod.snd (Option.some.inj hp)
      simp only at hp2 hcond
      rw [← hp2, hattained (by omega)]
      exact ⟨hcond.1, hcond.2, hmax⟩
    · cases hp
  refine ⟨(o.iterate 0 (groupByColumn dataCells)).filterMap (columnPick o), ?_, ?_, ?_, ?_,
    ?_, ?_⟩
  · unfold generateFieldCandidates
    rw [flatten_columnCandidates]
  · have hsub := filterMap_columnPick_sublist o (o.iterate 0 (groupByColumn dataCells))
    apply hsub.nodup
    have hperm := (MapOrder.iterate_perm o ho 0 (groupByColumn dataCells)).map Prod.fst
    rw [hperm.nodup_iff]
    exact (groupByColumn_spec dataCells).1
  · intro col
    rw [List.mem_map]
    constructor
    · rintro ⟨p, hp, rfl⟩
      rw [columnPick_mem_iff o ho] at hp
      obtain ⟨h1, h2, -⟩ := hpickspec p hp
      exact ⟨h1, p.2, h2⟩
    · rintro ⟨hlen, t, ht⟩
      obtain ⟨hmax, -⟩ := dominantDataType_spec o ho (col + 1) (columnCells dataCells col)
      refine ⟨(col, (dominantDataType (o.iterate (col + 1)
        (tallyDataTypes (columnCells dataCells col)))).1), ?_, rfl⟩
      rw [columnPick_mem_iff o ho]
      unfold columnPick
      have := hmax t
      simp only
      rw [if_pos ⟨hlen, by omega⟩]
  · intro p hp
    rw [columnPick_mem_iff o ho] at hp
    exact (hpickspec p hp).2
  · intro h _
    exact ⟨rfl, rfl, by simp only [headerCandidate]⟩
  · intro col t
    have h6 : F64.round 6 10 = ⟨5404319552844595, 53⟩ := confidence_sums.2.2.2.2.2.2.1
    refine ⟨by simp only [inferredCandidate], ?_, by simp only [inferredCandidate],
      by simp only [inferredCandidate], by simp only [inferredCandidate],
      by simp only [inferredCandidate]⟩
    simp only [inferredCandidate, h6, F64.toRat]
    norm_num

theorem generateFieldCandidates_spec_witness :
    insertionOrder.Valid ∧
    ∃ picks : List (Nat × GoString),
      generateFieldCandidates asciiLib insertionOrder [] sampleDataCells =
        ([] : List CellInfo).map (headerCandidate asciiLib) ++
          picks.map (fun p => inferredCandidate asciiLib p.1 p.2) ∧
      (picks.map Prod.fst).Nodup ∧
      (∀ col, col ∈ picks.map Prod.fst ↔
        (columnCells sampleDataCells col).length > 2 ∧
          ∃ t, typeCount (columnCells sampleDataCells col) t > 1) :=
  ⟨insertionOrder_valid,
    (generateFieldCandidates_spec asciiLib insertionOrder insertionOrder_valid []
      sampleDataCells).imp (fun _ h => ⟨h.1, h.2.1, h.2.2.1⟩)⟩

/-! ## The two lists of cells -/

theorem processCell_eq (E : Stdlib) (row : List GoString) (orig col : Nat) (st : Classified)
    (hcol : col < row.length) :
    processCell E row orig col st =
      some ⟨st.headerCandidates ++ (retainedCell E row orig col).toList.filter isHeaderCandidate,
        st.dataCells ++ (retainedCell E row orig col).toList.filter isDataCell⟩ := by
  unfold processCell retainedCell
  rw [List.getElem?_eq_getElem hcol]
  simp only
  by_cases hblank : trimSpace row[col] = []
  · simp [hblank]
  · rw [if_neg hblank, if_neg hblank]
    cases hname : E.coordinatesToCellName (col + 1) (orig + 1) with
    | none => simp
    | some name =>
      simp only [Option.map_some', Option.toList_some]
      by_cases hf : (detectFillableField E (trimSpace row[col])).is_fillable = true
      · simp [hf, isHeaderCandidate, isDataCell, cellRecord]
      · by_cases hh : isLikelyHeader E (trimSpace row[col]) orig col = true
        · simp [hf, hh, isHeaderCandidate, isDataCell, cellRecord]
        · simp [hf, hh, isHeaderCandidate, isDataCell, cellRecord]

theorem columnLoop_eq (E : Stdlib) (amc : Nat) (row : List GoString) (orig : Nat) :
    ∀ (fuel i : Nat) (st : Classified), i ≤ min amc row.length → row.length ≤ fuel + i →
      forLoop (fun colIndex => decide (colIndex < amc) && decide (colIndex < row.length)) 1
        (processCell E row orig) fuel i st =
      some ⟨st.headerCandidates ++
          ((List.range' i (min amc row.length - i)).filterMap
            (retainedCell E row orig)).filter isHeaderCandidate,
        st.dataCells ++
          ((List.range' i (min amc row.length - i)).filterMap
            (retainedCell E row orig)).filter isDataCell⟩ := by
  intro fuel
  induction fuel with
  | zero =>
    intro i st hi hf
    have hc : (decide (i < amc) && decide (i < row.length)) = false := by
      simp; omega
    have hz : min amc row.length - i = 0 := by omega
    simp [forLoop, hc, hz]
  | succ fuel ih =>
    intro i st hi hf
    by_cases hlt : i < min amc row.length
    · have hc : (decide (i < amc) && decide (i < row.length)) = true := by
        simp; omega
      have hr : min amc row.length - i = (min amc row.length - (i + 1)) + 1 := by omega
      simp only [forLoop, hc, if_true]
      rw [processCell_eq E row orig i st (by omega)]
      simp only
      rw [ih (i + 1) _ (by omega) (by omega), hr, List.range'_succ, List.filterMap_cons]
      cases retainedCell E row orig i with
      | none => simp
      | some c =>
        simp [List.filter_cons]
        constructor <;> split <;> rfl
    · have hc : (decide (i < amc) && decide (i < row.length)) = false := by
        simp; omega
      have hz : min amc row.length - i = 0 := by omega
      simp [forLoop, hc, hz]

theorem processRows_eq (E : Stdlib) (rowMapping : List Nat) (amc : Nat) :
    ∀ (rest : Grid) (k : Nat) (st : Classified), rest.length + k ≤ rowMapping.length →
      processRows E rowMapping amc k rest st =
        some ⟨st.headerCandidates ++
            (retainedCells E amc rest (rowMapping.drop k)).filter isHeaderCandidate,
          st.dataCells ++
            (retainedCells E amc rest (rowMapping.drop k)).filter isDataCell⟩ := by
  intro rest
  induction rest with
  | nil =>
    intro k st _
    simp [processRows, retainedCells]
  | cons row rest ih =>
    intro k st hk
    simp only [List.length_cons] at hk
    have hklt : k < rowMapping.length := by omega
    have hdrop : rowMapping.drop k = rowMapping[k] :: rowMapping.drop (k + 1) :=
      List.drop_eq_getElem_cons hklt
    unfold processRows
    rw [List.getElem?_eq_getElem hklt]
    simp only
    rw [columnLoop_eq E amc row rowMapping[k] row.length 0 st (Nat.zero_le _) (by omega)]
    simp only
    rw [ih (k + 1) _ (by omega), hdrop]
    simp only [retainedCells, List.zip_cons_cons, List.map_cons, List.flatten_cons,
      List.filter_append, List.append_assoc, rowRecords, Nat.sub_zero,
      List.range_eq_range']
theorem retainedCell_eq_some_iff (E : Stdlib) (row : List GoString) (orig col : Nat)
    (c : CellInfo) :
    retainedCell E row orig col = some c ↔
      ∃ raw name, row[col]? = some raw ∧ trimSpace raw ≠ [] ∧
        E.coordinatesToCellName (col + 1) (orig + 1) = some name ∧
        c = cellRecord E name (trimSpace raw) orig col := by
  unfold retainedCell
  cases hraw : row[col]? with
  | none => simp
  | some raw =>
    simp only
    by_cases hblank : trimSpace raw = []
    · simp [hblank]
    · rw [if_neg hblank]
      cases hname : E.coordinatesToCellName (col + 1) (orig + 1) with
      | none => simp
      | some name =>
        simp only [Option.map_some', Option.some.injEq]
        constructor
        · intro h
          exact ⟨raw, name, rfl, hblank, rfl, h.symm⟩
        · rintro ⟨raw1, name1, h1, -, h3, h4⟩
          rw [← h1, ← h3] at h4
          exact h4.symm

theorem mem_retainedCells (E : Stdlib) (amc : Nat) (analysisRows : Grid)
    (rowMapping : List Nat) (c : CellInfo) :
    c ∈ retainedCells E amc analysisRows rowMapping ↔
      ∃ (i : Nat) (row : List GoString) (orig col : Nat) (raw name : GoString),
        analysisRows[i]? = some row ∧ rowMapping[i]? = some orig ∧ col < amc ∧
        row[col]? = some raw ∧ trimSpace raw ≠ [] ∧
        E.coordinatesToCellName (col + 1) (orig + 1) = some name ∧
        c = cellRecord E name (trimSpace raw) orig col := by
  unfold retainedCells rowRecords
  simp only [List.mem_flatten, List.mem_map, List.mem_filterMap, List.mem_range]
  constructor
  · rintro ⟨l, ⟨p, hp, rfl⟩, hc⟩
    rw [List.mem_filterMap] at hc
    obtain ⟨col, hcol, hrc⟩ := hc
    rw [List.mem_range] at hcol
    rw [retainedCell_eq_some_iff] at hrc
    obtain ⟨raw, name, h1, h2, h3, h4⟩ := hrc
    obtain ⟨i, hi⟩ := List.mem_iff_getElem?.mp hp
    rw [List.getElem?_zip_eq_some] at hi
    exact ⟨i, p.1, p.2, col, raw, name, hi.1, hi.2, by omega, h1, h2, h3, h4⟩
  · rintro ⟨i, row, orig, col, raw, name, hrow, horig, hcol, hraw, hblank, hname, hc⟩
    refine ⟨_, ⟨(row, orig), ?_, rfl⟩, ?_⟩
    · rw [List.mem_iff_getElem?]
      exact ⟨i, List.getElem?_zip_eq_some.mpr ⟨hrow, horig⟩⟩
    · rw [List.mem_filterMap]
      refine ⟨col, ?_, ?_⟩
      · rw [List.mem_range]
        have : col < row.length := by
          by_contra hcon
          rw [List.getElem?_eq_none (by omega)] at hraw
          cases hraw
        simp only
        omega
      · rw [retainedCell_eq_some_iff]
        exact ⟨raw, name, hraw, hblank, hname, hc⟩

theorem filter_partition_length (cells : List CellInfo) :
    (cells.filter isHeaderCandidate).length + (cells.filter isDataCell).length =
      cells.length := by
  induction cells with
  | nil => rfl
  | cons c cs ih =>
    have h : isDataCell c = !isHeaderCandidate c := by
      unfold isDataCell isHeaderCandidate
      cases c.fillable.is_fillable <;> cases c.is_header <;> rfl
    rw [List.filter_cons, List.filter_cons, h]
    cases isHeaderCandidate c <;> simp <;> omega

/-- C19: every sampled cell within the column cap that is not blank (and that the
library names) yields one record, and the cell loop puts each record in exactly one of
the two lists, keeping their order: in `dataCells` when it is fillable or not a likely
header, in `headerCandidates` exactly when it is a likely header without a fillable
match. Hence no header candidate is fillable and no record of either list has a blank
value. -/
theorem classifyCells_partition (E : Stdlib) (rows : Grid) :
    ∃ (analysisRows : Grid) (rowMapping : List Nat) (amc : Nat) (cl : Classified),
      smartSample rows = some (analysisRows, rowMapping) ∧
      amc = (if findMaxColumns analysisRows > 20 then 20 else findMaxColumns analysisRows) ∧
      classifyCells E rows = some cl ∧
      (∀ c, c ∈ retainedCells E amc analysisRows rowMapping ↔
        ∃ (i : Nat) (row : List GoString) (orig col : Nat) (raw name : GoString),
          analysisRows[i]? = some row ∧ rowMapping[i]? = some orig ∧ col < amc ∧
          row[col]? = some raw ∧ trimSpace raw ≠ [] ∧
          E.coordinatesToCellName (col + 1) (orig + 1) = some name ∧
          c = cellRecord E name (trimSpace raw) orig col) ∧
      cl.headerCandidates =
        (retainedCells E amc analysisRows rowMapping).filter isHeaderCandidate ∧
      cl.dataCells = (retainedCells E amc analysisRows rowMapping).filter isDataCell ∧
      cl.headerCandidates.length + cl.dataCells.length =
        (retainedCells E amc analysisRows rowMapping).length ∧
      (∀ c ∈ retainedCells E amc analysisRows rowMapping,
        (c ∈ cl.dataCells ↔ c.fillable.is_fillable = true ∨ c.is_header = false) ∧
        (c ∈ cl.headerCandidates ↔ c.is_header = true ∧ c.fillable.is_fillable = false) ∧
        (c ∈ cl.headerCandidates ↔ c ∉ cl.dataCells)) ∧
      (∀ c ∈ cl.headerCandidates, c.fillable.is_fillable = false) ∧
      ∀ c ∈ cl.headerCandidates ++ cl.dataCells, c.value ≠ [] := by
  obtain ⟨ar, rm, hs, hrel⟩ := smartSample_rows rows
  have hlen := hrel.length_eq
  have hproc := processRows_eq E rm
    (if findMaxColumns ar > 20 then 20 else findMaxColumns ar) ar 0 ⟨[], []⟩ (by omega)
  simp only [List.nil_append, List.drop_zero] at hproc
  refine ⟨ar, rm, _, _, hs, rfl, by simp only [classifyCells, hs]; exact hproc,
    mem_retainedCells E _ ar rm, rfl, rfl, filter_partition_length _, ?_, ?_, ?_⟩
  · intro c hc
    simp only [List.mem_filter, hc, true_and, isDataCell, isHeaderCandidate]
    cases c.fillable.is_fillable <;> cases c.is_header <;> simp
  · intro c hc
    simp only [List.mem_filter, isHeaderCandidate] at hc
    cases hf : c.fillable.is_fillable
    · rfl
    · rw [hf] at hc
      simp at hc
  · intro c hc
    have hmem : c ∈ retainedCells E
        (if findMaxColumns ar > 20 then 20 else findMaxColumns ar) ar rm := by
      rw [List.mem_append] at hc
      rcases hc with hc | hc
      · exact List.mem_of_mem_filter hc
      · exact List.mem_of_mem_filter hc
    rw [mem_retainedCells] at hmem
    obtain ⟨i, row, orig, col, raw, name, -, -, -, -, hblank, -, rfl⟩ := hmem
    exact hblank

/-! ## The sample template -/

theorem exists_report_of_passes {P : Report → Prop} [DecidablePred P]
    (r : Option (Except AnalyzeError Report))
    (h : reportPasses r (fun report => decide (P report)) = true) :
    ∃ report, r = some (Except.ok report) ∧ P report := by
  unfold reportPasses at h
  split at h
  · next report => exact ⟨report, rfl, of_decide_eq_true h⟩
  · cases h

theorem MapOrder.iterate_of_length_le_one {κ ν : Type} (o : MapOrder) (ho : o.Valid)
    (site : Nat) (m : GoMap κ ν) (h : m.length ≤ 1) : o.iterate site m = m := by
  have hperm := MapOrder.iterate_perm o ho site m
  match m, h, hperm with
  | [], _, hperm => exact List.Perm.eq_nil hperm
  | [a], _, hperm => exact List.perm_singleton.mp hperm
  | _ :: _ :: _, h, _ => simp at h

theorem generateFieldCandidates_no_inferred (E : Stdlib) (o : MapOrder) (ho : o.Valid)
    (headerCandidates dataCells : List CellInfo) (h : dataCells.length ≤ 2) :
    generateFieldCandidates E o headerCandidates dataCells =
      headerCandidates.map (headerCandidate E) := by
  unfold generateFieldCandidates
  rw [flatten_columnCandidates]
  have hnil : (o.iterate 0 (groupByColumn dataCells)).filterMap (columnPick o) = [] := by
    rw [List.eq_nil_iff_forall_not_mem]
    intro p hp
    rw [columnPick_mem_iff o ho] at hp
    unfold columnPick at hp
    split at hp
    · next hcond =>
      have hle : (columnCells dataCells p.1).length ≤ dataCells.length :=
        List.length_filter_le _ _
      simp only at hcond
      omega
    · cases hp
  rw [hnil, List.map_nil, List.append_nil]

theorem analyzeTableStructure_uniform (o o1 : MapOrder) (ho : o.Valid) (ho1 : o1.Valid)
    (rows : Grid) (h : (analyzeTableStructure o1 rows).varying_widths = false) :
    analyzeTableStructure o rows = analyzeTableStructure o1 rows := by
  unfold analyzeTableStructure at h ⊢
  by_cases hlen : rows.length < 2
  · simp only [hlen, if_true]
  · simp only [hlen, if_false] at h ⊢
    have hle : (rows.foldl scanRow ⟨[], 0, 0, 0, 0⟩).columnCounts.length ≤ 1 := by
      simpa using h
    rw [MapOrder.iterate_of_length_le_one o ho 0 _ hle,
      MapOrder.iterate_of_length_le_one o1 ho1 0 _ hle]

theorem analyzeFile_of_small (E : Stdlib) (oc os oc1 os1 : MapOrder) (hoc : oc.Valid)
    (hos : os.Valid) (hoc1 : oc1.Valid) (hos1 : os1.Valid) (f : Document) (report : Report)
    (h : analyzeFile E oc1 os1 (some f) = some (Except.ok report))
    (hd : report.data_cells.length ≤ 2)
    (hu : report.data_structure.table_structure.varying_widths = false) :
    analyzeFile E oc os (some f) = some (Except.ok report) := by
  unfold analyzeFile at h ⊢
  simp only at h ⊢
  split at h
  · cases h
  · next hsheets =>
    rw [if_neg hsheets]
    cases hb : findBestSheet f f.sheetList with
    | none => simp [hb] at h
    | some best =>
      obtain ⟨name, rows⟩ := best
      simp only [hb] at h ⊢
      cases hs : smartSample rows with
      | none => simp [hs] at h
      | some sample =>
        obtain ⟨ar, rm⟩ := sample
        simp only [hs] at h ⊢
        cases hp : processRows E rm (if findMaxColumns ar > 20 then 20 else findMaxColumns ar)
            0 ar ⟨[], []⟩ with
        | none => simp [hp] at h
        | some cl =>
          simp only [hp, Option.some.injEq, Except.ok.injEq] at h ⊢
          subst h
          simp only at hd hu
          rw [generateFieldCandidates_no_inferred E oc hoc _ _ hd,
            generateFieldCandidates_no_inferred E oc1 hoc1 _ _ hd,
            analyzeTableStructure_uniform os os1 hos hos1 rows hu]

set_option maxRecDepth 100000 in
theorem vendorInvoice_insertionOrder :
    reportPasses (analyzeFile asciiLib insertionOrder insertionOrder
      (some vendorInvoiceWorkbook)) (fun report => decide (
        (report.data_cells.length ≤ 2 ∧
          report.data_structure.table_structure.varying_widths = false) ∧
        report.header_candidates.length = 2 ∧
        report.field_candidates = report.header_candidates.map (headerCandidate asciiLib) ∧
        report.field_candidates.map (fun c => c.field_name) =
          ["vendor_name".toList, "invoice_number".toList] ∧
        report.data_cells.length = 2 ∧
        (∀ c ∈ report.data_cells, c.fillable.is_fillable = true ∧
          c.fillable.pattern_type = "single_bracket_caps".toList) ∧
        (∀ c ∈ report.field_candidates, c.inferred = false) ∧
        report.data_structure.data_start_row = 2 ∧
        report.data_structure.table_structure.template_type =
          some "simple_template".toList)) = true := by
  decide

/-- C20: for the workbook whose single sheet has the rows `Vendor Name:`,
`[VENDOR_NAME]` and `Invoice Number:`, `[INVOICE_NUMBER]`, `AnalyzeFile` returns a report
(whatever the order in which the maps are visited) with exactly 2 header candidates,
whose field candidates are named `vendor_name` and `invoice_number`, exactly 2 data
cells, both fillable with pattern type `single_bracket_caps`, no inferred candidate,
`data_start_row` 2 and `template_type` `simple_template`. -/
theorem analyzeFile_vendorInvoice (oc os : MapOrder) (hoc : oc.Valid) (hos : os.Valid) :
    ∃ report, analyzeFile asciiLib oc os (some vendorInvoiceWorkbook) =
        some (Except.ok report) ∧
      report.header_candidates.length = 2 ∧
      report.field_candidates = report.header_candidates.map (headerCandidate asciiLib) ∧
      report.field_candidates.map (fun c => c.field_name) =
        ["vendor_name".toList, "invoice_number".toList] ∧
      report.data_cells.length = 2 ∧
      (∀ c ∈ report.data_cells, c.fillable.is_fillable = true ∧
        c.fillable.pattern_type = "single_bracket_caps".toList) ∧
      (∀ c ∈ report.field_candidates, c.inferred = false) ∧
      report.data_structure.data_start_row = 2 ∧
      report.data_structure.table_structure.template_type =
        some "simple_template".toList := by
  obtain ⟨report, hr, ⟨hd, hu⟩, hP⟩ := exists_report_of_passes _ vendorInvoice_insertionOrder
  exact ⟨report, analyzeFile_of_small asciiLib oc os insertionOrder insertionOrder hoc hos
    insertionOrder_valid insertionOrder_valid vendorInvoiceWorkbook report hr hd hu, hP⟩

theorem analyzeFile_vendorInvoice_witness :
    reverseOrder.Valid ∧ insertionOrder.Valid ∧
    ∃ report, analyzeFile asciiLib reverseOrder insertionOrder (some vendorInvoiceWorkbook) =
        some (Except.ok report) ∧
      report.header_candidates.length = 2 ∧
      report.field_candidates.map (fun c => c.field_name) =
        ["vendor_name".toList, "invoice_number".toList] ∧
      report.data_cells.length = 2 ∧
      report.data_structure.data_start_row = 2 ∧
      report.data_structure.table_structure.template_type =
        some "simple_template".toList :=
  ⟨reverseOrder_valid, insertionOrder_valid,
    (analyzeFile_vendorInvoice reverseOrder insertionOrder reverseOrder_valid
      insertionOrder_valid).imp
      (fun _ h => ⟨h.1, h.2.1, h.2.2.2.1, h.2.2.2.2.1, h.2.2.2.2.2.2.2.1,
        h.2.2.2.2.2.2.2.2⟩)⟩

/-! ## Errors of the analysis -/

theorem findBestSheet_of_ne_nil (f : Document) (sheets : List GoString) (h : sheets ≠ []) :
    ∃ best, findBestSheet f sheets = some best := by
  unfold findBestSheet
  simp only
  split
  · cases sheets with
    | nil => exact absurd rfl h
    | cons first rest => exact ⟨_, rfl⟩
  · exact ⟨_, rfl⟩

/-- C21: when the document cannot be opened, or opens but has no sheets, `AnalyzeFile`
returns an error and no report (`return nil, err`; the result is an error or a report,
never both); when the document opens and has at least one sheet it returns a report and
no error: no step of the analysis fails. -/
theorem analyzeFile_error_or_report (E : Stdlib) (oc os : MapOrder) :
    analyzeFile E oc os none = some (Except.error AnalyzeError.cannotOpen) ∧
    ∀ f : Document,
      (f.sheetList = [] →
        analyzeFile E oc os (some f) = some (Except.error AnalyzeError.noSheets)) ∧
      (f.sheetList ≠ [] →
        ∃ report, analyzeFile E oc os (some f) = some (Except.ok report) ∧
          report.sheets = f.sheetList) := by
  refine ⟨rfl, fun f => ⟨?_, ?_⟩⟩
  · intro h
    simp [analyzeFile, h]
  · intro h
    have hlen : ¬ f.sheetList.length = 0 := by
      rw [List.length_eq_zero]
      exact h
    obtain ⟨⟨name, rows⟩, hb⟩ := findBestSheet_of_ne_nil f f.sheetList h
    obtain ⟨ar, rm, hs, hrel⟩ := smartSample_rows rows
    have hl := hrel.length_eq
    have hp := processRows_eq E rm
      (if findMaxColumns ar > 20 then 20 else findMaxColumns ar) ar 0 ⟨[], []⟩ (by omega)
    unfold analyzeFile
    simp only [hlen, if_false, hb, hs, hp]
    exact ⟨_, rfl, rfl⟩

/-! ## Empty field names -/

set_option maxRecDepth 100000 in
theorem punctuationWorkbook_report :
    reportPasses (analyzeFile asciiLib insertionOrder insertionOrder
      (some punctuationWorkbook)) (fun report => decide (
        (report.data_cells.length ≤ 2 ∧
          report.data_structure.table_structure.varying_widths = false) ∧
        report.header_candidates.map (fun c => c.value) = ["!!!".toList] ∧
        report.field_candidates.map (fun c => c.field_name) = [[]] ∧
        report.field_candidates.map (fun c => c.cell) = ["A1".toList] ∧
        report.suggestions = [])) = true := by
  decide

/-- C30: `generateSuggestions` never produces an entry with the empty key: the keys of
the map are exactly the non-empty field names of the candidates. A candidate with the
empty field name stays in the candidate list but gets no entry: the header cell `!!!`
is a likely header whose normalized name is empty, and for the workbook that holds
only this cell the report has one field candidate, named by the empty string, and an
empty suggestions map. -/
theorem generateSuggestions_no_empty_key (cs : List FieldCandidate) :
    [] ∉ (generateSuggestions cs).map Prod.fst ∧
    (∀ k, k ∈ (generateSuggestions cs).map Prod.fst ↔ k ≠ [] ∧ ∃ c ∈ cs, c.field_name = k) ∧
    (∀ E : Stdlib, E.Ascii → generateFieldName E "!!!".toList = []) ∧
    ∀ oc os : MapOrder, oc.Valid → os.Valid →
      ∃ report, analyzeFile asciiLib oc os (some punctuationWorkbook) =
          some (Except.ok report) ∧
        report.header_candidates.map (fun c => c.value) = ["!!!".toList] ∧
        report.field_candidates.map (fun c => c.field_name) = [[]] ∧
        report.field_candidates.map (fun c => c.cell) = ["A1".toList] ∧
        report.suggestions = [] := by
  have hkeys : ∀ k, k ∈ (generateSuggestions cs).map Prod.fst ↔
      k ≠ [] ∧ ∃ c ∈ cs, c.field_name = k := by
    intro k
    rw [← GoMap.get?_isSome_iff, generateSuggestions_get?]
    constructor
    · rintro ⟨v, hv⟩
      split at hv
      · cases hv
      · next hk =>
        rw [Option.map_eq_some'] at hv
        obtain ⟨c, hc, -⟩ := hv
        obtain ⟨pre, post, hcs, hck, -⟩ := filter_getLast?_split _ cs c hc
        exact ⟨hk, c, by rw [hcs]; simp, of_decide_eq_true hck⟩
    · rintro ⟨hk, c, hc, hck⟩
      rw [if_neg hk]
      have hmem : c ∈ cs.filter (fun c => decide (c.field_name = k)) := by
        rw [List.mem_filter]
        exact ⟨hc, decide_eq_true hck⟩
      rw [List.getLast?_eq_getLast _ (List.ne_nil_of_mem hmem)]
      exact ⟨_, rfl⟩
  refine ⟨?_, hkeys, ?_, ?_⟩
  · intro h
    exact ((hkeys []).mp h).1 rfl
  · intro E hE
    rw [generateFieldName_ascii E hE _ (by decide)]
    decide
  · intro oc os hoc hos
    obtain ⟨report, hr, ⟨hd, hu⟩, hP⟩ := exists_report_of_passes _ punctuationWorkbook_report
    exact ⟨report, analyzeFile_of_small asciiLib oc os insertionOrder insertionOrder hoc hos
      insertionOrder_valid insertionOrder_valid punctuationWorkbook report hr hd hu, hP⟩

/-! ## The column cap -/

theorem le_findMaxColumns_fold (rows : Grid) (m : Nat) :
    m ≤ rows.foldl (fun maxCols row => if row.length > maxCols then row.length else maxCols) m ∧
    ∀ row ∈ rows, row.length ≤
      rows.foldl (fun maxCols row => if row.length > maxCols then row.length else maxCols) m := by
  induction rows generalizing m with
  | nil => simp
  | cons r rs ih =>
    simp only [List.foldl_cons]
    obtain ⟨h1, h2⟩ := ih (if r.length > m then r.length else m)
    have h3 : m ≤ (if r.length > m then r.length else m) ∧
        r.length ≤ (if r.length > m then r.length else m) := by
      split <;> omega
    refine ⟨by omega, ?_⟩
    intro row hrow
    rw [List.mem_cons] at hrow
    rcases hrow with hrow | hrow
    · rw [hrow]
      omega
    · exact h2 row hrow

theorem le_findMaxColumns (rows : Grid) (row : List GoString) (h : row ∈ rows) :
    row.length ≤ findMaxColumns rows :=
  (le_findMaxColumns_fold rows 0).2 row h

theorem rowRecords_cap (E : Stdlib) (amc : Nat) (row : List GoString) (orig : Nat)
    (h : row.length ≤ amc) :
    rowRecords E (if amc > 20 then 20 else amc) row orig = rowRecords E 20 row orig := by
  have hmin : min (if amc > 20 then 20 else amc) row.length = min 20 row.length := by
    split <;> omega
  unfold rowRecords
  rw [hmin]

theorem retainedCells_cap (E : Stdlib) (analysisRows : Grid) (rowMapping : List Nat)
    (amc : Nat) (h : ∀ row ∈ analysisRows, row.length ≤ amc) :
    retainedCells E (if amc > 20 then 20 else amc) analysisRows rowMapping =
      retainedCells E 20 analysisRows rowMapping := by
  unfold retainedCells
  congr 1
  apply List.map_congr_left
  intro p hp
  have hrow : p.1 ∈ analysisRows := (List.of_mem_zip hp).1
  exact rowRecords_cap E amc p.1 p.2 (h p.1 hrow)

/-- C24: every cell recorded in `headerCandidates` or `dataCells` has a column number
between 1 and 20. The two lists hold the records of the cells of the sampled rows in
their first 20 columns, whichever rows were sampled: a cell of a sampled row is
recorded exactly when its column index is below 20, it is not blank and the library
names it. When no sampled row has more than 20 columns this is every such cell of every
sampled row. -/
theorem classifyCells_column_cap (E : Stdlib) (rows : Grid) :
    ∃ (analysisRows : Grid) (rowMapping : List Nat) (cl : Classified),
      smartSample rows = some (analysisRows, rowMapping) ∧
      classifyCells E rows = some cl ∧
      (∀ c ∈ cl.headerCandidates ++ cl.dataCells, 1 ≤ c.column ∧ c.column ≤ 20) ∧
      (∀ c, c ∈ cl.headerCandidates ++ cl.dataCells ↔
        ∃ (i : Nat) (row : List GoString) (orig col : Nat) (raw name : GoString),
          analysisRows[i]? = some row ∧ rowMapping[i]? = some orig ∧ col < 20 ∧
          row[col]? = some raw ∧ trimSpace raw ≠ [] ∧
          E.coordinatesToCellName (col + 1) (orig + 1) = some name ∧
          c = cellRecord E name (trimSpace raw) orig col) ∧
      (findMaxColumns analysisRows ≤ 20 →
        ∀ (i : Nat) (row : List GoString) (orig col : Nat) (raw name : GoString),
          analysisRows[i]? = some row → rowMapping[i]? = some orig →
          row[col]? = some raw → trimSpace raw ≠ [] →
          E.coordinatesToCellName (col + 1) (orig + 1) = some name →
          cellRecord E name (trimSpace raw) orig col ∈
            cl.headerCandidates ++ cl.dataCells) := by
  obtain ⟨ar, rm, hs, hrel⟩ := smartSample_rows rows
  have hlen := hrel.length_eq
  have hproc := processRows_eq E rm
    (if findMaxColumns ar > 20 then 20 else findMaxColumns ar) ar 0 ⟨[], []⟩ (by omega)
  simp only [List.nil_append, List.drop_zero] at hproc
  rw [retainedCells_cap E ar rm _ (le_findMaxColumns ar)] at hproc
  have hmem : ∀ c, c ∈ (retainedCells E 20 ar rm).filter isHeaderCandidate ++
      (retainedCells E 20 ar rm).filter isDataCell ↔ c ∈ retainedCells E 20 ar rm := by
    intro c
    simp only [List.mem_append, List.mem_filter, isHeaderCandidate, isDataCell]
    constructor
    · rintro (h | h) <;> exact h.1
    · intro h
      cases c.fillable.is_fillable <;> cases c.is_header <;> simp [h]
  have hchar : ∀ c, c ∈ (retainedCells E 20 ar rm).filter isHeaderCandidate ++
      (retainedCells E 20 ar rm).filter isDataCell ↔
      ∃ (i : Nat) (row : List GoString) (orig col : Nat) (raw name : GoString),
        ar[i]? = some row ∧ rm[i]? = some orig ∧ col < 20 ∧
        row[col]? = some raw ∧ trimSpace raw ≠ [] ∧
        E.coordinatesToCellName (col + 1) (orig + 1) = some name ∧
        c = cellRecord E name (trimSpace raw) orig col := by
    intro c
    rw [hmem, mem_retainedCells]
  refine ⟨ar, rm, _, hs, by simp only [classifyCells, hs]; exact hproc, ?_, hchar, ?_⟩
  · intro c hc
    obtain ⟨i, row, orig, col, raw, name, -, -, hcol, -, -, -, rfl⟩ := (hchar c).mp hc
    simp only [cellRecord]
    omega
  · intro hmax i row orig col raw name hrow horig hraw hblank hname
    rw [hchar]
    have hrowmem : row ∈ ar := List.getElem?_mem hrow
    have h1 := le_findMaxColumns ar row hrowmem
    have h2 : col < row.length := by
      by_contra hcon
      rw [List.getElem?_eq_none (by omega)] at hraw
      cases hraw
    exact ⟨i, row, orig, col, raw, name, hrow, horig, by omega, hraw, hblank, hname, rfl⟩

/-! ## The inventory of fillable fields -/

theorem GoMap.sum_set {κ : Type} [DecidableEq κ] (m : GoMap κ Nat) (k : κ) (v : Nat) :
    ((GoMap.set m k v).map Prod.snd).sum + (GoMap.get? m k).getD 0 =
      (m.map Prod.snd).sum + v := by
  induction m with
  | nil => simp [GoMap.set, GoMap.get?]
  | cons e m ih =>
    obtain ⟨k1, v1⟩ := e
    simp only [GoMap.set, GoMap.get?]
    by_cases h1 : k1 = k
    · simp only [if_pos h1, List.map_cons, List.sum_cons, Option.getD_some]
      omega
    · simp only [if_neg h1, List.map_cons, List.sum_cons]
      omega

theorem extractFillableStep_fold (cells : List CellInfo) :
    (cells.foldl extractFillableStep ⟨[], [], [], 0⟩).fields =
      (cells.filter (fun c => c.fillable.is_fillable)).map fieldDataOf ∧
    (((cells.foldl extractFillableStep ⟨[], [], [], 0⟩).patterns.map Prod.fst).Nodup ∧
      ∀ p, GoMap.get? (cells.foldl extractFillableStep ⟨[], [], [], 0⟩).patterns p =
        if ((cells.filter (fun c => c.fillable.is_fillable)).filter
            (fun c => decide (c.fillable.pattern_type = p))).length = 0 then none
        else some ((cells.filter (fun c => c.fillable.is_fillable)).filter
            (fun c => decide (c.fillable.pattern_type = p))).length) ∧
    ((cells.foldl extractFillableStep ⟨[], [], [], 0⟩).patterns.map Prod.snd).sum =
      (cells.filter (fun c => c.fillable.is_fillable)).length ∧
    ((cells.foldl extractFillableStep ⟨[], [], [], 0⟩).field_mapping.map Prod.fst).Nodup ∧
    ∀ k, GoMap.get? (cells.foldl extractFillableStep ⟨[], [], [], 0⟩).field_mapping k =
      (((cells.filter (fun c => c.fillable.is_fillable)).filter
        (fun c => decide (c.fillable.field_name = k))).getLast?).map (fun c => c.cell) := by
  induction cells using List.reverseRecOn with
  | nil =>
    refine ⟨rfl, ⟨List.nodup_nil, fun p => rfl⟩, rfl, List.nodup_nil, fun k => rfl⟩
  | append_singleton cells c ih =>
    obtain ⟨ih1, ⟨ih2, ih3⟩, ih4, ih5, ih6⟩ := ih
    rw [List.foldl_append, List.foldl_cons, List.foldl_nil, List.filter_append]
    by_cases hf : c.fillable.is_fillable = true
    · have hc : [c].filter (fun c => c.fillable.is_fillable) = [c] := by simp [hf]
      have hstep : extractFillableStep (cells.foldl extractFillableStep ⟨[], [], [], 0⟩) c =
          { fields := (cells.foldl extractFillableStep ⟨[], [], [], 0⟩).fields ++
              [fieldDataOf c]
            patterns := (cells.foldl extractFillableStep ⟨[], [], [], 0⟩).patterns.set
              c.fillable.pattern_type
              ((GoMap.get? (cells.foldl extractFillableStep ⟨[], [], [], 0⟩).patterns
                c.fillable.pattern_type).getD 0 + 1)
            field_mapping :=
              (cells.foldl extractFillableStep ⟨[], [], [], 0⟩).field_mapping.set
                c.fillable.field_name c.cell
            total_count := (cells.foldl extractFillableStep ⟨[], [], [], 0⟩).total_count } := by
        simp [extractFillableStep, hf, fieldDataOf]
      rw [hstep, hc]
      simp only
      refine ⟨?_, ⟨GoMap.nodup_set _ _ _ ih2, ?_⟩, ?_, GoMap.nodup_set _ _ _ ih5, ?_⟩
      · rw [ih1, List.map_append, List.map_singleton]
      · intro p
        rw [GoMap.get?_set, List.filter_append, List.length_append]
        by_cases hp : c.fillable.pattern_type = p
        · rw [if_pos hp, ih3, hp]
          have h1 : ([c].filter (fun c => decide (c.fillable.pattern_type = p))).length = 1 := by
            simp [hp]
          rw [h1]
          split <;> simp_all
        · rw [if_neg hp, ih3]
          have h1 : ([c].filter (fun c => decide (c.fillable.pattern_type = p))).length = 0 := by
            simp [hp]
          rw [h1, Nat.add_zero]
      · have hs := GoMap.sum_set (cells.foldl extractFillableStep ⟨[], [], [], 0⟩).patterns
          c.fillable.pattern_type
          ((GoMap.get? (cells.foldl extractFillableStep ⟨[], [], [], 0⟩).patterns
            c.fillable.pattern_type).getD 0 + 1)
        rw [List.length_append, List.length_singleton]
        omega
      · intro k
        rw [GoMap.get?_set, List.filter_append]
        by_cases hk : c.fillable.field_name = k
        · rw [if_pos hk]
          have h1 : [c].filter (fun c => decide (c.fillable.field_name = k)) = [c] := by
            simp [hk]
          rw [h1, List.getLast?_concat]
          rfl
        · rw [if_neg hk, ih6]
          have h1 : [c].filter (fun c => decide (c.fillable.field_name = k)) = [] := by
            simp [hk]
          rw [h1, List.append_nil]
    · have hc : [c].filter (fun c => c.fillable.is_fillable) = [] := by simp [hf]
      have hstep : extractFillableStep (cells.foldl extractFillableStep ⟨[], [], [], 0⟩) c =
          cells.foldl extractFillableStep ⟨[], [], [], 0⟩ := by
        simp [extractFillableStep, hf]
      rw [hstep, hc, List.append_nil]
      exact ⟨ih1, ⟨ih2, ih3⟩, ih4, ih5, ih6⟩

/-- C28: `extractFillableFields` returns an inventory in which `fields` holds one entry
for every cell with `is_fillable` set, the data cells first and in the order of the
lists; `total_count` is the length of `fields` and the sum of the counts in `patterns`,
where every pattern type of a fillable cell is counted; `field_mapping` has one key per
field name of a fillable cell and maps it to the cell of the last fillable cell with
that name. -/
theorem extractFillableFields_spec (dataCells headerCandidates : List CellInfo) :
    (extractFillableFields dataCells headerCandidates).fields =
      (fillableCells dataCells headerCandidates).map fieldDataOf ∧
    (extractFillableFields dataCells headerCandidates).total_count =
      (extractFillableFields dataCells headerCandidates).fields.length ∧
    (extractFillableFields dataCells headerCandidates).total_count =
      ((extractFillableFields dataCells headerCandidates).patterns.map Prod.snd).sum ∧
    ((extractFillableFields dataCells headerCandidates).patterns.map Prod.fst).Nodup ∧
    (∀ p, GoMap.get? (extractFillableFields dataCells headerCandidates).patterns p =
      if ((fillableCells dataCells headerCandidates).filter
          (fun c => decide (c.fillable.pattern_type = p))).length = 0 then none
      else some ((fillableCells dataCells headerCandidates).filter
          (fun c => decide (c.fillable.pattern_type = p))).length) ∧
    ((extractFillableFields dataCells headerCandidates).field_mapping.map Prod.fst).Nodup ∧
    (∀ k, k ∈ (extractFillableFields dataCells headerCandidates).field_mapping.map Prod.fst ↔
      ∃ c ∈ fillableCells dataCells headerCandidates, c.fillable.field_name = k) ∧
    ∀ pre c post, fillableCells dataCells headerCandidates = pre ++ c :: post →
      (∀ d ∈ post, d.fillable.field_name ≠ c.fillable.field_name) →
      GoMap.get? (extractFillableFields dataCells headerCandidates).field_mapping
        c.fillable.field_name = some c.cell := by
  obtain ⟨h1, ⟨h2, h3⟩, h4, h5, h6⟩ := extractFillableStep_fold (dataCells ++ headerCandidates)
  unfold extractFillableFields fillableCells
  simp only
  refine ⟨h1, trivial, ?_, h2, h3, h5, ?_, ?_⟩
  · rw [h4, h1, List.length_map]
  · intro k
    rw [← GoMap.get?_isSome_iff, h6]
    constructor
    · rintro ⟨v, hv⟩
      rw [Option.map_eq_some'] at hv
      obtain ⟨c, hc, -⟩ := hv
      obtain ⟨pre, post, hcs, hck, -⟩ := filter_getLast?_split _ _ c hc
      exact ⟨c, by rw [hcs]; simp, of_decide_eq_true hck⟩
    · rintro ⟨c, hc, hck⟩
      have hmem : c ∈ ((dataCells ++ headerCandidates).filter
          (fun c => c.fillable.is_fillable)).filter
          (fun c => decide (c.fillable.field_name = k)) := by
        rw [List.mem_filter]
        exact ⟨hc, decide_eq_true hck⟩
      rw [List.getLast?_eq_getLast _ (List.ne_nil_of_mem hmem)]
      exact ⟨_, rfl⟩
  · intro pre c post hcs hpost
    rw [h6, hcs, List.filter_append, List.filter_cons]
    have hpostnil : post.filter
        (fun d => decide (d.fillable.field_name = c.fillable.field_name)) = [] := by
      rw [List.filter_eq_nil_iff]
      intro d hd
      simpa using hpost d hd
    simp [hpostnil]

/-! ## Floating point -/

theorem floorLog2_spec : ∀ (fuel n : Nat), 1 ≤ n → n ≤ fuel →
    2 ^ floorLog2 fuel n ≤ n ∧ n < 2 ^ (floorLog2 fuel n + 1) := by
  intro fuel
  induction fuel with
  | zero => intro n h1 h2; omega
  | succ fuel ih =>
    intro n h1 h2
    unfold floorLog2
    by_cases h : 2 ≤ n
    · rw [if_pos h]
      obtain ⟨ha, hb⟩ := ih (n / 2) (by omega) (by omega)
      constructor
      · rw [pow_succ]
        omega
      · rw [pow_succ] at hb ⊢
        omega
    · rw [if_neg h]
      have : n = 1 := by omega
      subst this
      exact ⟨by decide, by decide⟩

theorem floorLog2_mono (n m : Nat) (h1 : 1 ≤ n) (h : n ≤ m) :
    floorLog2 n n ≤ floorLog2 m m := by
  obtain ⟨ha, -⟩ := floorLog2_spec n n h1 (le_refl n)
  obtain ⟨-, hb⟩ := floorLog2_spec m m (by omega) (le_refl m)
  have hlt : 2 ^ floorLog2 n n < 2 ^ (floorLog2 m m + 1) := by omega
  have := (Nat.pow_lt_pow_iff_right (by decide : 1 < 2)).mp hlt
  omega

theorem roundHalfEven_le (N D M : Nat) (hD : 0 < D) (h : N ≤ M * D) :
    roundHalfEven N D ≤ M := by
  unfold roundHalfEven
  have hq : N / D ≤ M := Nat.div_le_of_le_mul (by rw [Nat.mul_comm]; exact h)
  have hdm := Nat.div_add_mod N D
  simp only
  split
  · next hup =>
    by_contra hcon
    have hqM : N / D = M := by omega
    rw [hqM, Nat.mul_comm] at hdm
    have hr : N % D = 0 := by omega
    rw [hr] at hup
    omega
  · exact hq

theorem le_roundHalfEven (N D M : Nat) (hD : 0 < D) (h : M * D ≤ N) :
    M ≤ roundHalfEven N D := by
  unfold roundHalfEven
  have hq : M ≤ N / D := (Nat.le_div_iff_mul_le hD).mpr h
  simp only
  split <;> omega

theorem roundHalfEven_mono (N N1 D : Nat) (hD : 0 < D) (h : N ≤ N1) :
    roundHalfEven N D ≤ roundHalfEven N1 D := by
  have hq : N / D ≤ N1 / D := Nat.div_le_div_right h
  have h1 := Nat.div_add_mod N D
  have h2 := Nat.div_add_mod N1 D
  have hr : N % D < D := Nat.mod_lt _ hD
  have hr1 : N1 % D < D := Nat.mod_lt _ hD
  unfold roundHalfEven
  simp only
  by_cases hlt : N / D < N1 / D
  · split <;> split <;> omega
  · have heq : N / D = N1 / D := by omega
    rw [heq] at h1 ⊢
    have hrr : N % D ≤ N1 % D := by omega
    split <;> split <;> omega

theorem roundHalfEven_one (N : Nat) : roundHalfEven N 1 = N := by
  unfold roundHalfEven
  simp [Nat.mod_one]

theorem F64.norm_toRat (m s : Nat) : (F64.norm m s).toRat = (m : ℚ) / 2 ^ s := by
  induction s generalizing m with
  | zero => simp [F64.norm, F64.toRat]
  | succ s ih =>
    unfold F64.norm
    by_cases h : m % 2 = 0
    · rw [if_pos h, ih]
      have hdvd : 2 ∣ m := Nat.dvd_of_mod_eq_zero h
      rw [Nat.cast_div hdvd (by norm_num), pow_succ]
      field_simp
      left
      ring
    · rw [if_neg h]
      rfl

theorem F64.toRat_nonneg (a : F64) : 0 ≤ a.toRat := by
  unfold F64.toRat
  positivity

theorem F64.round_le_one (N D : Nat) (h : N ≤ D) : (F64.round N D).toRat ≤ 1 := by
  unfold F64.round
  by_cases h0 : N = 0 ∨ D = 0
  · rw [if_pos h0]
    simp [F64.toRat]
  · rw [if_neg h0]
    have hN : 1 ≤ N := by omega
    have hD : 0 < D := by omega
    have hkl := floorLog2_mono N D hN h
    have hbound : ∀ e : Nat, (F64.norm (roundHalfEven (N * 2 ^ e) D) e).toRat ≤ 1 := by
      intro e
      rw [F64.norm_toRat, div_le_one (by positivity)]
      have := roundHalfEven_le (N * 2 ^ e) D (2 ^ e) hD
        (by rw [Nat.mul_comm]; exact Nat.mul_le_mul_left _ h)
      exact_mod_cast this
    simp only
    split
    · split
      · exact hbound _
      · omega
    · split
      · exact hbound _
      · omega

theorem F64.div_le_one (a b : F64) (h : a.toRat ≤ b.toRat) : (a.div b).toRat ≤ 1 := by
  unfold F64.div
  apply F64.round_le_one
  unfold F64.toRat at h
  rw [div_le_div_iff₀ (by positivity) (by positivity)] at h
  exact_mod_cast h

/-- The integer that `float64(n)` stands for. -/
theorem F64.ofNat_toRat (n : Nat) :
    (F64.ofNat n).toRat =
      ((if floorLog2 n n ≤ 52 then n
        else roundHalfEven n (2 ^ (floorLog2 n n - 52)) * 2 ^ (floorLog2 n n - 52) : Nat) : ℚ) := by
  unfold F64.ofNat F64.round
  by_cases h0 : n = 0
  · subst h0
    simp [F64.toRat, floorLog2]
  · have h1 : ¬ (n = 0 ∨ 1 = 0) := by omega
    rw [if_neg h1]
    have hl : floorLog2 1 1 = 0 := by decide
    obtain ⟨hk, -⟩ := floorLog2_spec n n (by omega) (le_refl n)
    simp only [hl, pow_zero, Nat.mul_one, Nat.one_mul, Nat.zero_add, Nat.add_zero,
      Nat.sub_zero, ge_iff_le, hk, if_true]
    by_cases h52 : floorLog2 n n ≤ 52
    · rw [if_pos h52, if_pos h52, roundHalfEven_one, F64.norm_toRat]
      push_cast
      field_simp
    · rw [if_neg h52, if_neg h52]
      simp [F64.toRat]

theorem F64.ofNat_mono (n m : Nat) (h : n ≤ m) : (F64.ofNat n).toRat ≤ (F64.ofNat m).toRat := by
  rw [F64.ofNat_toRat, F64.ofNat_toRat]
  norm_cast
  by_cases h0 : n = 0
  · subst h0
    simp [floorLog2]
  · have hn1 : 1 ≤ n := by omega
    have hkk := floorLog2_mono n m hn1 h
    obtain ⟨hn2, hn3⟩ := floorLog2_spec n n hn1 (le_refl n)
    obtain ⟨hm2, hm3⟩ := floorLog2_spec m m (by omega) (le_refl m)
    have hbig : ∀ x : Nat, 52 < floorLog2 x x → 2 ^ floorLog2 x x ≤ x →
        2 ^ floorLog2 x x ≤
          roundHalfEven x (2 ^ (floorLog2 x x - 52)) * 2 ^ (floorLog2 x x - 52) := by
      intro x hx hx2
      have h52 : 2 ^ floorLog2 x x = 2 ^ 52 * 2 ^ (floorLog2 x x - 52) := by
        rw [← pow_add]
        congr 1
        omega
      have := le_roundHalfEven x (2 ^ (floorLog2 x x - 52)) (2 ^ 52) (by positivity)
        (by rw [← h52]; exact hx2)
      rw [h52]
      exact Nat.mul_le_mul_right _ this
    by_cases hkn : floorLog2 n n ≤ 52
    · rw [if_pos hkn]
      by_cases hkm : floorLog2 m m ≤ 52
      · rw [if_pos hkm]
        exact h
      · rw [if_neg hkm]
        have h1 := hbig m (by omega) hm2
        have h2 : 2 ^ (floorLog2 n n + 1) ≤ 2 ^ floorLog2 m m :=
          Nat.pow_le_pow_right (by decide) (by omega)
        omega
    · rw [if_neg hkn]
      have hkm : ¬ floorLog2 m m ≤ 52 := by omega
      rw [if_neg hkm]
      by_cases heq : floorLog2 n n = floorLog2 m m
      · rw [heq]
        exact Nat.mul_le_mul_right _ (roundHalfEven_mono n m _ (by positivity) h)
      · have h1 := hbig m (by omega) hm2
        have h2 : 2 ^ (floorLog2 n n + 1) ≤ 2 ^ floorLog2 m m :=
          Nat.pow_le_pow_right (by decide) (by omega)
        have h53 : 2 ^ (floorLog2 n n + 1) = 2 ^ 53 * 2 ^ (floorLog2 n n - 52) := by
          rw [← pow_add]
          congr 1
          omega
        have h3 := roundHalfEven_le n (2 ^ (floorLog2 n n - 52)) (2 ^ 53) (by positivity)
          (by rw [← h53]; omega)
        have h4 := Nat.mul_le_mul_right (2 ^ (floorLog2 n n - 52)) h3
        omega
theorem roundHalfEven_error (A D : Nat) (hD : 0 < D) :
    2 * (roundHalfEven A D * D) ≤ 2 * A + D ∧ 2 * A ≤ 2 * (roundHalfEven A D * D) + D := by
  have hx : A / D * D + A % D = A := Nat.div_add_mod' A D
  have hr : A % D < D := Nat.mod_lt _ hD
  unfold roundHalfEven
  simp only
  split
  · rw [Nat.add_mul, Nat.one_mul]
    omega
  · omega

theorem round_error_scaled (N D S : Nat) (hD : 0 < D) (hS : 0 < S)
    (h : 2 ^ 52 * D ≤ N * S) :
    |((roundHalfEven (N * S) D : Nat) : ℚ) / S - (N : ℚ) / D| * 2 ^ 53 ≤ (N : ℚ) / D := by
  obtain ⟨h1, h2⟩ := roundHalfEven_error (N * S) D hD
  have hd : (0 : ℚ) < D := by exact_mod_cast hD
  have hs : (0 : ℚ) < S := by exact_mod_cast hS
  have h1q : 2 * (((roundHalfEven (N * S) D : Nat) : ℚ) * D) ≤ 2 * ((N : ℚ) * S) + D := by
    exact_mod_cast h1
  have h2q : 2 * ((N : ℚ) * S) ≤ 2 * (((roundHalfEven (N * S) D : Nat) : ℚ) * D) + D := by
    exact_mod_cast h2
  have hq : (2 : ℚ) ^ 52 * D ≤ (N : ℚ) * S := by exact_mod_cast h
  have hx : ((roundHalfEven (N * S) D : Nat) : ℚ) / S - (N : ℚ) / D =
      (((roundHalfEven (N * S) D : Nat) : ℚ) * D - (N : ℚ) * S) / (S * D) := by
    field_simp
    ring
  have habs : |((roundHalfEven (N * S) D : Nat) : ℚ) * D - (N : ℚ) * S| ≤ (D : ℚ) / 2 := by
    rw [abs_le]
    constructor <;> linarith
  rw [hx, abs_div, abs_of_pos (mul_pos hs hd), div_mul_eq_mul_div,
    div_le_div_iff₀ (mul_pos hs hd) hd]
  have h53 : (2 : ℚ) ^ 53 = 2 * 2 ^ 52 := by norm_num
  rw [h53]
  have hnn : (0 : ℚ) ≤ |((roundHalfEven (N * S) D : Nat) : ℚ) * D - (N : ℚ) * S| :=
    abs_nonneg _
  nlinarith [mul_le_mul_of_nonneg_right habs (le_of_lt hd),
    mul_le_mul_of_nonneg_right hq (le_of_lt hd)]

theorem round_error_coarse (N D J : Nat) (hD : 0 < D) (hJ : 0 < J)
    (h : 2 ^ 52 * J * D ≤ N) :
    |((roundHalfEven N (D * J) * J : Nat) : ℚ) - (N : ℚ) / D| * 2 ^ 53 ≤ (N : ℚ) / D := by
  obtain ⟨h1, h2⟩ := roundHalfEven_error N (D * J) (Nat.mul_pos hD hJ)
  have hd : (0 : ℚ) < D := by exact_mod_cast hD
  have hj : (0 : ℚ) < J := by exact_mod_cast hJ
  have h1q : 2 * (((roundHalfEven N (D * J) : Nat) : ℚ) * (D * J)) ≤ 2 * (N : ℚ) + D * J := by
    exact_mod_cast h1
  have h2q : 2 * (N : ℚ) ≤ 2 * (((roundHalfEven N (D * J) : Nat) : ℚ) * (D * J)) + D * J := by
    exact_mod_cast h2
  have hq : (2 : ℚ) ^ 52 * J * D ≤ (N : ℚ) := by exact_mod_cast h
  have hx : ((roundHalfEven N (D * J) * J : Nat) : ℚ) - (N : ℚ) / D =
      (((roundHalfEven N (D * J) : Nat) : ℚ) * (D * J) - (N : ℚ)) / D := by
    push_cast
    field_simp
    ring
  have habs : |((roundHalfEven N (D * J) : Nat) : ℚ) * (D * J) - (N : ℚ)| ≤ (D : ℚ) * J / 2 := by
    rw [abs_le]
    constructor <;> linarith
  rw [hx, abs_div, abs_of_pos hd, div_mul_eq_mul_div, div_le_div_iff₀ hd hd]
  have h53 : (2 : ℚ) ^ 53 = 2 * 2 ^ 52 := by norm_num
  rw [h53]
  nlinarith [mul_le_mul_of_nonneg_right habs (le_of_lt hd),
    mul_le_mul_of_nonneg_right hq (le_of_lt hd)]

/-- The rounding of `F64.round` is correct to 53 bits: the relative error is at most
`2 ^ -53`. -/
theorem F64.round_error (N D : Nat) (hN : 0 < N) (hD : 0 < D) :
    |(F64.round N D).toRat - (N : ℚ) / D| * 2 ^ 53 ≤ (N : ℚ) / D := by
  obtain ⟨hk1, hk2⟩ := floorLog2_spec N N hN (le_refl N)
  obtain ⟨hl1, hl2⟩ := floorLog2_spec D D hD (le_refl D)
  unfold F64.round
  have h0 : ¬ (N = 0 ∨ D = 0) := by omega
  rw [if_neg h0]
  simp only
  by_cases hc : N * 2 ^ floorLog2 D D ≥ D * 2 ^ floorLog2 N N
  · rw [if_pos hc]
    by_cases hs : floorLog2 N N ≤ floorLog2 D D + 52
    · rw [if_pos hs, F64.norm_toRat]
      have hpow : 2 ^ (52 + floorLog2 D D - floorLog2 N N) * 2 ^ floorLog2 N N =
          2 ^ 52 * 2 ^ floorLog2 D D := by
        rw [← pow_add, ← pow_add]
        congr 1
        omega
      have := round_error_scaled N D (2 ^ (52 + floorLog2 D D - floorLog2 N N)) hD
        (by positivity) (by
          apply Nat.le_of_mul_le_mul_right _ (by positivity : 0 < 2 ^ floorLog2 D D)
          calc 2 ^ 52 * D * 2 ^ floorLog2 D D
              = D * (2 ^ 52 * 2 ^ floorLog2 D D) := by ring
            _ = D * 2 ^ floorLog2 N N * 2 ^ (52 + floorLog2 D D - floorLog2 N N) := by
                rw [← hpow]; ring
            _ ≤ N * 2 ^ floorLog2 D D * 2 ^ (52 + floorLog2 D D - floorLog2 N N) :=
                Nat.mul_le_mul_right _ hc
            _ = N * 2 ^ (52 + floorLog2 D D - floorLog2 N N) * 2 ^ floorLog2 D D := by ring)
      push_cast at this ⊢
      exact this
    · rw [if_neg hs]
      have hpow : 2 ^ (floorLog2 N N - floorLog2 D D - 52) * 2 ^ 52 * 2 ^ floorLog2 D D =
          2 ^ floorLog2 N N := by
        rw [← pow_add, ← pow_add]
        congr 1
        omega
      have := round_error_coarse N D (2 ^ (floorLog2 N N - floorLog2 D D - 52)) hD
        (by positivity) (by
          apply Nat.le_of_mul_le_mul_right _ (by positivity : 0 < 2 ^ floorLog2 D D)
          calc 2 ^ 52 * 2 ^ (floorLog2 N N - floorLog2 D D - 52) * D * 2 ^ floorLog2 D D
              = D * (2 ^ (floorLog2 N N - floorLog2 D D - 52) * 2 ^ 52 *
                  2 ^ floorLog2 D D) := by ring
            _ = D * 2 ^ floorLog2 N N := by rw [hpow]
            _ ≤ N * 2 ^ floorLog2 D D := hc)
      simp only [F64.toRat, pow_zero, div_one]
      exact this
  · rw [if_neg hc]
    have hD2 : D ≤ 2 * 2 ^ floorLog2 D D := by
      rw [pow_succ] at hl2
      omega
    by_cases hs : floorLog2 N N ≤ floorLog2 D D + 53
    · rw [if_pos hs, F64.norm_toRat]
      have hpow : 2 ^ (53 + floorLog2 D D - floorLog2 N N) * 2 ^ floorLog2 N N =
          2 ^ 52 * (2 * 2 ^ floorLog2 D D) := by
        rw [← pow_succ', ← pow_add, ← pow_add]
        congr 1
        omega
      have := round_error_scaled N D (2 ^ (53 + floorLog2 D D - floorLog2 N N)) hD
        (by positivity) (by
          calc 2 ^ 52 * D ≤ 2 ^ 52 * (2 * 2 ^ floorLog2 D D) := Nat.mul_le_mul_left _ hD2
            _ = 2 ^ floorLog2 N N * 2 ^ (53 + floorLog2 D D - floorLog2 N N) := by
                rw [← hpow]; ring
            _ ≤ N * 2 ^ (53 + floorLog2 D D - floorLog2 N N) := Nat.mul_le_mul_right _ hk1)
      push_cast at this ⊢
      exact this
    · rw [if_neg hs]
      have hpow : 2 ^ 52 * 2 ^ (floorLog2 N N - floorLog2 D D - 53) *
          (2 * 2 ^ floorLog2 D D) = 2 ^ floorLog2 N N := by
        rw [← pow_succ', ← pow_add, ← pow_add]
        congr 1
        omega
      have := round_error_coarse N D (2 ^ (floorLog2 N N - floorLog2 D D - 53)) hD
        (by positivity) (by
          calc 2 ^ 52 * 2 ^ (floorLog2 N N - floorLog2 D D - 53) * D
              ≤ 2 ^ 52 * 2 ^ (floorLog2 N N - floorLog2 D D - 53) *
                  (2 * 2 ^ floorLog2 D D) := Nat.mul_le_mul_left _ hD2
            _ = 2 ^ floorLog2 N N := hpow
            _ ≤ N := hk1)
      simp only [F64.toRat, pow_zero, div_one]
      exact this

theorem F64.ofNat_exact (n : Nat) (h : n < 2 ^ 53) : (F64.ofNat n).toRat = n := by
  rw [F64.ofNat_toRat]
  by_cases h0 : n = 0
  · subst h0
    simp [floorLog2]
  · obtain ⟨hk, -⟩ := floorLog2_spec n n (by omega) (le_refl n)
    have hlt : 2 ^ floorLog2 n n < 2 ^ 53 := by omega
    have := (Nat.pow_lt_pow_iff_right (by decide : 1 < 2)).mp hlt
    rw [if_pos (by omega)]

theorem F64.div_error (a b : F64) (ha : 0 < a.mant) (hb : 0 < b.mant) :
    |(a.div b).toRat - a.toRat / b.toRat| * 2 ^ 53 ≤ a.toRat / b.toRat := by
  have h := F64.round_error (a.mant * 2 ^ b.scale) (b.mant * 2 ^ a.scale)
    (by positivity) (by positivity)
  have hq : ((a.mant * 2 ^ b.scale : Nat) : ℚ) / ((b.mant * 2 ^ a.scale : Nat) : ℚ) =
      a.toRat / b.toRat := by
    have hbq : (b.mant : ℚ) ≠ 0 := by exact_mod_cast (by omega : b.mant ≠ 0)
    unfold F64.toRat
    push_cast
    field_simp
    ring
  rw [hq] at h
  exact h
/-! ## Density and column counts -/

theorem scanRow_fold (rows : Grid) :
    (((rows.foldl scanRow ⟨[], 0, 0, 0, 0⟩).columnCounts.map Prod.fst).Nodup ∧
      ∀ n, GoMap.get? (rows.foldl scanRow ⟨[], 0, 0, 0, 0⟩).columnCounts n =
        if lengthCount rows n = 0 then none else some (lengthCount rows n)) ∧
    (rows.foldl scanRow ⟨[], 0, 0, 0, 0⟩).totalCells = cellCount rows ∧
    (rows.foldl scanRow ⟨[], 0, 0, 0, 0⟩).filledCells = nonBlankCells rows := by
  induction rows using List.reverseRecOn with
  | nil => exact ⟨⟨List.nodup_nil, fun n => rfl⟩, rfl, rfl⟩
  | append_singleton rows row ih =>
    obtain ⟨⟨ih1, ih2⟩, ih3, ih4⟩ := ih
    rw [List.foldl_append, List.foldl_cons, List.foldl_nil]
    refine ⟨⟨?_, ?_⟩, ?_, ?_⟩
    · exact GoMap.nodup_set _ _ _ ih1
    · intro n
      show GoMap.get? (GoMap.set _ _ _) n = _
      rw [GoMap.get?_set]
      have hcc : lengthCount (rows ++ [row]) n =
          lengthCount rows n + (if row.length = n then 1 else 0) := by
        unfold lengthCount
        rw [List.filter_append, List.length_append]
        by_cases h : row.length = n <;> simp [h]
      rw [hcc]
      by_cases h : row.length = n
      · rw [if_pos h, if_pos h, ih2 row.length, h]
        by_cases hz : lengthCount rows n = 0
        · simp [hz]
        · simp [hz]
      · rw [if_neg h, if_neg h, Nat.add_zero]
        exact ih2 n
    · show (rows.foldl scanRow ⟨[], 0, 0, 0, 0⟩).totalCells + row.length = _
      rw [ih3]
      simp [cellCount]
    · show (rows.foldl scanRow ⟨[], 0, 0, 0, 0⟩).filledCells + nonEmptyCount row = _
      rw [ih4, nonEmptyCount_eq]
      simp [nonBlankCells, nonBlankCount]

theorem nonBlankCells_le_cellCount (rows : Grid) : nonBlankCells rows ≤ cellCount rows := by
  unfold nonBlankCells cellCount
  calc (rows.flatten.filter _).length ≤ rows.flatten.length := List.length_filter_le _ _
    _ = (rows.map List.length).sum := List.length_flatten rows

theorem F64.mant_pos_of_toRat_pos (a : F64) (h : 0 < a.toRat) : 0 < a.mant := by
  by_contra hcon
  have h0 : a.mant = 0 := by omega
  unfold F64.toRat at h
  rw [h0] at h
  simp at h

/-- C22: for a sheet of at least 2 rows `data_density` is the `float64` quotient of the
number of cells that are not blank after trimming by the total number of cells, the
total being the sum of the lengths of the rows (no padding), and 0 when there is no
cell; it lies between 0 and 1. The quotient is the exact one rounded to 53 bits: for
fewer than `2 ^ 53` cells it differs from the exact quotient by at most the fraction
`2 ^ -53` of it. -/
theorem analyzeTableStructure_data_density (o : MapOrder) (rows : Grid)
    (h : 2 ≤ rows.length) :
    (analyzeTableStructure o rows).data_density =
      (if cellCount rows = 0 then ⟨0, 0⟩
        else (F64.ofNat (nonBlankCells rows)).div (F64.ofNat (cellCount rows))) ∧
    cellCount rows = (rows.map List.length).sum ∧
    (cellCount rows = 0 → (analyzeTableStructure o rows).data_density.toRat = 0) ∧
    0 ≤ (analyzeTableStructure o rows).data_density.toRat ∧
    (analyzeTableStructure o rows).data_density.toRat ≤ 1 ∧
    (nonBlankCells rows = 0 → (analyzeTableStructure o rows).data_density.toRat = 0) ∧
    (cellCount rows < 2 ^ 53 → 0 < nonBlankCells rows →
      |(analyzeTableStructure o rows).data_density.toRat -
          (nonBlankCells rows : ℚ) / (cellCount rows : ℚ)| * 2 ^ 53 ≤
        (nonBlankCells rows : ℚ) / (cellCount rows : ℚ)) := by
  obtain ⟨-, ht, hf⟩ := scanRow_fold rows
  have hlen : ¬ rows.length < 2 := by omega
  have hle := nonBlankCells_le_cellCount rows
  have hd : (analyzeTableStructure o rows).data_density =
      (if cellCount rows = 0 then ⟨0, 0⟩
        else (F64.ofNat (nonBlankCells rows)).div (F64.ofNat (cellCount rows))) := by
    simp only [analyzeTableStructure, hlen, if_false, ht, hf]
    by_cases hz : cellCount rows = 0
    · simp [hz]
    · have : cellCount rows > 0 := by omega
      simp [hz, this]
  refine ⟨hd, rfl, ?_, F64.toRat_nonneg _, ?_, ?_, ?_⟩
  · intro hz
    rw [hd, if_pos hz]
    simp [F64.toRat]
  · rw [hd]
    split
    · simp [F64.toRat]
    · exact F64.div_le_one _ _ (F64.ofNat_mono _ _ hle)
  · intro hz
    rw [hd, hz]
    split
    · simp [F64.toRat]
    · simp [F64.div, F64.ofNat, F64.round, F64.toRat]
  · intro hsmall hpos
    have hc0 : ¬ cellCount rows = 0 := by omega
    rw [hd, if_neg hc0]
    have ha := F64.ofNat_exact (nonBlankCells rows) (by omega)
    have hb := F64.ofNat_exact (cellCount rows) hsmall
    have hm := F64.div_error (F64.ofNat (nonBlankCells rows)) (F64.ofNat (cellCount rows))
      (F64.mant_pos_of_toRat_pos _ (by rw [ha]; exact_mod_cast hpos))
      (F64.mant_pos_of_toRat_pos _ (by rw [hb]; exact_mod_cast (by omega : 0 < cellCount rows)))
    rw [ha, hb] at hm
    exact hm
theorem analyzeTableStructure_data_density_witness :
    2 ≤ [["a".toList, "".toList], ["b".toList]].length ∧
    0 ≤ (analyzeTableStructure insertionOrder
      [["a".toList, "".toList], ["b".toList]]).data_density.toRat ∧
    (analyzeTableStructure insertionOrder
      [["a".toList, "".toList], ["b".toList]]).data_density.toRat ≤ 1 :=
  ⟨by decide,
    (analyzeTableStructure_data_density insertionOrder
      [["a".toList, "".toList], ["b".toList]] (by decide)).2.2.2.1,
    (analyzeTableStructure_data_density insertionOrder
      [["a".toList, "".toList], ["b".toList]] (by decide)).2.2.2.2.1⟩

theorem maxCount_fold {α : Type} (entries : List (α × Nat)) (st : α × Nat) :
    st.2 ≤ (entries.foldl (fun st entry => if entry.2 > st.2 then (entry.1, entry.2)
      else st) st).2 ∧
    (∀ e ∈ entries, e.2 ≤ (entries.foldl (fun st entry => if entry.2 > st.2 then
      (entry.1, entry.2) else st) st).2) ∧
    ((entries.foldl (fun st entry => if entry.2 > st.2 then (entry.1, entry.2)
      else st) st) = st ∨
      (entries.foldl (fun st entry => if entry.2 > st.2 then (entry.1, entry.2)
      else st) st) ∈ entries) := by
  induction entries generalizing st with
  | nil => simp
  | cons e es ih =>
    simp only [List.foldl_cons]
    by_cases hgt : e.2 > st.2
    · rw [if_pos hgt]
      obtain ⟨h1, h2, h3⟩ := ih (e.1, e.2)
      refine ⟨?_, ?_, ?_⟩
      · simp only at h1; omega
      · intro x hx
        rw [List.mem_cons] at hx
        rcases hx with hx | hx
        · rw [hx]; exact h1
        · exact h2 x hx
      · rcases h3 with h3 | h3
        · right
          rw [h3]
          exact List.mem_cons_self _ _
        · exact Or.inr (List.mem_cons_of_mem _ h3)
    · rw [if_neg hgt]
      obtain ⟨h1, h2, h3⟩ := ih st
      refine ⟨h1, ?_, ?_⟩
      · intro x hx
        rw [List.mem_cons] at hx
        rcases hx with hx | hx
        · rw [hx]; omega
        · exact h2 x hx
      · rcases h3 with h3 | h3
        · exact Or.inl h3
        · exact Or.inr (List.mem_cons_of_mem _ h3)

theorem nodup_length_le_one_iff {α : Type} (l : List α) (h : l.Nodup) :
    l.length ≤ 1 ↔ ∀ a ∈ l, ∀ b ∈ l, a = b := by
  constructor
  · intro hl a ha b hb
    match l, hl, ha, hb with
    | [x], _, ha, hb =>
      rw [List.mem_singleton] at ha hb
      rw [ha, hb]
  · intro hall
    match l, h, hall with
    | [], _, _ => simp
    | [_], _, _ => simp
    | x :: y :: rest, h, hall =>
      exfalso
      have hxy := hall x (List.mem_cons_self _ _) y
        (List.mem_cons_of_mem _ (List.mem_cons_self _ _))
      rw [List.nodup_cons] at h
      apply h.1
      rw [hxy]
      exact List.mem_cons_self _ _

theorem columnCounts_keys (rows : Grid) :
    ((rows.foldl scanRow ⟨[], 0, 0, 0, 0⟩).columnCounts.map Prod.fst).Nodup ∧
    (∀ n, n ∈ (rows.foldl scanRow ⟨[], 0, 0, 0, 0⟩).columnCounts.map Prod.fst ↔
      ∃ row ∈ rows, row.length = n) ∧
    (rows.foldl scanRow ⟨[], 0, 0, 0, 0⟩).columnCounts.length =
      (rows.map List.length).dedup.length := by
  obtain ⟨⟨hnd, hget⟩, -, -⟩ := scanRow_fold rows
  have hmem : ∀ n, n ∈ (rows.foldl scanRow ⟨[], 0, 0, 0, 0⟩).columnCounts.map Prod.fst ↔
      ∃ row ∈ rows, row.length = n := by
    intro n
    rw [← GoMap.get?_isSome_iff, hget]
    unfold lengthCount
    constructor
    · rintro ⟨v, hv⟩
      split at hv
      · cases hv
      · next hz =>
        obtain ⟨row, hrow⟩ := List.exists_mem_of_length_pos (Nat.pos_of_ne_zero hz)
        rw [List.mem_filter] at hrow
        exact ⟨row, hrow.1, of_decide_eq_true hrow.2⟩
    · rintro ⟨row, hrow, hlen⟩
      have hin : row ∈ rows.filter (fun row => decide (row.length = n)) := by
        rw [List.mem_filter]
        exact ⟨hrow, decide_eq_true hlen⟩
      have hpos := List.length_pos_of_mem hin
      rw [if_neg (by omega)]
      exact ⟨_, rfl⟩
  refine ⟨hnd, hmem, ?_⟩
  have hperm : ((rows.foldl scanRow ⟨[], 0, 0, 0, 0⟩).columnCounts.map Prod.fst).Perm
      (rows.map List.length).dedup := by
    rw [List.perm_ext_iff_of_nodup hnd (List.nodup_dedup _)]
    intro n
    rw [hmem, List.mem_dedup, List.mem_map]
  have := hperm.length_eq
  rw [List.length_map] at this
  exact this

/-- C23: for a sheet of at least 2 rows, whatever the order in which the map of the
column counts is visited, `uniform_cols` is true exactly when all rows have the same
length, and then `common_column_count` is that length and `column_variations` is 1;
otherwise `uniform_cols` is false, `varying_widths` is true, `column_variations` is the
number of distinct row lengths and `common_column_count` is a row length shared by at
least as many rows as any other length. -/
theorem analyzeTableStructure_columns (o : MapOrder) (ho : o.Valid) (rows : Grid)
    (h : 2 ≤ rows.length) :
    ((analyzeTableStructure o rows).uniform_cols = true ↔
      ∀ r1 ∈ rows, ∀ r2 ∈ rows, r1.length = r2.length) ∧
    (analyzeTableStructure o rows).varying_widths =
      !(analyzeTableStructure o rows).uniform_cols ∧
    ((analyzeTableStructure o rows).uniform_cols = true →
      (analyzeTableStructure o rows).column_variations = some 1 ∧
      ∀ r ∈ rows, (analyzeTableStructure o rows).common_column_count = some r.length) ∧
    ((analyzeTableStructure o rows).uniform_cols = false →
      (analyzeTableStructure o rows).varying_widths = true ∧
      (analyzeTableStructure o rows).column_variations =
        some (rows.map List.length).dedup.length ∧
      ∃ n, (analyzeTableStructure o rows).common_column_count = some n ∧
        0 < lengthCount rows n ∧ ∀ m, lengthCount rows m ≤ lengthCount rows n) := by
  obtain ⟨hnd, hmem, hlen⟩ := columnCounts_keys rows
  obtain ⟨⟨-, hget⟩, -, -⟩ := scanRow_fold rows
  have hperm := MapOrder.iterate_perm o ho 0 (rows.foldl scanRow ⟨[], 0, 0, 0, 0⟩).columnCounts
  have h2 : ¬ rows.length < 2 := by omega
  have hu : (analyzeTableStructure o rows).uniform_cols =
      !decide ((rows.foldl scanRow ⟨[], 0, 0, 0, 0⟩).columnCounts.length > 1) := by
    simp [analyzeTableStructure, h2]
  have hv : (analyzeTableStructure o rows).varying_widths =
      decide ((rows.foldl scanRow ⟨[], 0, 0, 0, 0⟩).columnCounts.length > 1) := by
    simp [analyzeTableStructure, h2]
  have hall : (rows.foldl scanRow ⟨[], 0, 0, 0, 0⟩).columnCounts.length ≤ 1 ↔
      ∀ r1 ∈ rows, ∀ r2 ∈ rows, r1.length = r2.length := by
    rw [← List.length_map _ Prod.fst, nodup_length_le_one_iff _ hnd]
    constructor
    · intro hh r1 hr1 r2 hr2
      exact hh _ ((hmem _).mpr ⟨r1, hr1, rfl⟩) _ ((hmem _).mpr ⟨r2, hr2, rfl⟩)
    · intro hh a ha b hb
      obtain ⟨r1, hr1, rfl⟩ := (hmem a).mp ha
      obtain ⟨r2, hr2, rfl⟩ := (hmem b).mp hb
      exact hh r1 hr1 r2 hr2
  have hin : ∀ e : Nat × Nat,
      e ∈ o.iterate 0 (rows.foldl scanRow ⟨[], 0, 0, 0, 0⟩).columnCounts ↔
      lengthCount rows e.1 = e.2 ∧ e.2 ≠ 0 := by
    intro e
    rw [hperm.mem_iff, ← GoMap.get?_eq_some_iff _ _ _ hnd, hget]
    by_cases hz : lengthCount rows e.1 = 0
    · rw [if_pos hz]
      constructor
      · intro h; cases h
      · rintro ⟨h1, h2⟩; omega
    · rw [if_neg hz]
      constructor
      · intro h
        have := Option.some.inj h
        exact ⟨this, by omega⟩
      · rintro ⟨h1, -⟩
        rw [h1]
  refine ⟨?_, ?_, ?_, ?_⟩
  · rw [hu, ← hall]
    simp
  · rw [hu, hv]
    simp
  · intro hunif
    rw [hu] at hunif
    have hle : (rows.foldl scanRow ⟨[], 0, 0, 0, 0⟩).columnCounts.length ≤ 1 := by
      simpa using hunif
    have hnv : ¬ (rows.foldl scanRow ⟨[], 0, 0, 0, 0⟩).columnCounts.length > 1 := by omega
    refine ⟨by simp [analyzeTableStructure, h2, hnv], ?_⟩
    intro r hr
    have hcc : (analyzeTableStructure o rows).common_column_count =
        ((o.iterate 0 (rows.foldl scanRow ⟨[], 0, 0, 0, 0⟩).columnCounts).head?).map
          Prod.fst := by
      simp [analyzeTableStructure, h2, hnv]
    rw [hcc, MapOrder.iterate_of_length_le_one o ho 0 _ hle]
    have hkey := (hmem r.length).mpr ⟨r, hr, rfl⟩
    have hpos := List.length_pos_of_mem hkey
    rw [List.length_map] at hpos
    obtain ⟨e, he⟩ := List.length_eq_one.mp (by omega :
      (rows.foldl scanRow ⟨[], 0, 0, 0, 0⟩).columnCounts.length = 1)
    rw [he] at hkey ⊢
    simp only [List.map_cons, List.map_nil, List.mem_singleton] at hkey
    simp [hkey]
  · intro hunif
    rw [hu] at hunif
    have hgt : (rows.foldl scanRow ⟨[], 0, 0, 0, 0⟩).columnCounts.length > 1 := by
      simpa using hunif
    refine ⟨by rw [hv]; simpa using hgt, ?_, ?_⟩
    · rw [← hlen]
      simp [analyzeTableStructure, h2, hgt]
    · have hcc : (analyzeTableStructure o rows).common_column_count =
          some (commonColumnCount
            (o.iterate 0 (rows.foldl scanRow ⟨[], 0, 0, 0, 0⟩).columnCounts)).1 := by
        simp [analyzeTableStructure, h2, hgt]
      obtain ⟨-, hmax, hmemr⟩ := maxCount_fold
        (o.iterate 0 (rows.foldl scanRow ⟨[], 0, 0, 0, 0⟩).columnCounts) ((0 : Nat), 0)
      obtain ⟨row0, hrow0⟩ : ∃ row0, row0 ∈ rows := by
        cases rows with
        | nil => simp at h
        | cons a l => exact ⟨a, List.mem_cons_self _ _⟩
      have hpos0 : 0 < lengthCount rows row0.length := by
        unfold lengthCount
        apply List.length_pos_of_mem (a := row0)
        rw [List.mem_filter]
        exact ⟨hrow0, by simp⟩
      have hbound : ∀ m, lengthCount rows m ≤ (commonColumnCount
          (o.iterate 0 (rows.foldl scanRow ⟨[], 0, 0, 0, 0⟩).columnCounts)).2 := by
        intro m
        by_cases hz : lengthCount rows m = 0
        · rw [hz]; exact Nat.zero_le _
        · exact hmax (m, lengthCount rows m) ((hin _).mpr ⟨rfl, hz⟩)
      have hres : commonColumnCount
          (o.iterate 0 (rows.foldl scanRow ⟨[], 0, 0, 0, 0⟩).columnCounts) ∈
          o.iterate 0 (rows.foldl scanRow ⟨[], 0, 0, 0, 0⟩).columnCounts := by
        rcases hmemr with hm | hm
        · exfalso
          have := hbound row0.length
          unfold commonColumnCount at this
          rw [hm] at this
          simp only at this
          omega
        · exact hm
      obtain ⟨hr1, hr2⟩ := (hin _).mp hres
      refine ⟨_, hcc, ?_, ?_⟩
      · rw [hr1]; omega
      · intro m
        rw [hr1]
        exact hbound m

theorem analyzeTableStructure_columns_witness :
    insertionOrder.Valid ∧
    2 ≤ [["a".toList, "".toList], ["b".toList]].length ∧
    ((analyzeTableStructure insertionOrder
        [["a".toList, "".toList], ["b".toList]]).uniform_cols = true ↔
      ∀ r1 ∈ [["a".toList, "".toList], ["b".toList]],
        ∀ r2 ∈ [["a".toList, "".toList], ["b".toList]], r1.length = r2.length) :=
  ⟨insertionOrder_valid, by decide,
    (analyzeTableStructure_columns insertionOrder insertionOrder_valid
      [["a".toList, "".toList], ["b".toList]] (by decide)).1⟩

/-! ## The exact sample of a large sheet -/

theorem sampleRow_some (rows : Grid) (i : Nat) (st : Grid × List Nat) (hi : i < rows.length) :
    ∃ st1, sampleRow rows i st = some st1 ∧ st1.2 = st.2 ++ [i] ∧
      st1.1.length = st.1.length + 1 := by
  unfold sampleRow
  rw [List.getElem?_eq_getElem hi]
  exact ⟨_, rfl, rfl, by simp⟩

theorem smartSample_mapping (rows : Grid) (h : rows.length > 50) :
    ∃ st, smartSample rows = some st ∧
      st.2 = List.range 10 ++
        (List.range (min 20 ((rows.length - 11) / 5))).map (fun j => 10 + 5 * j) ++
        List.range' (rows.length - 5) 5 := by
  -- first 10 rows
  obtain ⟨st1, j1, hl1, hP1, hc1, -⟩ := forLoop_inv
    (fun i => decide (i < 10) && decide (i < rows.length)) 1 (sampleRow rows)
    (fun i (st : Grid × List Nat) => st.2 = List.range i ∧ st.1.length = i ∧ i ≤ 10) rows.length (by omega)
    (fun i hi => by simp at hi; omega)
    (fun i st hc hP => by
      simp at hc
      obtain ⟨st1, hs, h2, h1⟩ := sampleRow_some rows i st hc.2
      refine ⟨st1, hs, ?_, by omega, by omega⟩
      rw [h2, hP.1, List.range_succ])
    rows.length 0 ([], []) (by omega) ⟨by simp, by simp, by omega⟩
  have hj1 : j1 = 10 := by
    simp at hc1
    have := hP1.2.2
    omega
  subst hj1
  -- every 5th row of the middle section
  obtain ⟨st2, j2, hl2, hP2, hc2, -⟩ := forLoop_inv
    (fun i => decide (i < rows.length - 5)) 5
    (fun i (st : Grid × List Nat) => if st.1.length < 30 then sampleRow rows i st
      else some st)
    (fun i (st : Grid × List Nat) => ∃ j, i = 10 + 5 * j ∧
      st.2 = List.range 10 ++ (List.range (min 20 j)).map (fun t => 10 + 5 * t) ∧
      st.1.length = 10 + min 20 j ∧ (j = 0 ∨ 10 + 5 * (j - 1) < rows.length - 5))
    rows.length (by omega)
    (fun i hi => by simp at hi; omega)
    (fun i st hc hP => by
      simp at hc
      obtain ⟨j, hij, hm, hlen, -⟩ := hP
      by_cases hlt : st.1.length < 30
      · obtain ⟨st1, hs, h2, h1⟩ := sampleRow_some rows i st (by omega)
        have hj20 : j < 20 := by omega
        refine ⟨st1, by simp [hlt, hs], j + 1, by omega, ?_, by omega, ?_⟩
        · have hr : List.range (j + 1) = List.range j ++ [j] := List.range_succ j
          rw [h2, hm, Nat.min_eq_right (by omega), Nat.min_eq_right (by omega),
            hr, List.map_append, List.map_singleton, hij, List.append_assoc]
        · right
          simp only [Nat.add_sub_cancel]
          omega
      · have hj20 : 20 ≤ j := by omega
        refine ⟨st, by simp [hlt], j + 1, by omega, ?_, by omega, ?_⟩
        · rw [hm, Nat.min_eq_left hj20, Nat.min_eq_left (by omega)]
        · right
          simp only [Nat.add_sub_cancel]
          omega)
    rows.length 10 st1 (by omega)
    ⟨0, rfl, by simp [hP1.1], by simp [hP1.2.1], Or.inl rfl⟩
  obtain ⟨J, hJ, hm2, -, hprev⟩ := hP2
  have hJval : J = (rows.length - 11) / 5 := by
    simp at hc2
    omega
  -- last 5 rows
  obtain ⟨st3, j3, hl3, hP3, hc3, -⟩ := forLoop_inv
    (fun i => decide (i < rows.length)) 1
    (fun i (st : Grid × List Nat) => if i > 10 then sampleRow rows i st else some st)
    (fun i (st : Grid × List Nat) => rows.length - 5 ≤ i ∧ i ≤ rows.length ∧
      st.2 = st2.2 ++ List.range' (rows.length - 5) (i - (rows.length - 5)))
    rows.length (by omega)
    (fun i hi => by simpa using hi)
    (fun i st hc hP => by
      simp at hc
      have h10 : i > 10 := by omega
      obtain ⟨st1, hs, h2, -⟩ := sampleRow_some rows i st hc
      refine ⟨st1, by simp [h10, hs], by omega, by omega, ?_⟩
      have hk : i + 1 - (rows.length - 5) = (i - (rows.length - 5)) + 1 := by omega
      rw [h2, hP.2.2, hk, List.range'_concat, List.append_assoc]
      congr 3
      omega)
    rows.length (rows.length - 5) st2 (by omega)
    ⟨le_refl _, by omega, by simp⟩
  have hj3 : j3 = rows.length := by
    simp at hc3
    omega
  have h20 : rows.length > 20 := by omega
  refine ⟨st3, by simp [smartSample, h, h20, hl1, hl2, hl3], ?_⟩
  rw [hP3.2.2, hm2, hj3, hJval]
  congr 2
  omega

/-- C25: for a grid of more than 50 rows the row mapping returned by `smartSample` is,
in this order, the indices 0 to 9, then the first 20 (or all, if fewer) of the indices
10, 15, 20, ... that are smaller than `n - 5`, then the indices `n - 5` to `n - 1`. The
mapping has the length of the sampled rows, is strictly increasing, every entry is a row
index, and sampled row `k` is row `rowMapping[k]` of the grid. -/
theorem smartSample_mapping_of_gt_50 (rows : Grid) (h : rows.length > 50) :
    ∃ analysisRows rowMapping, smartSample rows = some (analysisRows, rowMapping) ∧
      rowMapping = List.range 10 ++
        (List.range (min 20 ((rows.length - 11) / 5))).map (fun j => 10 + 5 * j) ++
        List.range' (rows.length - 5) 5 ∧
      (∀ j, 10 + 5 * j < rows.length - 5 ↔ j < (rows.length - 11) / 5) ∧
      rowMapping.length = analysisRows.length ∧
      rowMapping.Pairwise (· < ·) ∧ (∀ i ∈ rowMapping, i < rows.length) ∧
      List.Forall₂ (fun row i => rows[i]? = some row) analysisRows rowMapping := by
  obtain ⟨st, hs, hm⟩ := smartSample_mapping rows h
  obtain ⟨st1, hs1, hinv, -⟩ := smartSample_large rows h
  rw [hs] at hs1
  have hst := Option.some.inj hs1
  subst hst
  refine ⟨st.1, st.2, hs, hm, ?_, hinv.1.length_eq.symm, hinv.2.1, hinv.2.2, hinv.1⟩
  intro j
  omega

theorem smartSample_mapping_of_gt_50_witness :
    (List.replicate 61 ["x".toList]).length > 50 ∧
    ∃ analysisRows rowMapping,
      smartSample (List.replicate 61 ["x".toList]) = some (analysisRows, rowMapping) ∧
      rowMapping = List.range 10 ++
        (List.range (min 20 (((List.replicate 61 ["x".toList]).length - 11) / 5))).map
          (fun j => 10 + 5 * j) ++
        List.range' ((List.replicate 61 ["x".toList]).length - 5) 5 :=
  ⟨by simp only [List.length_replicate]; decide,
    (smartSample_mapping_of_gt_50 (List.replicate 61 ["x".toList])
      (by simp only [List.length_replicate]; decide)).imp
      (fun _ h => h.imp (fun _ h => ⟨h.1, h.2.1⟩))⟩

/-! ## Numbers -/

/-- C26 (as stated): a number parser that accepts the special values of
`strconv.ParseFloat` makes `detectDataType` classify `NaN`, `Infinity` and `-inf` as
number. -/
theorem detectDataType_nan_counterexample :
    detectDataType specialFloatLib "NaN".toList = "number".toList ∧
    detectDataType specialFloatLib "Infinity".toList = "number".toList ∧
    detectDataType specialFloatLib " -inf ".toList = "number".toList := by
  decide

/-- C26 (amended): `detectDataType` returns `number` exactly when the trimmed value
neither starts nor ends with `$` and the text left after removing every `,` and `$` is
accepted by `strconv.ParseFloat`, whatever that parser accepts. The tokens `NaN`,
`Infinity` and `-inf` are classified as number by every parser that accepts them, as
`strconv.ParseFloat` does. -/
theorem detectDataType_number_iff (E : Stdlib) (value : GoString) :
    (detectDataType E value = "number".toList ↔
      ¬ IsCurrency (trimSpace value) ∧ IsNumeric E (trimSpace value)) ∧
    (E.parseFloatOk "NaN".toList = true → detectDataType E "NaN".toList = "number".toList) ∧
    (E.parseFloatOk "Infinity".toList = true →
      detectDataType E "Infinity".toList = "number".toList) ∧
    (E.parseFloatOk "-inf".toList = true →
      detectDataType E " -inf ".toList = "number".toList) := by
  obtain ⟨c1, c2, c3, c4, c5, c6⟩ := detectDataType_chain E value
  refine ⟨⟨?_, ?_⟩, ?_, ?_, ?_⟩
  · intro hnum
    by_cases h1 : IsCurrency (trimSpace value)
    · rw [c1 h1] at hnum
      exact absurd hnum (by decide)
    · by_cases h2 : IsNumeric E (trimSpace value)
      · exact ⟨h1, h2⟩
      · exfalso
        by_cases h3 : HasDate (trimSpace value)
        · rw [c3 h1 h2 h3] at hnum
          exact absurd hnum (by decide)
        · by_cases h4 : IsEmail (trimSpace value)
          · rw [c4 h1 h2 h3 h4] at hnum
            exact absurd hnum (by decide)
          · by_cases h5 : IsPhone E (trimSpace value)
            · rw [c5 h1 h2 h3 h4 h5] at hnum
              exact absurd hnum (by decide)
            · rw [c6 h1 h2 h3 h4 h5] at hnum
              exact absurd hnum (by decide)
  · rintro ⟨h1, h2⟩
    exact c2 h1 h2
  · intro hacc
    refine (detectDataType_chain E "NaN".toList).2.1 ?_ ?_
    · intro h
      exact absurd ((isCurrency_iff _).mpr h) (by decide)
    · exact hacc
  · intro hacc
    refine (detectDataType_chain E "Infinity".toList).2.1 ?_ ?_
    · intro h
      exact absurd ((isCurrency_iff _).mpr h) (by decide)
    · exact hacc
  · intro hacc
    refine (detectDataType_chain E " -inf ".toList).2.1 ?_ ?_
    · intro h
      exact absurd ((isCurrency_iff _).mpr h) (by decide)
    · have hclean : replaceAll (replaceAll (trimSpace " -inf ".toList) ',' []) '$' [] =
          "-inf".toList := by decide
      unfold IsNumeric
      rw [hclean]
      exact hacc

/-! ## Ties between data types -/

theorem columnPick_spec (o : MapOrder) (ho : o.Valid) (col : Nat) (cells : List CellInfo)
    (p : Nat × GoString) (hp : columnPick o (col, cells) = some p) :
    p.1 = col ∧ cells.length > 2 ∧ typeCount cells p.2 > 1 ∧
      ∀ t, typeCount cells t ≤ typeCount cells p.2 := by
  obtain ⟨hmax, hattained⟩ := dominantDataType_spec o ho (col + 1) cells
  unfold columnPick at hp
  split at hp
  · next hcond =>
    have hp1 := congrArg Prod.fst (Option.some.inj hp)
    have hp2 := congrArg Prod.snd (Option.some.inj hp)
    simp only at hp1 hp2 hcond
    rw [← hp2, hattained (by omega)]
    exact ⟨hp1.symm, hcond.1, hcond.2, hmax⟩
  · cases hp

/-- C27 (as stated): on four cells of one column whose types tie, text being met first,
the inferred candidate has type number when the entries of the map `dataTypes` are
visited in the opposite order, and type text when they are visited in the order of
insertion: the list of data cells does not determine the result. -/
theorem generateFieldCandidates_tie_counterexample :
    reverseOrder.Valid ∧ insertionOrder.Valid ∧
    (tieDataCells.map (fun c => c.data_type)).head? = some "text".toList ∧
    (generateFieldCandidates asciiLib reverseOrder [] tieDataCells).map
      (fun c => c.data_type) = ["number".toList] ∧
    (generateFieldCandidates asciiLib insertionOrder [] tieDataCells).map
      (fun c => c.data_type) = ["text".toList] :=
  ⟨reverseOrder_valid, insertionOrder_valid, by decide, by decide, by decide⟩

/-- C27 (amended): whatever the order in which the maps are visited, every inferred
candidate of `generateFieldCandidates` belongs to a column with more than 2 data
cells and carries a data type with the highest count among the cells of that column,
a count above 1; which of several types with the highest count it carries is not
determined by the data cells. When a single type has the highest count the candidate
carries that type. -/
theorem generateFieldCandidates_dominant (E : Stdlib) (o : MapOrder) (ho : o.Valid)
    (headerCandidates dataCells : List CellInfo) :
    ∀ c ∈ generateFieldCandidates E o headerCandidates dataCells, c.inferred = true →
      ∃ col, c = inferredCandidate E col c.data_type ∧
        (columnCells dataCells col).length > 2 ∧
        typeCount (columnCells dataCells col) c.data_type > 1 ∧
        (∀ t, typeCount (columnCells dataCells col) t ≤
          typeCount (columnCells dataCells col) c.data_type) ∧
        ∀ t, (∀ u, u ≠ t → typeCount (columnCells dataCells col) u <
            typeCount (columnCells dataCells col) t) → c.data_type = t := by
  intro c hc hinf
  unfold generateFieldCandidates at hc
  rw [flatten_columnCandidates, List.mem_append] at hc
  rcases hc with hc | hc
  · rw [List.mem_map] at hc
    obtain ⟨hd, -, rfl⟩ := hc
    simp [headerCandidate] at hinf
  · rw [List.mem_map] at hc
    obtain ⟨p, hp, rfl⟩ := hc
    rw [columnPick_mem_iff o ho] at hp
    obtain ⟨-, hlen, hcnt, hmax⟩ := columnPick_spec o ho _ _ p hp
    have hdt : (inferredCandidate E p.1 p.2).data_type = p.2 := by
      simp only [inferredCandidate]
    rw [hdt]
    refine ⟨p.1, rfl, hlen, hcnt, hmax, ?_⟩
    intro t ht
    by_contra hne
    have h1 := ht p.2 hne
    have h2 := hmax t
    omega

theorem generateFieldCandidates_dominant_witness :
    insertionOrder.Valid ∧
    ∀ c ∈ generateFieldCandidates asciiLib insertionOrder [] sampleDataCells,
      c.inferred = true →
      ∃ col, c = inferredCandidate asciiLib col c.data_type ∧
        (columnCells sampleDataCells col).length > 2 ∧
        typeCount (columnCells sampleDataCells col) c.data_type > 1 ∧
        (∀ t, typeCount (columnCells sampleDataCells col) t ≤
          typeCount (columnCells sampleDataCells col) c.data_type) ∧
        ∀ t, (∀ u, u ≠ t → typeCount (columnCells sampleDataCells col) u <
            typeCount (columnCells sampleDataCells col) t) → c.data_type = t :=
  ⟨insertionOrder_valid,
    generateFieldCandidates_dominant asciiLib insertionOrder insertionOrder_valid []
      sampleDataCells⟩

/-! ## Idempotence of the field name -/

theorem generateFieldName_eq (E : Stdlib) (s : GoString) :
    generateFieldName E s =
      match fieldNameCore E s with
      | [] => []
      | c :: rest =>
        if E.isDigit (Char.ofNat (utf8FirstByte c)) then "field_".toList ++ (c :: rest)
        else c :: rest := by
  unfold generateFieldName fieldNameCore
  simp only
  generalize List.filter _ _ = result
  cases result <;> rfl

theorem dropWhile_of_all_false {α : Type} (p : α → Bool) (l : List α)
    (h : ∀ a ∈ l, p a = false) : l.dropWhile p = l := by
  cases l with
  | nil => rfl
  | cons a l => simp [List.dropWhile, h a (List.mem_cons_self _ _)]

theorem trimSpace_of_no_space (s : GoString) (h : ∀ c ∈ s, isSpace c = false) :
    trimSpace s = s := by
  unfold trimSpace
  rw [dropWhile_of_all_false _ s h, dropWhile_of_all_false _ s.reverse
    (fun c hc => h c (List.mem_reverse.mp hc)), List.reverse_reverse]

theorem fieldNameCore_good (E : Stdlib) (hA : E.Ascii) (hI : E.LowerIdempotent)
    (s : GoString) :
    ∀ c ∈ fieldNameCore E s,
      (E.isLetter c || E.isDigit c || c == '_') = true ∧ E.toLower c = c := by
  intro c hc
  unfold fieldNameCore at hc
  simp only at hc
  rw [List.mem_filter] at hc
  refine ⟨hc.2, ?_⟩
  have hrep : ∀ (x : GoString) (old : Char) (new : GoString),
      (∀ c ∈ x, E.toLower c = c) → (∀ c ∈ new, E.toLower c = c) →
      ∀ c ∈ replaceAll x old new, E.toLower c = c := by
    intro x old new hx hn c hc
    rcases mem_replaceAll x old new c hc with ⟨h1, -⟩ | h2
    · exact hx c h1
    · exact hn c h2
  have hl : ∀ c ∈ E.lower (trimSpace s), E.toLower c = c := by
    intro c hc
    unfold Stdlib.lower at hc
    rw [List.mem_map] at hc
    obtain ⟨x, -, rfl⟩ := hc
    exact hI x
  have hu : ∀ c ∈ "_".toList, E.toLower c = c := by
    intro c hc
    have hc1 : c = '_' := by simpa using hc
    subst hc1
    rw [(hA '_' (by decide)).1]
    rfl
  have hnil : ∀ c ∈ ([] : GoString), E.toLower c = c := by simp
  exact hrep _ ')' [] (hrep _ '(' [] (hrep _ '#' [] (hrep _ ':' []
    (hrep _ '-' "_".toList (hrep _ ' ' "_".toList hl hu) hu) hnil) hnil) hnil) hnil c hc.1

theorem fieldNameCore_fixed (E : Stdlib) (hA : E.Ascii) (hS : E.SpaceNotAlnum)
    (r : GoString)
    (hr : ∀ c ∈ r, (E.isLetter c || E.isDigit c || c == '_') = true ∧ E.toLower c = c) :
    fieldNameCore E r = r := by
  have hns : ∀ c ∈ r, isSpace c = false := by
    intro c hc
    cases hsp : isSpace c with
    | false => rfl
    | true =>
      exfalso
      obtain ⟨h1, h2⟩ := hS c hsp
      have h3 := (hr c hc).1
      rw [h1, h2] at h3
      have h4 : c = '_' := by simpa using h3
      rw [h4] at hsp
      exact absurd hsp (by decide)
  have hnot : ∀ ch : Char, ch.toNat < 128 →
      (asciiLib.isLetter ch || digit ch || ch == '_') = false → ch ∉ r := by
    intro ch h128 hbad hmem
    have h3 := (hr ch hmem).1
    rw [(hA ch h128).2.1, (hA ch h128).2.2, hbad] at h3
    cases h3
  have htrim := trimSpace_of_no_space r hns
  have hlow : E.lower r = r := by
    unfold Stdlib.lower
    rw [List.map_congr_left (fun c hc => (hr c hc).2)]
    exact List.map_id' r
  unfold fieldNameCore
  simp only
  rw [htrim, hlow, replaceAll_of_not_mem r ' ' _ (hnot ' ' (by decide) (by decide)),
    replaceAll_of_not_mem r '-' _ (hnot '-' (by decide) (by decide)),
    replaceAll_of_not_mem r ':' _ (hnot ':' (by decide) (by decide)),
    replaceAll_of_not_mem r '#' _ (hnot '#' (by decide) (by decide)),
    replaceAll_of_not_mem r '(' _ (hnot '(' (by decide) (by decide)),
    replaceAll_of_not_mem r ')' _ (hnot ')' (by decide) (by decide))]
  exact List.filter_eq_self.mpr (fun c hc => (hr c hc).1)

theorem asciiLib_lowerIdempotent : asciiLib.LowerIdempotent := by
  intro c
  show asciiToLower (asciiToLower c) = asciiToLower c
  by_cases h : 'A' ≤ c ∧ c ≤ 'Z'
  · have h1 : 65 ≤ c.toNat := by
      have := h.1
      rw [Char.le_def] at this
      exact this
    have h2 : c.toNat ≤ 90 := by
      have := h.2
      rw [Char.le_def] at this
      exact this
    have h5 := toNat_ofNat_small (c.toNat + 32) (by omega)
    have hlow : asciiToLower c = Char.ofNat (c.toNat + 32) := by
      unfold asciiToLower
      rw [if_pos h]
    rw [hlow]
    unfold asciiToLower
    rw [if_neg]
    rintro ⟨-, hz⟩
    rw [Char.le_def] at hz
    have hz1 : (Char.ofNat (c.toNat + 32)).toNat ≤ 90 := hz
    omega
  · have hlow : asciiToLower c = c := by
      unfold asciiToLower
      rw [if_neg h]
    rw [hlow, hlow]

theorem asciiLib_spaceNotAlnum : asciiLib.SpaceNotAlnum := by
  intro c hsp
  have hn : c.toNat ≤ 32 ∨ 128 ≤ c.toNat := by
    unfold isSpace at hsp
    simp only [Bool.or_eq_true, Bool.and_eq_true, decide_eq_true_eq, beq_iff_eq] at hsp
    omega
  have hle : ∀ a b : Char, (decide (a ≤ b) = true) ↔ a.toNat ≤ b.toNat := by
    intro a b
    rw [decide_eq_true_eq, Char.le_def]
    exact Iff.rfl
  constructor
  · show (('a' ≤ c && c ≤ 'z') || ('A' ≤ c && c ≤ 'Z')) = false
    simp only [Bool.or_eq_false_iff, Bool.and_eq_false_iff, decide_eq_false_iff_not,
      Char.le_def]
    have e1 : ('a' : Char).toNat = 97 := rfl
    have e2 : ('z' : Char).toNat = 122 := rfl
    have e3 : ('A' : Char).toNat = 65 := rfl
    have e4 : ('Z' : Char).toNat = 90 := rfl
    constructor
    · by_cases hx : ('a' : Char).val ≤ c.val
      · right
        intro hy
        have hy1 : c.toNat ≤ ('z' : Char).toNat := hy
        have hx1 : ('a' : Char).toNat ≤ c.toNat := hx
        omega
      · exact Or.inl hx
    · by_cases hx : ('A' : Char).val ≤ c.val
      · right
        intro hy
        have hy1 : c.toNat ≤ ('Z' : Char).toNat := hy
        have hx1 : ('A' : Char).toNat ≤ c.toNat := hx
        omega
      · exact Or.inl hx
  · show digit c = false
    unfold digit
    simp only [Bool.and_eq_false_iff, decide_eq_false_iff_not, Char.le_def]
    have e1 : ('0' : Char).toNat = 48 := rfl
    have e2 : ('9' : Char).toNat = 57 := rfl
    by_cases hx : ('0' : Char).val ≤ c.val
    · right
      intro hy
      have hy1 : c.toNat ≤ ('9' : Char).toNat := hy
      have hx1 : ('0' : Char).toNat ≤ c.toNat := hx
      omega
    · exact Or.inl hx

/-- C29: `generateFieldName` is idempotent: applied to its own result it returns that
result, so the prefix `field_` is never added twice (`2nd Item` gives `field_2nd_item`,
which is left as it is). The library tables are assumed to agree with ASCII on ASCII
characters, to lower-case idempotently, and to have no white space among the letters
and digits. -/
theorem generateFieldName_idempotent (E : Stdlib) (hA : E.Ascii) (hI : E.LowerIdempotent)
    (hS : E.SpaceNotAlnum) (s : GoString) :
    generateFieldName E (generateFieldName E s) = generateFieldName E s ∧
    generateFieldName E "2nd Item".toList = "field_2nd_item".toList ∧
    generateFieldName E "field_2nd_item".toList = "field_2nd_item".toList := by
  refine ⟨?_, ?_, ?_⟩
  · have hgood := fieldNameCore_good E hA hI s
    rw [generateFieldName_eq E s]
    cases hcore : fieldNameCore E s with
    | nil =>
      simp only
      rw [generateFieldName_eq, fieldNameCore_fixed E hA hS [] (by simp)]
    | cons c rest =>
      rw [hcore] at hgood
      simp only
      by_cases hd : E.isDigit (Char.ofNat (utf8FirstByte c)) = true
      · rw [if_pos hd]
        have hpre : ∀ x ∈ "field_".toList ++ c :: rest,
            (E.isLetter x || E.isDigit x || x == '_') = true ∧ E.toLower x = x := by
          intro x hx
          rw [List.mem_append] at hx
          rcases hx with hx | hx
          · have hx128 : x.toNat < 128 := by
              revert x
              decide
            have hxa : (asciiLib.isLetter x || digit x || x == '_') = true ∧
                asciiToLower x = x := by
              revert x
              decide
            rw [(hA x hx128).1, (hA x hx128).2.1, (hA x hx128).2.2]
            exact hxa
          · exact hgood x hx
        rw [generateFieldName_eq, fieldNameCore_fixed E hA hS _ hpre]
        have hf : E.isDigit (Char.ofNat (utf8FirstByte 'f')) = false := by
          have h1 : Char.ofNat (utf8FirstByte 'f') = 'f' := by decide
          rw [h1, (hA 'f' (by decide)).2.2]
          decide
        show (if E.isDigit (Char.ofNat (utf8FirstByte 'f')) = true then _ else _) = _
        rw [if_neg (by rw [hf]; decide)]
        rfl
      · rw [if_neg hd, generateFieldName_eq, fieldNameCore_fixed E hA hS _ hgood]
        simp only
        rw [if_neg hd]
  · rw [generateFieldName_ascii E hA _ (by decide)]
    decide
  · rw [generateFieldName_ascii E hA _ (by decide)]
    decide

theorem generateFieldName_idempotent_witness :
    asciiLib.Ascii ∧ asciiLib.LowerIdempotent ∧ asciiLib.SpaceNotAlnum ∧
    generateFieldName asciiLib (generateFieldName asciiLib "2nd Item (new)".toList) =
      generateFieldName asciiLib "2nd Item (new)".toList :=
  ⟨asciiLib_ascii, asciiLib_lowerIdempotent, asciiLib_spaceNotAlnum,
    (generateFieldName_idempotent asciiLib asciiLib_ascii asciiLib_lowerIdempotent
      asciiLib_spaceNotAlnum "2nd Item (new)".toList).1⟩

/-! ## The range of the header row -/

theorem nonBlankCount_eq_zero_iff (row : List GoString) :
    nonBlankCount row = 0 ↔ ∀ cell ∈ row, trimSpace cell = [] := by
  unfold nonBlankCount
  rw [List.length_eq_zero, List.filter_eq_nil_iff]
  constructor
  · intro h cell hc
    simpa using h cell hc
  · intro h cell hc
    simpa using h cell hc

/-- C31: for every grid `findLikelyHeaderRow` returns a value between 0 and the smaller
of 5 and the number of rows. It returns 0, which is no 1-based row index, exactly when
none of the first five rows contains a cell that is not blank after trimming, as for
the empty grid; `findDataStartRow` then returns 1. -/
theorem findLikelyHeaderRow_range (rows : Grid) :
    0 ≤ findLikelyHeaderRow rows ∧
    findLikelyHeaderRow rows ≤ min 5 rows.length ∧
    (findLikelyHeaderRow rows = 0 ↔
      ∀ j row, j < 5 → rows[j]? = some row → ∀ cell ∈ row, trimSpace cell = []) ∧
    (findLikelyHeaderRow rows = 0 → findDataStartRow rows = 1) ∧
    findLikelyHeaderRow [] = 0 ∧ findDataStartRow [] = 1 := by
  have hinv := findLikelyHeaderRowLoop_inv rows [] (0, 0) (Or.inl ⟨rfl, by simp⟩)
  rw [List.nil_append, List.length_nil] at hinv
  refine ⟨Nat.zero_le _, ?_, ?_, ?_, rfl, rfl⟩
  · rcases hinv with ⟨hst, -⟩ | ⟨row, -, h2, hrow, -, -, -, -⟩
    · unfold findLikelyHeaderRow
      rw [hst]
      exact Nat.zero_le _
    · have hlt : (findLikelyHeaderRowLoop 0 rows (0, 0)).2 - 1 < rows.length := by
        by_contra hcon
        rw [List.getElem?_eq_none (by omega)] at hrow
        cases hrow
      unfold findLikelyHeaderRow
      omega
  · rcases hinv with ⟨hst, h0⟩ | ⟨row, h1, h2, hrow, hcnt, hpos, -, -⟩
    · constructor
      · intro _ j row hj hrow
        exact (nonBlankCount_eq_zero_iff row).mp (h0 j row hj hrow)
      · intro _
        unfold findLikelyHeaderRow
        rw [hst]
    · constructor
      · intro h0
        unfold findLikelyHeaderRow at h0
        omega
      · intro hall
        exfalso
        have := (nonBlankCount_eq_zero_iff row).mpr
          (hall ((findLikelyHeaderRowLoop 0 rows (0, 0)).2 - 1) row (by omega) hrow)
        omega
  · intro h0
    unfold findDataStartRow
    rw [h0]

end SmartInvoice
